import Mathlib

/-!
# Gain scaling of raw PCM buffers: a model of `src/multiply.cpp`

The file embeds the sample scalers (`Performer`, its two 24-bit
specialisations and `Data::perform`), completion handling (`Data::complete`)
and the `Feed` entry point, and proves properties of them.

Modelling conventions.

* A `float` is an IEEE 754 binary32 value: a dyadic rational `m * 2^e`, an
  infinity or a NaN.  Arithmetic rounds to nearest, ties to even, with a
  24-bit significand, gradual underflow at `2^-149` and overflow to infinity at
  `2^128`.  The sign of a zero is not tracked: no operation used by the program
  observes it.
* Machine integers are `Int`/`Nat` with explicit reduction modulo `2^w`.
* Converting a float to an integer type truncates toward zero.  When the
  truncated value does not fit the destination type (or the float is not
  finite) C++ leaves the conversion undefined; the model takes the result from
  a `Platform`, so that a theorem quantified over platforms does not depend on
  it.  `x86_64` is the platform of the usual compilers for that processor.
* The bytes behind `buffer.data` are carried inside the buffer reference; the
  host is little-endian, as the source requires.
-/

namespace MultiplyPcm

/-! ## binary32 -/

/-- Number of binary digits of `n`, by repeated halving (`fuel` bounds the recursion). -/
def bitLenAux : Nat → Nat → Nat
  | 0, _ => 0
  | fuel + 1, n => if n = 0 then 0 else bitLenAux fuel (n / 2) + 1

/-- Number of binary digits of `n` (`0` for `0`). -/
def bitLen (n : Nat) : Nat := bitLenAux n n

/-- A C++ `float`: the finite value `m * 2^e`, an infinity, or a NaN. -/
inductive F32 where
  | finite (m : Int) (e : Int)
  | inf (neg : Bool)
  | nan
  deriving DecidableEq

namespace F32

/-- Rounding of the exact value `m * 2^e` to binary32: nearest, ties to even. -/
def round (m e : Int) : F32 :=
  let n := m.natAbs
  let ulp : Int := max (e + bitLen n - 24) (-149)
  let s := (ulp - e).toNat
  let k := n / 2 ^ s
  let r := n % 2 ^ s
  let k' := if 2 ^ s < 2 * r ∨ (2 * r = 2 ^ s ∧ k % 2 = 1) then k + 1 else k
  if k' = 0 then finite 0 0
  else if 128 < e + s + bitLen k' then inf (decide (m < 0))
  else finite (if m < 0 then -(k' : Int) else k') (e + s)

/-- Conversion of an integer to `float`. -/
def ofInt (v : Int) : F32 := round v 0

/-- The `float` product. -/
def mul : F32 → F32 → F32
  | finite a e, finite b f => round (a * b) (e + f)
  | finite a _, inf t => if a = 0 then nan else inf (xor (decide (a < 0)) t)
  | inf s, finite b _ => if b = 0 then nan else inf (xor s (decide (b < 0)))
  | inf s, inf t => inf (xor s t)
  | nan, _ => nan
  | _, nan => nan

/-- Truncation toward zero of a finite value; `none` for an infinity or a NaN. -/
def trunc : F32 → Option Int
  | finite m e => some (if 0 ≤ e then m * 2 ^ e.toNat else Int.tdiv m (2 ^ (-e).toNat))
  | _ => none

/-- The comparison `x == 1.`: the value of `x` is exactly one. -/
def eqOne : F32 → Bool
  | finite m e => decide (e ≤ 0 ∧ m = 2 ^ (-e).toNat)
  | _ => false

/-- The exact value of a finite float as a rational number (`0` otherwise). -/
def toRat : F32 → ℚ
  | finite m e => (m : ℚ) * (2 : ℚ) ^ e
  | _ => 0

end F32

/-! ## Integer types and the float-to-integer conversion -/

/-- Reduction of `x` into the `bits`-wide integer type of the given signedness
(two's complement). -/
def wrap (bits : Nat) (signed : Bool) (x : Int) : Int :=
  let u := x % 2 ^ bits
  if signed = true ∧ 2 ^ (bits - 1) ≤ u then u - 2 ^ bits else u

/-- Whether `t` is a value of the `bits`-wide integer type of the given signedness. -/
def inRange (bits : Nat) (signed : Bool) (t : Int) : Bool :=
  if signed then decide (-(2 ^ (bits - 1)) ≤ t ∧ t < 2 ^ (bits - 1))
  else decide (0 ≤ t ∧ t < 2 ^ bits)

/-- What the compiled program yields for a float-to-integer conversion that C++
leaves undefined. -/
structure Platform where
  outOfRange : Nat → Bool → F32 → Int

/-- Conversion of a float to the `bits`-wide integer type of the given signedness. -/
def toInt (P : Platform) (bits : Nat) (signed : Bool) (x : F32) : Int :=
  match x.trunc with
  | some t => if inRange bits signed t then t else wrap bits signed (P.outOfRange bits signed x)
  | none => wrap bits signed (P.outOfRange bits signed x)

/-- The x86 instruction `cvttss2si` with a `regBits`-wide destination: the
truncated value, or the most negative integer when it does not fit. -/
def cvttss2si (regBits : Nat) (x : F32) : Int :=
  match x.trunc with
  | some t => if -(2 ^ (regBits - 1)) ≤ t ∧ t < 2 ^ (regBits - 1) then t else -(2 ^ (regBits - 1))
  | none => -(2 ^ (regBits - 1))

/-- Compilers for x86-64 convert to `uint32_t` through a 64-bit `cvttss2si` and
to every other type used here through the 32-bit one, keeping the low bits. This
is the conversion of one element at a time; for `uint32_t` a loop compiled to
packed conversions can give other values out of range. -/
def x86_64 : Platform where
  outOfRange bits signed x :=
    if bits = 32 ∧ signed = false then cvttss2si 64 x else cvttss2si 32 x

/-! ## Memory -/

abbrev Byte := Fin 256

/-- The low eight bits of `n`. -/
def byteOfNat (n : Nat) : Byte := ⟨n % 256, Nat.mod_lt _ (by decide)⟩

/-- The pointer read `p[i]`. -/
def rd (buf : List Byte) (i : Nat) : Byte := buf.getD i 0

/-- The pointer write `p[i] = b`. -/
def wr (buf : List Byte) (i : Nat) (b : Byte) : List Byte := buf.set i b

/-- The `w` bytes at offset `off`. -/
def load (buf : List Byte) (off w : Nat) : List Byte :=
  (List.range w).map fun k => rd buf (off + k)

/-- Writing `bytes` at offset `off`. -/
def store : List Byte → Nat → List Byte → List Byte
  | buf, _, [] => buf
  | buf, off, b :: bs => store (wr buf off b) (off + 1) bs

/-- The number a little-endian byte sequence stands for. -/
def leNat : List Byte → Nat
  | [] => 0
  | b :: bs => b.val + 256 * leNat bs

/-- The `w` little-endian bytes of `n`. -/
def leBytes : Nat → Nat → List Byte
  | 0, _ => []
  | w + 1, n => byteOfNat n :: leBytes w (n / 256)

/-- The bit pattern of a `bits`-wide integer. -/
def toBits (bits : Nat) (x : Int) : Nat := (x % 2 ^ bits).toNat

/-- The loop `for (int i = 0; i < iterations; ++i, type += stride) body`. -/
def forLoop (body : Nat → List Byte → List Byte) (stride : Nat) :
    Nat → Nat → List Byte → List Byte
  | 0, _, buf => buf
  | n + 1, off, buf => forLoop body stride n (off + stride) (body off buf)

/-! ## The scalers -/

/-- One iteration of the generic `Performer<Increment, Signed, Type>`:
`*type = *type * multiply` for the `Increment`-bit integer type `Type`. -/
def Performer.body (P : Platform) (Increment : Nat) (Signed : Bool) (multiply : F32)
    (off : Nat) (buf : List Byte) : List Byte :=
  let v : Int := wrap Increment Signed (leNat (load buf off (Increment / 8)))
  let r : Int := toInt P Increment Signed (F32.mul (F32.ofInt v) multiply)
  store buf off (leBytes (Increment / 8) (toBits Increment r))

/-- The generic `Performer::perform`. -/
def Performer.perform (P : Platform) (Increment : Nat) (Signed : Bool) (multiply : F32)
    (iterations : Int) (buf : List Byte) : List Byte :=
  forLoop (Performer.body P Increment Signed multiply) (Increment / 8) iterations.toNat 0 buf

/-- One iteration of `Performer<24, true, Type>`. The union of `data8[4]` and
`data32` is a 32-bit pattern read either way. -/
def Performer24Signed.body (P : Platform) (multiply : F32) (off : Nat) (buf : List Byte) :
    List Byte :=
  let flag : Nat := (rd buf (off + 2)).val &&& 0x80
  let data8 : List Byte :=
    [rd buf off, rd buf (off + 1), byteOfNat ((rd buf (off + 2)).val &&& 0x7f), byteOfNat flag]
  let data32 : Int := wrap 32 true (leNat data8)
  let data32 : Int := toInt P 32 true (F32.mul (F32.ofInt data32) multiply)
  let pattern : Nat := toBits 32 data32 &&& 0x7fffff
  let buf := wr buf off (byteOfNat pattern)
  let buf := wr buf (off + 1) (byteOfNat (pattern >>> 8))
  wr buf (off + 2) (byteOfNat ((byteOfNat (pattern >>> 16)).val ||| flag))

/-- The specialisation `Performer<24, true, Type>::perform`. -/
def Performer24Signed.perform (P : Platform) (multiply : F32) (iterations : Int)
    (buf : List Byte) : List Byte :=
  forLoop (Performer24Signed.body P multiply) 3 iterations.toNat 0 buf

/-- One iteration of `Performer<24, false, Type>`. -/
def Performer24Unsigned.body (P : Platform) (multiply : F32) (off : Nat) (buf : List Byte) :
    List Byte :=
  let data8 : List Byte := [rd buf off, rd buf (off + 1), rd buf (off + 2), 0]
  let data32 : Int := wrap 32 false (leNat data8)
  let data32 : Int := toInt P 32 false (F32.mul (F32.ofInt data32) multiply)
  let pattern : Nat := toBits 32 data32 &&& 0xffffff
  let buf := wr buf off (byteOfNat pattern)
  let buf := wr buf (off + 1) (byteOfNat (pattern >>> 8))
  wr buf (off + 2) (byteOfNat (pattern >>> 16))

/-- The specialisation `Performer<24, false, Type>::perform`. -/
def Performer24Unsigned.perform (P : Platform) (multiply : F32) (iterations : Int)
    (buf : List Byte) : List Byte :=
  forLoop (Performer24Unsigned.body P multiply) 3 iterations.toNat 0 buf

/-! ## The processor -/

/-- `Data::Format`. -/
structure Format where
  channels : Int
  bitsPerSample : Int
  sampleRate : Int
  isSigned : Bool
  deriving DecidableEq

/-- The borrowed buffer: its address and the bytes behind it (`size` is their number). -/
structure Buffer where
  data : Nat
  mem : List Byte
  deriving DecidableEq

/-- `buffer.size`. -/
def Buffer.size (b : Buffer) : Nat := b.mem.length

/-- The fields of `Data` the operations read or write. `persistentData` is the
address of the buffer object kept alive, if any. -/
structure Data where
  multiply : F32
  working : Bool
  collected : Bool
  formats : List Format
  buffer : Buffer
  persistentData : Option Nat
  deriving DecidableEq

/-- What an operation does to the outside: an exception handed to the caller,
an invocation of the completion callback (with the processor as the callback
finds it), a job handed to `uv_queue_work`, the deletion of the processor. -/
inductive Event where
  | throwError (msg : String)
  | call (seen : Data)
  | queueWork
  | destroy
  deriving DecidableEq

/-- The scaler selected by `Data::perform` for a format, run on the bytes of a
buffer; `none` when the division by `bytesPerSample` is a division by zero.
`size_t` has 64 bits. -/
def Data.scale (P : Platform) (format : Format) (multiply : F32) (mem : List Byte) :
    Option (List Byte) :=
  let bytesPerSample : Int := format.bitsPerSample >>> 3
  if bytesPerSample = 0 then none
  else
    let iterations : Int := wrap 32 true ((mem.length / toBits 64 bytesPerSample : Nat) : Int)
    let isSigned := format.isSigned
    if format.bitsPerSample = 8 then
      some (Performer.perform P 8 isSigned multiply iterations mem)
    else if format.bitsPerSample = 16 then
      some (Performer.perform P 16 isSigned multiply iterations mem)
    else if format.bitsPerSample = 24 then
      if isSigned then some (Performer24Signed.perform P multiply iterations mem)
      else some (Performer24Unsigned.perform P multiply iterations mem)
    else if format.bitsPerSample = 32 then
      some (Performer.perform P 32 isSigned multiply iterations mem)
    else some mem

/-- `Data::perform`: scales the borrowed buffer in place with `formats.front()`;
`none` when there is no front format or the division traps. -/
def Data.perform (P : Platform) (d : Data) : Option Data :=
  match d.formats.head? with
  | none => none
  | some format =>
    (Data.scale P format d.multiply d.buffer.mem).map fun mem =>
      { d with buffer := { d.buffer with mem := mem } }

/-- `Data::complete`. `callOk` tells whether the callback could be invoked. The
result is the processor afterwards (`none` once deleted) and what happened. -/
def Data.complete (callOk : Bool) (d : Data) : Option Data × List Event :=
  if d.collected then (none, [Event.destroy])
  else
    let d := { d with persistentData := none, working := false }
    let d :=
      if d.formats.length > 1 then
        match d.formats.getLast? with
        | some f => { d with formats := [f] }
        | none => d
      else d
    (some d, Event.call d :: (if callOk then [] else [Event.throwError "Failed to call"]))

/-- What `info[0]` is: not an object, an object without the private external,
or the handle of the processor. -/
inductive Arg where
  | notObject
  | plainObject
  | handle
  deriving DecidableEq

/-- `Feed(info[0], info[1])` on the processor `d` behind the handle; `info1` is the
buffer argument. -/
def Feed (callOk : Bool) (info0 : Arg) (info1 : Buffer) (d : Data) : Option Data × List Event :=
  match info0 with
  | .notObject => (some d, [Event.throwError "Argument must be an object"])
  | .plainObject => (some d, [Event.throwError "Argument must have an external"])
  | .handle =>
    if d.working then (some d, [Event.throwError "Already doing work"])
    else if d.formats.isEmpty then (some d, [Event.throwError "No format set"])
    else if info1.size = 0 then (some d, [])
    else
      let r : Option Data × List Event :=
        if F32.eqOne d.multiply then Data.complete callOk d else (some d, [])
      (r.1.map fun d =>
          { d with buffer := info1, persistentData := some info1.data, working := true },
        r.2 ++ [Event.queueWork])

/-! ## Constants used in the statements -/

/-- The gain `1.0`. -/
def F32.one : F32 := F32.finite 1 0

/-- The gain `2.0`. -/
def F32.two : F32 := F32.finite 1 1

/-! ## Definitions used to state the properties -/

/-- Applies `f` to each of the first `n` consecutive `w`-byte samples of a buffer
and leaves the bytes after them as they are. -/
def mapSamples (w : Nat) (f : List Byte → List Byte) : Nat → List Byte → List Byte
  | 0, buf => buf
  | n + 1, buf => f (buf.take w) ++ mapSamples w f n (buf.drop w)

/-- The integer that the bytes of one sample of the `bits`-wide type stand for. -/
def sampleValue (bits : Nat) (signed : Bool) (bytes : List Byte) : Int :=
  wrap bits signed (leNat bytes)

/-- The `i`-th `bits`-wide sample of a buffer. -/
def sampleAt (bits : Nat) (signed : Bool) (buf : List Byte) (i : Nat) : Int :=
  sampleValue bits signed (load buf (i * (bits / 8)) (bits / 8))

/-- The bytes of a value of the `bits`-wide type. -/
def sampleBytes (bits : Nat) (x : Int) : List Byte := leBytes (bits / 8) (toBits bits x)

/-! ### The packing rule of the 24-bit signed scaler, step by step -/

/-- Step 1: the sign flag, bit 7 of the third byte. -/
def Signed24.flag (b2 : Byte) : Nat := b2.val &&& 0x80

/-- Step 1: the 32-bit signed integer staged from the little-endian bytes
`(b0, b1, b2 & 0x7F, flag)`. -/
def Signed24.staged (b0 b1 b2 : Byte) : Int :=
  wrap 32 true
    ((b0.val + 2 ^ 8 * b1.val + 2 ^ 16 * (b2.val &&& 0x7f) + 2 ^ 24 * Signed24.flag b2 : Nat) : Int)

/-- Step 2: the staged integer multiplied by the gain and assigned back to the
32-bit signed integer. -/
def Signed24.product (P : Platform) (g : F32) (b0 b1 b2 : Byte) : Int :=
  toInt P 32 true (F32.mul (F32.ofInt (Signed24.staged b0 b1 b2)) g)

/-- Step 3: the product masked with `0x7FFFFF`. -/
def Signed24.masked (P : Platform) (g : F32) (b0 b1 b2 : Byte) : Nat :=
  toBits 32 (Signed24.product P g b0 b1 b2) &&& 0x7fffff

/-- Step 4: the low three bytes of the masked value, the flag OR-ed into the third. -/
def Signed24.output (P : Platform) (g : F32) (b0 b1 b2 : Byte) : List Byte :=
  [byteOfNat (Signed24.masked P g b0 b1 b2),
   byteOfNat (Signed24.masked P g b0 b1 b2 / 2 ^ 8),
   byteOfNat ((byteOfNat (Signed24.masked P g b0 b1 b2 / 2 ^ 16)).val ||| Signed24.flag b2)]

/-- The packing rule applied to every 3-byte sample of a buffer; fewer than three
bytes at the end are left as they are. -/
def Signed24.scale (P : Platform) (g : F32) : List Byte → List Byte
  | b0 :: b1 :: b2 :: rest => Signed24.output P g b0 b1 b2 ++ Signed24.scale P g rest
  | rest => rest

/-- The per-sample function of the 24-bit signed scaler on the bytes of one sample. -/
def Signed24.onSample (P : Platform) (g : F32) : List Byte → List Byte
  | [b0, b1, b2] => Signed24.output P g b0 b1 b2
  | c => c

/-- The rational `q` is a finite binary32 value: `m * 2^e` with a 24-bit `m`. -/
def F32.IsValue (q : ℚ) : Prop :=
  ∃ m e : Int, m.natAbs < 2 ^ 24 ∧ -149 ≤ e ∧ e ≤ 104 ∧ q = (m : ℚ) * 2 ^ e

/-- The per-sample function of the 24-bit unsigned scaler on the bytes of one sample. -/
def Unsigned24.onSample (P : Platform) (g : F32) (c : List Byte) : List Byte :=
  leBytes 3 (toBits 32 (toInt P 32 false (F32.mul (F32.ofInt (leNat c)) g)) &&& 0xffffff)

/-- The per-sample function of the generic scaler on the bytes of one sample. -/
def Performer.onSample (P : Platform) (bits : Nat) (signed : Bool) (g : F32) (c : List Byte) :
    List Byte :=
  sampleBytes bits (toInt P bits signed (F32.mul (F32.ofInt (sampleValue bits signed c)) g))

/-- The integer the scaler of a format converts to `float` for the `i`-th sample:
the sample itself for 8, 16 and 32 bits and for unsigned 24 bits, the staged
integer with the sign flag in its top byte for signed 24 bits. -/
def stagedAt (bitsPerSample : Int) (isSigned : Bool) (buf : List Byte) (i : Nat) : Int :=
  if bitsPerSample = 24 then
    if isSigned then
      Signed24.staged (rd buf (i * 3)) (rd buf (i * 3 + 1)) (rd buf (i * 3 + 2))
    else (leNat (load buf (i * 3) 3) : Int)
  else sampleAt bitsPerSample.toNat isSigned buf i

/-- The per-sample function of the scaler that `Data::perform` selects for a
supported format. -/
def scalerOnSample (P : Platform) (bitsPerSample : Int) (isSigned : Bool) (g : F32) :
    List Byte → List Byte :=
  if bitsPerSample = 24 then
    if isSigned then Signed24.onSample P g else Unsigned24.onSample P g
  else Performer.onSample P bitsPerSample.toNat isSigned g

/-- The number of iterations `Data::perform` computes for a buffer of `len` bytes
and samples of `w` bytes, as the `int` it is stored in. -/
def iterationsOf (len w : Nat) : Nat := (wrap 32 true ((len / w : Nat) : Int)).toNat

/-- The rational `x` lies between the least and the greatest value of the
`bits`-wide integer type of the given signedness. -/
def fitsType (bits : Nat) (signed : Bool) (x : ℚ) : Prop :=
  if signed then -(2 : ℚ) ^ (bits - 1) ≤ x ∧ x ≤ 2 ^ (bits - 1) - 1
  else 0 ≤ x ∧ x ≤ 2 ^ bits - 1

/-! ## Creation, configuration and release -/

/-- What `New` sees of an argument: a function, a number (with its value
converted to `float`, as assigned to `multiply`), or anything else. -/
inductive JsArg where
  | function
  | number (value : F32)
  | other
  deriving DecidableEq

/-- `New(info[0], info[1])`: the new processor, or the exception thrown. The
`buffer` member is not initialised by the constructor; it is taken empty. -/
def New (info0 info1 : JsArg) : Option Data × List Event :=
  match info0 with
  | .function =>
    match info1 with
    | .number value =>
      (some { multiply := value, working := false, collected := false, formats := [],
              buffer := ⟨0, []⟩, persistentData := none }, [])
    | _ => (none, [Event.throwError "Needs a multiply argument"])
  | _ => (none, [Event.throwError "Needs a callback argument"])

/-- `SetFormat` called with `length` arguments, `info[0]` and the `Int32Value`s and
`BooleanValue` of `info[1..4]`, on the processor `d` behind the handle. -/
def SetFormat (length : Nat) (info0 : Arg) (channels bitsPerSample sampleRate : Int)
    (isSigned : Bool) (d : Data) : Data × List Event :=
  if length < 5 then (d, [Event.throwError "Need at least five arguments"])
  else
    match info0 with
    | .notObject => (d, [Event.throwError "First argument must be an object"])
    | .plainObject => (d, [Event.throwError "Argument must have an external"])
    | .handle =>
      ({ d with formats := d.formats ++ [⟨channels, bitsPerSample, sampleRate, isSigned⟩] }, [])

/-- `Data::weakCallback`: the processor afterwards (`none` once deleted) and what
happened. -/
def Data.weakCallback (d : Data) : Option Data × List Event :=
  if d.working then (some { d with collected := true }, [])
  else (none, [Event.destroy])

/-! ## Callbacks that call back -/

/-- What an invocation of the completion callback does: it calls `SetFormat` or
`Feed` on the handle it holds and goes on (`inner` is what the callback does when
that feed invokes it again), or it ends, returning normally (`ok`) or throwing. -/
inductive Script where
  | done (ok : Bool)
  | setFormat (channels bitsPerSample sampleRate : Int) (isSigned : Bool) (rest : Script)
  | feed (info1 : Buffer) (inner : Script) (rest : Script)

/-- `Data::complete` with the invocation of the callback given as a function from
the processor the callback finds to the processor it leaves, what happened
meanwhile, and whether the call returned a value. -/
def Data.completeWith (call : Data → Option Data × List Event × Bool) (d : Data) :
    Option Data × List Event :=
  if d.collected then (none, [Event.destroy])
  else
    let d := { d with persistentData := none, working := false }
    let d :=
      if d.formats.length > 1 then
        match d.formats.getLast? with
        | some f => { d with formats := [f] }
        | none => d
      else d
    let r := call d
    (r.1, Event.call d :: r.2.1 ++ (if r.2.2 then [] else [Event.throwError "Failed to call"]))

/-- `Feed` on the handle, with the invocation of the callback given as for
`Data.completeWith`. -/
def FeedWith (call : Data → Option Data × List Event × Bool) (info1 : Buffer) (d : Data) :
    Option Data × List Event :=
  if d.working then (some d, [Event.throwError "Already doing work"])
  else if d.formats.isEmpty then (some d, [Event.throwError "No format set"])
  else if info1.size = 0 then (some d, [])
  else
    let r : Option Data × List Event :=
      if F32.eqOne d.multiply then Data.completeWith call d else (some d, [])
    (r.1.map fun d =>
        { d with buffer := info1, persistentData := some info1.data, working := true },
      r.2 ++ [Event.queueWork])

/-- Running a callback on the processor it finds. An exception thrown by a call of
`SetFormat` or `Feed` is handed to the callback, which goes on. -/
def Script.run : Script → Data → Option Data × List Event × Bool
  | .done ok => fun d => (some d, [], ok)
  | .setFormat c b r s rest => fun d =>
    let r1 := SetFormat 5 Arg.handle c b r s d
    let r2 := Script.run rest r1.1
    (r2.1, r1.2 ++ r2.2.1, r2.2.2)
  | .feed info1 inner rest => fun d =>
    let r1 := FeedWith (Script.run inner) info1 d
    match r1.1 with
    | some d1 =>
      let r2 := Script.run rest d1
      (r2.1, r1.2 ++ r2.2.1, r2.2.2)
    | none => (none, r1.2, true)

/-! ## The life of one processor -/

/-- One processor together with its surroundings: whether the caller still holds
the handle, the jobs handed to `uv_queue_work` whose scaling has not run yet
(`queued`) and those whose completion handling is pending (`finished`), how often
the processor was deleted, and whether an operation ran on a deleted processor
(`stale`) or the scaling trapped (`trapped`). -/
structure World where
  proc : Option Data
  handle : Bool
  queued : Nat
  finished : Nat
  deletions : Nat
  stale : Bool
  trapped : Bool
  log : List Event
  deriving DecidableEq

/-- What can happen to a processor: the caller queues a format or feeds a buffer,
the handle is collected, the thread pool runs the scaling of a queued job, the
loop runs the completion handling of a finished one. A feed and a completion come
with what the callback does if it is invoked. -/
inductive Op where
  | setFormat (channels bitsPerSample sampleRate : Int) (isSigned : Bool)
  | feed (info1 : Buffer) (callback : Script)
  | release
  | work (P : Platform)
  | done (callback : Script)

/-- The number of `queueWork` events in a list. -/
def submissions (evs : List Event) : Nat := (evs.filter (· = Event.queueWork)).length

/-- The number of `destroy` events in a list. -/
def destructions (evs : List Event) : Nat := (evs.filter (· = Event.destroy)).length

/-- The world after an operation of the caller or of completion handling on the
processor, given what the operation returns. -/
def World.after (w : World) (r : Option Data × List Event) : World :=
  { w with proc := r.1, queued := w.queued + submissions r.2,
           deletions := w.deletions + destructions r.2, log := w.log ++ r.2 }

/-- One step; `none` when the operation cannot happen in this world (the caller
has no handle, no job is queued, no job is finished). -/
def World.step (w : World) : Op → Option World
  | .setFormat c b r s =>
    if w.handle then
      match w.proc with
      | some d => some (w.after ((SetFormat 5 Arg.handle c b r s d).1,
          (SetFormat 5 Arg.handle c b r s d).2))
      | none => some { w with stale := true }
    else none
  | .feed info1 callback =>
    if w.handle then
      match w.proc with
      | some d => some (w.after (FeedWith callback.run info1 d))
      | none => some { w with stale := true }
    else none
  | .release =>
    if w.handle then
      match w.proc with
      | some d => some ({ w with handle := false }.after (Data.weakCallback d))
      | none => some { w with handle := false, stale := true }
    else none
  | .work P =>
    if 0 < w.queued then
      match w.proc with
      | some d =>
        match Data.perform P d with
        | some d' => some { w with proc := some d', queued := w.queued - 1,
                                   finished := w.finished + 1 }
        | none => some { w with queued := w.queued - 1, finished := w.finished + 1,
                                trapped := true }
      | none => some { w with queued := w.queued - 1, finished := w.finished + 1, stale := true }
    else none
  | .done callback =>
    if 0 < w.finished then
      match w.proc with
      | some d => some ({ w with finished := w.finished - 1 }.after
          (Data.completeWith callback.run d))
      | none => some { w with finished := w.finished - 1, stale := true }
    else none

/-- The world right after `New(callback, gain)`. -/
def World.created (gain : F32) : World :=
  { proc := (New JsArg.function (JsArg.number gain)).1, handle := true, queued := 0,
    finished := 0, deletions := 0, stale := false, trapped := false, log := [] }

/-- A sequence of steps. -/
def World.run (w : World) : List Op → Option World
  | [] => some w
  | op :: ops => (w.step op).bind fun w' => w'.run ops

/-- A world is reachable for a gain when some sequence of steps leads to it from
the creation of the processor. -/
def Reachable (gain : F32) (w : World) : Prop := ∃ ops, (World.created gain).run ops = some w

/-- The callback does not call back into the processor. -/
def Script.plain : Script → Bool
  | .done _ => true
  | _ => false

/-- No callback of the operation calls back into the processor. -/
def Op.plain : Op → Bool
  | .feed _ callback => callback.plain
  | .done callback => callback.plain
  | _ => true

/-- Reachable by steps none of whose callbacks calls back into the processor. -/
def ReachablePlain (gain : F32) (w : World) : Prop :=
  ∃ ops, (∀ op ∈ ops, Op.plain op = true) ∧ (World.created gain).run ops = some w

/-- What holds in every reachable world: no operation ran on a deleted processor,
at most one job is in flight, a deleted processor was deleted once, has no job in
flight and no handle, and a live one was never deleted, is `working` exactly when a
job is in flight, is `collected` exactly when the handle is gone, and then is
working, and has a format queued whenever a job is in flight. -/
def World.Inv (w : World) : Prop :=
  w.stale = false ∧ w.queued + w.finished ≤ 1 ∧
  match w.proc with
  | none => w.deletions = 1 ∧ w.queued + w.finished = 0 ∧ w.handle = false
  | some d => w.deletions = 0 ∧ (d.working = true ↔ w.queued + w.finished = 1) ∧
      (d.collected = true ↔ w.handle = false) ∧ (d.collected = true → d.working = true) ∧
      (w.queued + w.finished = 1 → d.formats ≠ [])

/-- The processor of the world, while it exists, has the gain it was created with. -/
def World.gainIs (gain : F32) (w : World) : Prop :=
  ∀ d, w.proc = some d → d.multiply = gain

/-! ## Facts about `bitLen` -/

theorem bitLenAux_spec (fuel : Nat) : ∀ n : Nat, n ≤ fuel →
    n < 2 ^ bitLenAux fuel n ∧ (n ≠ 0 → 2 ^ (bitLenAux fuel n - 1) ≤ n) := by
  induction fuel with
  | zero =>
    intro n hn
    have h0 : n = 0 := by omega
    subst h0
    simp [bitLenAux]
  | succ f ih =>
    intro n hn
    by_cases h0 : n = 0
    · subst h0; simp [bitLenAux]
    · have hle : n / 2 ≤ f := by omega
      obtain ⟨h1, h2⟩ := ih (n / 2) hle
      simp only [bitLenAux, if_neg h0]
      refine ⟨?_, fun _ => ?_⟩
      · rw [pow_succ]; omega
      · simp only [Nat.add_sub_cancel]
        by_cases h3 : n / 2 = 0
        · have : bitLenAux f (n / 2) = 0 := by
            rw [h3]; cases f <;> simp [bitLenAux]
          rw [this]; simp; omega
        · have h4 := h2 h3
          have h5 : bitLenAux f (n / 2) ≠ 0 := by
            intro h6; rw [h6] at h1; simp at h1; exact h3 h1
          obtain ⟨t, ht⟩ := Nat.exists_eq_succ_of_ne_zero h5
          rw [ht] at h4 ⊢
          simp only [Nat.succ_sub_one] at h4
          rw [Nat.succ_eq_add_one, pow_succ]; omega

theorem lt_two_pow_bitLen (n : Nat) : n < 2 ^ bitLen n :=
  (bitLenAux_spec n n le_rfl).1

theorem two_pow_bitLen_le (n : Nat) (h : n ≠ 0) : 2 ^ (bitLen n - 1) ≤ n :=
  (bitLenAux_spec n n le_rfl).2 h

theorem bitLen_le_of_lt {n a : Nat} (h : n < 2 ^ a) : bitLen n ≤ a := by
  by_cases h0 : n = 0
  · subst h0; simp [bitLen, bitLenAux]
  · by_contra hc
    have h1 := two_pow_bitLen_le n h0
    have h2 : 2 ^ a ≤ 2 ^ (bitLen n - 1) := Nat.pow_le_pow_right (by decide) (by omega)
    omega

theorem bitLen_zero : bitLen 0 = 0 := by simp [bitLen, bitLenAux]

theorem F32.round_of_dvd (m e : Int) (s : Nat)
    (hs : (max (e + (bitLen m.natAbs : Int) - 24) (-149) - e).toNat = s)
    (hd : 2 ^ s ∣ m.natAbs) (hm : m ≠ 0) (hov : e + s + bitLen (m.natAbs / 2 ^ s) ≤ 128) :
    ∃ m2 : Int, F32.round m e = F32.finite m2 (e + s) ∧ m2 * 2 ^ s = m := by
  have hr : m.natAbs % 2 ^ s = 0 := Nat.mod_eq_zero_of_dvd hd
  have hn0 : m.natAbs ≠ 0 := by simpa using hm
  have hk : m.natAbs / 2 ^ s ≠ 0 := by
    intro h0
    have := Nat.div_mul_cancel hd
    rw [h0] at this
    simp at this
    exact hn0 this.symm
  have hp : (2 ^ s : Nat) ≠ 0 := by positivity
  have hov' : ¬ (128 < e + s + bitLen (m.natAbs / 2 ^ s)) := by omega
  have hc : ¬ (2 ^ s < 2 * 0 ∨ (2 * 0 = 2 ^ s ∧ m.natAbs / 2 ^ s % 2 = 1)) := by
    rintro (h | ⟨h, -⟩)
    · simp at h
    · exact hp (by simpa using h.symm)
  have hcancel : ((m.natAbs / 2 ^ s : Nat) : Int) * 2 ^ s = (m.natAbs : Int) := by
    have := Nat.div_mul_cancel hd
    exact_mod_cast this
  unfold F32.round
  simp only [hs, hr, hc, if_false, hk, hov']
  refine ⟨_, rfl, ?_⟩
  by_cases hneg : m < 0
  · simp only [hneg, if_true]
    rw [neg_mul, hcancel]; omega
  · simp only [hneg, if_false]
    rw [hcancel]; omega

theorem F32.round_exact (m e m' e' : Int) (h24 : m'.natAbs < 2 ^ 24) (hlo : -149 ≤ e')
    (hhi : e' ≤ 104) (hv : (m : ℚ) * 2 ^ e = m' * 2 ^ e') :
    ∃ m2 e2, F32.round m e = F32.finite m2 e2 ∧ (m2 : ℚ) * 2 ^ e2 = m * 2 ^ e := by
  by_cases hm : m = 0
  · subst hm
    exact ⟨0, 0, by simp [F32.round, bitLen_zero], by simp⟩
  · have hn0 : m.natAbs ≠ 0 := by simpa using hm
    have hL1 := two_pow_bitLen_le m.natAbs hn0
    have hL2 := lt_two_pow_bitLen m.natAbs
    have h2 : (0 : ℚ) < 2 := by norm_num
    have habs : (m.natAbs : ℚ) * 2 ^ e = m'.natAbs * 2 ^ e' := by
      have := congrArg abs hv
      have p1 : |(2 : ℚ) ^ e| = 2 ^ e := abs_of_pos (zpow_pos h2 _)
      have p2 : |(2 : ℚ) ^ e'| = 2 ^ e' := abs_of_pos (zpow_pos h2 _)
      simpa [abs_mul, Nat.cast_natAbs, Int.cast_abs, p1, p2] using this
    have hkey : e + bitLen m.natAbs - 24 ≤ e' := by
      by_contra hc
      push_neg at hc
      have a1 : ((2 : ℚ) ^ (bitLen m.natAbs - 1 : ℕ)) * 2 ^ e ≤ m.natAbs * 2 ^ e := by
        apply mul_le_mul_of_nonneg_right _ (zpow_nonneg h2.le _)
        exact_mod_cast hL1
      have a2 : (m'.natAbs : ℚ) * 2 ^ e' < 2 ^ (24 : ℕ) * 2 ^ e' := by
        apply mul_lt_mul_of_pos_right _ (zpow_pos h2 _)
        exact_mod_cast h24
      rw [habs] at a1
      have a3 := lt_of_le_of_lt a1 a2
      rw [← zpow_natCast, ← zpow_natCast, ← zpow_add₀ h2.ne', ← zpow_add₀ h2.ne',
        zpow_lt_zpow_iff_right₀ (by norm_num : (1 : ℚ) < 2)] at a3
      push_cast at a3
      omega
    generalize hs : (max (e + (bitLen m.natAbs : Int) - 24) (-149) - e).toNat = s
    have hse : (s : Int) ≤ max (e' - e) 0 := by
      rw [← hs]; omega
    have hdvd : 2 ^ s ∣ m.natAbs := by
      by_cases hs0 : s = 0
      · subst hs0; simp
      · have hd : 0 < e' - e := by omega
        have : (m.natAbs : ℚ) = m'.natAbs * 2 ^ (e' - e).toNat := by
          have e1 : ((2 : ℚ) ^ (e' - e).toNat) = 2 ^ (e' - e) := by
            rw [← zpow_natCast]; congr 1; omega
          rw [e1, zpow_sub₀ h2.ne', ← mul_div_assoc, ← habs]
          field_simp
        have hnat : m.natAbs = m'.natAbs * 2 ^ (e' - e).toNat := by exact_mod_cast this
        rw [hnat]
        apply Dvd.dvd.mul_left
        apply Nat.pow_dvd_pow
        omega
    have hsle : s ≤ bitLen m.natAbs := by
      by_contra hle
      have h1 : 2 ^ bitLen m.natAbs < 2 ^ s := Nat.pow_lt_pow_right (by decide) (by omega)
      have h2 := Nat.le_of_dvd (by omega) hdvd
      omega
    have hk24 : bitLen (m.natAbs / 2 ^ s) + s ≤ bitLen m.natAbs := by
      have : m.natAbs / 2 ^ s < 2 ^ (bitLen m.natAbs - s) := by
        apply Nat.div_lt_of_lt_mul
        rw [← pow_add]
        have : s + (bitLen m.natAbs - s) = bitLen m.natAbs := by omega
        rw [this]; exact hL2
      have h3 := bitLen_le_of_lt this
      omega
    have hov : e + s + bitLen (m.natAbs / 2 ^ s) ≤ 128 := by omega
    obtain ⟨m2, hm2, hmul⟩ := F32.round_of_dvd m e s hs hdvd hm hov
    refine ⟨m2, e + s, hm2, ?_⟩
    rw [zpow_add₀ h2.ne', zpow_natCast, ← hmul]
    push_cast
    ring

theorem F32.trunc_of_value (m e p : Int) (hv : (m : ℚ) * 2 ^ e = p) :
    F32.trunc (F32.finite m e) = some p := by
  have h2 : (2 : ℚ) ≠ 0 := by norm_num
  simp only [F32.trunc]
  congr 1
  by_cases he : 0 ≤ e
  · rw [if_pos he]
    have e1 : ((2 : ℚ) ^ e) = 2 ^ e.toNat := by
      rw [← zpow_natCast]; congr 1; omega
    rw [e1] at hv
    exact_mod_cast hv
  · rw [if_neg he]
    have e1 : ((2 : ℚ) ^ e) = (2 ^ (-e).toNat)⁻¹ := by
      rw [← zpow_natCast, ← zpow_neg]; congr 1; omega
    rw [e1] at hv
    have hm : (m : ℚ) = p * 2 ^ (-e).toNat := by
      field_simp at hv; linarith
    have hm' : m = p * 2 ^ (-e).toNat := by exact_mod_cast hm
    rw [hm']
    exact Int.mul_tdiv_cancel _ (by positivity)

theorem toInt_of_trunc (P : Platform) (bits : Nat) (signed : Bool) (x : F32) (t : Int)
    (ht : F32.trunc x = some t) (hr : inRange bits signed t = true) :
    toInt P bits signed x = t := by
  simp [toInt, ht, hr]

theorem F32.isValue_of_natAbs_lt (v : Int) (h : v.natAbs < 2 ^ 24) : F32.IsValue (v : ℚ) :=
  ⟨v, 0, h, by decide, by decide, by simp⟩

/-- The float product of an integer `v` that converts exactly and a gain `a * 2^b`,
when the exact product is a binary32 value. -/
theorem F32.mul_exact (v a b : Int) (hv : F32.IsValue (v : ℚ))
    (hp : F32.IsValue ((v : ℚ) * (a * 2 ^ b))) :
    ∃ m2 e2, F32.mul (F32.ofInt v) (F32.finite a b) = F32.finite m2 e2 ∧
      (m2 : ℚ) * 2 ^ e2 = v * (a * 2 ^ b) := by
  obtain ⟨m0, e0, h0, hlo0, hhi0, hv0⟩ := hv
  obtain ⟨m', e', h24, hlo, hhi, hpe⟩ := hp
  obtain ⟨m1, e1, h1, hv1⟩ := F32.round_exact v 0 m0 e0 h0 hlo0 hhi0 (by rw [← hv0]; simp)
  rw [F32.ofInt, h1]
  simp only [F32.mul]
  have h2 : (2 : ℚ) ≠ 0 := by norm_num
  have hval : ((m1 * a : Int) : ℚ) * 2 ^ (e1 + b) = (v : ℚ) * (a * 2 ^ b) := by
    rw [zpow_add₀ h2]
    push_cast
    have : (v : ℚ) = m1 * 2 ^ e1 := by rw [hv1]; simp
    rw [this]; ring
  obtain ⟨m2, e2, h3, hv3⟩ := F32.round_exact (m1 * a) (e1 + b) m' e' h24 hlo hhi
    (by rw [hval, hpe])
  exact ⟨m2, e2, h3, by rw [hv3, hval]⟩

/-- Conversion back to an integer type of an exact product that is an integer of
that type. -/
theorem toInt_mul_exact (P : Platform) (bits : Nat) (signed : Bool) (v a b p : Int)
    (hv : F32.IsValue (v : ℚ)) (hprod : (v : ℚ) * ((a : ℚ) * 2 ^ b) = (p : ℚ))
    (hrep : F32.IsValue (p : ℚ)) (hr : inRange bits signed p = true) :
    toInt P bits signed (F32.mul (F32.ofInt v) (F32.finite a b)) = p := by
  obtain ⟨m2, e2, hmul, hval⟩ := F32.mul_exact v a b hv (by rw [hprod]; exact hrep)
  rw [hmul]
  exact toInt_of_trunc P bits signed _ _ (F32.trunc_of_value m2 e2 p (by rw [hval, hprod])) hr

/-! ## Facts about memory -/

theorem rd_append_right (pre l : List Byte) (k : Nat) :
    rd (pre ++ l) (pre.length + k) = rd l k := by
  simp [rd, List.getD_eq_getElem?_getD, List.getElem?_append_right]

theorem wr_append_right (pre l : List Byte) (k : Nat) (b : Byte) :
    wr (pre ++ l) (pre.length + k) b = pre ++ wr l k b := by
  simp [wr, List.set_append]

theorem load_succ (buf : List Byte) (off w : Nat) :
    load buf off (w + 1) = rd buf off :: load buf (off + 1) w := by
  simp only [load, List.range_succ_eq_map, List.map_cons, List.map_map, Nat.add_zero]
  congr 1
  apply List.map_congr_left
  intro k _
  simp only [Function.comp]
  congr 1; omega

theorem load_append (pre chunk rest : List Byte) :
    load (pre ++ chunk ++ rest) pre.length chunk.length = chunk := by
  induction chunk generalizing pre with
  | nil => simp [load]
  | cons b bs ih =>
    rw [List.length_cons, load_succ]
    congr 1
    · have := rd_append_right pre (b :: bs ++ rest) 0
      simpa [rd] using this
    · have := ih (pre ++ [b])
      simpa using this

theorem store_append (pre chunk rest new : List Byte) (h : new.length = chunk.length) :
    store (pre ++ chunk ++ rest) pre.length new = pre ++ new ++ rest := by
  induction new generalizing pre chunk with
  | nil =>
    have : chunk = [] := by simpa using h.symm
    subst this; simp [store]
  | cons b bs ih =>
    cases chunk with
    | nil => simp at h
    | cons c cs =>
      simp only [store]
      have h1 : wr (pre ++ (c :: cs) ++ rest) pre.length b = (pre ++ [b]) ++ cs ++ rest := by
        have := wr_append_right pre (c :: cs ++ rest) 0 b
        simp [wr]
      rw [h1]
      have := ih (pre ++ [b]) cs (by simpa using h)
      simpa using this

theorem forLoop_eq_mapSamples (body : Nat → List Byte → List Byte) (w : Nat)
    (f : List Byte → List Byte) (hf : ∀ c, c.length = w → (f c).length = w)
    (hbody : ∀ pre chunk rest, chunk.length = w →
      body pre.length (pre ++ chunk ++ rest) = pre ++ f chunk ++ rest) :
    ∀ (n : Nat) (pre buf : List Byte), n * w ≤ buf.length →
      forLoop body w n pre.length (pre ++ buf) = pre ++ mapSamples w f n buf := by
  intro n
  induction n with
  | zero => intro pre buf _; simp [forLoop, mapSamples]
  | succ n ih =>
    intro pre buf hlen
    have hw : w ≤ buf.length := by
      have : (n + 1) * w = n * w + w := by ring
      omega
    have htake : (buf.take w).length = w := by simp [hw]
    simp only [forLoop, mapSamples]
    have hsplit : pre ++ buf = pre ++ buf.take w ++ buf.drop w := by simp
    rw [hsplit, hbody pre (buf.take w) (buf.drop w) htake]
    have hlen' : n * w ≤ (buf.drop w).length := by
      simp only [List.length_drop]
      have : (n + 1) * w = n * w + w := by ring
      omega
    have := ih (pre ++ f (buf.take w)) (buf.drop w) hlen'
    rw [List.length_append, hf _ htake] at this
    rw [this]; simp

theorem load_append_right (pre l : List Byte) (k w : Nat) :
    load (pre ++ l) (pre.length + k) w = load l k w := by
  simp only [load]
  apply List.map_congr_left
  intro j _
  rw [Nat.add_assoc, rd_append_right]

theorem load_length (buf : List Byte) (off w : Nat) : (load buf off w).length = w := by
  simp [load]

theorem load_zero_eq_take (buf : List Byte) (w : Nat) (h : w ≤ buf.length) :
    load buf 0 w = buf.take w := by
  have h1 := load_append [] (buf.take w) (buf.drop w)
  simp only [List.nil_append, List.take_append_drop, List.length_nil, List.length_take,
    Nat.min_eq_left h] at h1
  exact h1

theorem mapSamples_length (w : Nat) (f : List Byte → List Byte)
    (hf : ∀ c, c.length = w → (f c).length = w) :
    ∀ (n : Nat) (buf : List Byte), n * w ≤ buf.length →
      (mapSamples w f n buf).length = buf.length := by
  intro n
  induction n with
  | zero => intro buf _; rfl
  | succ n ih =>
    intro buf hlen
    have e : (n + 1) * w = n * w + w := by ring
    have hw : w ≤ buf.length := by omega
    have htake : (buf.take w).length = w := by simp [hw]
    simp only [mapSamples, List.length_append, hf _ htake]
    rw [ih (buf.drop w) (by simp only [List.length_drop]; omega)]
    simp only [List.length_drop]; omega

theorem load_mapSamples (w : Nat) (f : List Byte → List Byte)
    (hf : ∀ c, c.length = w → (f c).length = w) :
    ∀ (n : Nat) (buf : List Byte) (i : Nat), n * w ≤ buf.length → i < n →
      load (mapSamples w f n buf) (i * w) w = f (load buf (i * w) w) := by
  intro n
  induction n with
  | zero => intro buf i _ hi; omega
  | succ n ih =>
    intro buf i hlen hi
    have e : (n + 1) * w = n * w + w := by ring
    have hw : w ≤ buf.length := by omega
    have htake : (buf.take w).length = w := by simp [hw]
    have hlen' : n * w ≤ (buf.drop w).length := by
      simp only [List.length_drop]; omega
    simp only [mapSamples]
    cases i with
    | zero =>
      have h1 := load_append [] (f (buf.take w)) (mapSamples w f n (buf.drop w))
      simp only [List.nil_append, List.length_nil, hf _ htake] at h1
      simp only [Nat.zero_mul]
      rw [h1, load_zero_eq_take buf w hw]
    | succ i =>
      have e2 : (i + 1) * w = (f (buf.take w)).length + i * w := by
        rw [hf _ htake]; ring
      rw [e2, load_append_right, ih (buf.drop w) i hlen' (by omega)]
      congr 1
      have e3 : (f (buf.take w)).length + i * w = (buf.take w).length + i * w := by
        rw [hf _ htake, htake]
      rw [e3]
      have key := load_append_right (buf.take w) (buf.drop w) (i * w) w
      rw [List.take_append_drop] at key
      exact key.symm

/-! ## Facts about the encoding of integers -/

theorem leNat_lt (bs : List Byte) : leNat bs < 256 ^ bs.length := by
  induction bs with
  | nil => simp [leNat]
  | cons b bs ih =>
    simp only [leNat, List.length_cons, pow_succ]
    have := b.isLt
    omega

theorem leBytes_leNat (bs : List Byte) : leBytes bs.length (leNat bs) = bs := by
  induction bs with
  | nil => rfl
  | cons b bs ih =>
    simp only [leNat, List.length_cons, leBytes]
    have hb := b.isLt
    congr 1
    · apply Fin.ext
      simp only [byteOfNat]
      omega
    · have : (b.val + 256 * leNat bs) / 256 = leNat bs := by omega
      rw [this, ih]

theorem leBytes_length (w n : Nat) : (leBytes w n).length = w := by
  induction w generalizing n with
  | zero => rfl
  | succ w ih => simp [leBytes, ih]

theorem leNat_leBytes (w n : Nat) : leNat (leBytes w n) = n % 256 ^ w := by
  induction w generalizing n with
  | zero => simp [leBytes, leNat, Nat.mod_one]
  | succ w ih =>
    simp only [leBytes, leNat, ih, byteOfNat, pow_succ]
    rw [Nat.mul_comm (256 ^ w) 256, Nat.mod_mul]

theorem two_pow_pred (bits : Nat) (hb : 0 < bits) : (2 : Int) ^ bits = 2 * 2 ^ (bits - 1) := by
  obtain ⟨k, rfl⟩ := Nat.exists_eq_succ_of_ne_zero (Nat.pos_iff_ne_zero.mp hb)
  simp [pow_succ, mul_comm]

theorem wrap_of_inRange (bits : Nat) (signed : Bool) (t : Int) (hb : 0 < bits)
    (h : inRange bits signed t = true) : wrap bits signed t = t := by
  have hp : (0 : Int) < 2 ^ (bits - 1) := by positivity
  have h2 := two_pow_pred bits hb
  cases signed with
  | false =>
    simp only [inRange, Bool.false_eq_true, if_false, decide_eq_true_eq] at h
    simp only [wrap, Bool.false_eq_true, false_and, if_false]
    exact Int.emod_eq_of_lt h.1 h.2
  | true =>
    simp only [inRange, if_true, decide_eq_true_eq] at h
    simp only [wrap, true_and]
    by_cases h0 : 0 ≤ t
    · have e : t % 2 ^ bits = t := Int.emod_eq_of_lt h0 (by omega)
      rw [e, if_neg (by omega)]
    · have e : t % 2 ^ bits = t + 2 ^ bits := by
        rw [← Int.add_emod_self]
        exact Int.emod_eq_of_lt (by omega) (by omega)
      rw [e, if_pos (by omega)]
      omega

theorem wrap_emod (bits : Nat) (signed : Bool) (x : Int) :
    wrap bits signed x % 2 ^ bits = x % 2 ^ bits := by
  simp only [wrap]
  split
  · rw [Int.sub_emod, Int.emod_self, Int.sub_zero, Int.emod_emod, Int.emod_emod]
  · exact Int.emod_emod _ _

theorem toBits_wrap (bits : Nat) (signed : Bool) (x : Int) :
    toBits bits (wrap bits signed x) = toBits bits x := by
  simp only [toBits, wrap_emod]

theorem toBits_lt (bits : Nat) (x : Int) : toBits bits x < 2 ^ bits := by
  have hp : (0 : Int) < 2 ^ bits := by positivity
  have h1 := Int.emod_nonneg x hp.ne'
  have h2 := Int.emod_lt_of_pos x hp
  simp only [toBits]
  have : ((x % 2 ^ bits).toNat : Int) < ((2 ^ bits : Nat) : Int) := by
    rw [Int.toNat_of_nonneg h1]; exact_mod_cast h2
  exact_mod_cast this

theorem toBits_natCast (bits n : Nat) : toBits bits (n : Int) = n % 2 ^ bits := by
  simp only [toBits]
  have : ((n : Int) % 2 ^ bits) = ((n % 2 ^ bits : Nat) : Int) := by push_cast; rfl
  rw [this, Int.toNat_natCast]

theorem wrap_toBits (bits : Nat) (signed : Bool) (x : Int) :
    wrap bits signed (toBits bits x) = wrap bits signed x := by
  have hp : (0 : Int) < 2 ^ bits := by positivity
  have h1 := Int.emod_nonneg x hp.ne'
  simp only [wrap, toBits, Int.toNat_of_nonneg h1, Int.emod_emod]

theorem inRange_wrap (bits : Nat) (signed : Bool) (x : Int) (hb : 0 < bits) :
    inRange bits signed (wrap bits signed x) = true := by
  have hp : (0 : Int) < 2 ^ bits := by positivity
  have h1 := Int.emod_nonneg x hp.ne'
  have h3 := Int.emod_lt_of_pos x hp
  have h2 := two_pow_pred bits hb
  cases signed with
  | false =>
    simp only [inRange, wrap, Bool.false_eq_true, false_and, if_false, decide_eq_true_eq]
    exact ⟨h1, h3⟩
  | true =>
    simp only [inRange, wrap, if_true, true_and, decide_eq_true_eq]
    split <;> constructor <;> omega

theorem pow_256 (w : Nat) : 256 ^ w = 2 ^ (8 * w) := by
  rw [pow_mul]; norm_num

theorem sampleBytes_sampleValue (w : Nat) (signed : Bool) (chunk : List Byte)
    (h : chunk.length = w) : sampleBytes (8 * w) (sampleValue (8 * w) signed chunk) = chunk := by
  have hlt := leNat_lt chunk
  rw [h, pow_256] at hlt
  simp only [sampleBytes, sampleValue, toBits_wrap, toBits_natCast, Nat.mod_eq_of_lt hlt]
  have : 8 * w / 8 = chunk.length := by omega
  rw [this, leBytes_leNat]

theorem sampleValue_sampleBytes (w : Nat) (signed : Bool) (x : Int) (hw : 0 < w)
    (hx : inRange (8 * w) signed x = true) :
    sampleValue (8 * w) signed (sampleBytes (8 * w) x) = x := by
  have hlt := toBits_lt (8 * w) x
  have e : 8 * w / 8 = w := by omega
  simp only [sampleBytes, sampleValue, e, leNat_leBytes, pow_256, Nat.mod_eq_of_lt hlt,
    wrap_toBits]
  exact wrap_of_inRange _ _ _ (by omega) hx

/-! ## The generic scaler, sample by sample -/

/-- What the generic scaler makes of the bytes of one sample. -/
theorem Performer.generic_body_append (P : Platform) (w : Nat) (Signed : Bool) (g : F32)
    (pre chunk rest : List Byte) (h : chunk.length = w) :
    Performer.body P (8 * w) Signed g pre.length (pre ++ chunk ++ rest) =
      pre ++ sampleBytes (8 * w)
        (toInt P (8 * w) Signed (F32.mul (F32.ofInt (sampleValue (8 * w) Signed chunk)) g))
        ++ rest := by
  have e : 8 * w / 8 = chunk.length := by omega
  simp only [Performer.body, sampleBytes, sampleValue, e, load_append]
  exact store_append pre chunk rest _ (leBytes_length _ _)

/-! ## Admission checks of `Feed` -/

/-- C8: a feed on a processor that is working throws `Already doing work` and does
nothing else: the processor (format queue, buffer reference, `working`,
`collected`) is as before, no job is submitted and the callback is not invoked. -/
theorem feed_while_working_is_rejected (callOk : Bool) (info1 : Buffer) (d : Data)
    (h : d.working = true) :
    Feed callOk Arg.handle info1 d = (some d, [Event.throwError "Already doing work"]) := by
  simp [Feed, h]

theorem feed_while_working_is_rejected_witness :
    (Data.mk F32.two true false [⟨2, 16, 44100, true⟩] ⟨7, [1, 2]⟩ (some 7)).working = true ∧
    Feed true Arg.handle ⟨9, [3, 4]⟩
        (Data.mk F32.two true false [⟨2, 16, 44100, true⟩] ⟨7, [1, 2]⟩ (some 7)) =
      (some (Data.mk F32.two true false [⟨2, 16, 44100, true⟩] ⟨7, [1, 2]⟩ (some 7)),
        [Event.throwError "Already doing work"]) :=
  ⟨rfl, feed_while_working_is_rejected true ⟨9, [3, 4]⟩ _ rfl⟩

/-- C9: a feed on an idle processor whose format queue is empty throws
`No format set` and does nothing else: the processor is as before (`working`
false, queue empty), no job is submitted and the callback is not invoked. -/
theorem feed_without_format_is_rejected (callOk : Bool) (info1 : Buffer) (d : Data)
    (hw : d.working = false) (hf : d.formats = []) :
    Feed callOk Arg.handle info1 d = (some d, [Event.throwError "No format set"]) := by
  simp [Feed, hw, hf]

theorem feed_without_format_is_rejected_witness :
    (Data.mk F32.two false false [] ⟨0, []⟩ none).working = false ∧
    (Data.mk F32.two false false [] ⟨0, []⟩ none).formats = [] ∧
    Feed true Arg.handle ⟨9, [3, 4]⟩ (Data.mk F32.two false false [] ⟨0, []⟩ none) =
      (some (Data.mk F32.two false false [] ⟨0, []⟩ none),
        [Event.throwError "No format set"]) :=
  ⟨rfl, rfl, feed_without_format_is_rejected true ⟨9, [3, 4]⟩ _ rfl rfl⟩

/-- C10: whatever the processor state and the gain, a feed of a zero-length buffer
leaves the processor as it was, submits no job and does not invoke the
callback. -/
theorem feed_empty_buffer_is_noop (callOk : Bool) (addr : Nat) (d : Data) :
    (Feed callOk Arg.handle ⟨addr, []⟩ d).1 = some d ∧
    Event.queueWork ∉ (Feed callOk Arg.handle ⟨addr, []⟩ d).2 ∧
    ∀ seen, Event.call seen ∉ (Feed callOk Arg.handle ⟨addr, []⟩ d).2 := by
  simp only [Feed, Buffer.size, List.length_nil]
  by_cases hw : d.working = true
  · simp [hw]
  · by_cases hf : d.formats.isEmpty = true
    · simp [hw, hf]
    · simp [hw, hf]

/-- C2: on an idle processor with gain 1.0 and a queued format, a feed of two bytes
invokes the callback at once and then still marks the processor working and
submits a job; the completion of that job invokes the callback again. -/
theorem feed_identity_gain_still_submits :
    Feed true Arg.handle ⟨9, [3, 4]⟩
        (Data.mk F32.one false false [⟨2, 16, 44100, true⟩] ⟨0, []⟩ none) =
      (some (Data.mk F32.one true false [⟨2, 16, 44100, true⟩] ⟨9, [3, 4]⟩ (some 9)),
        [Event.call (Data.mk F32.one false false [⟨2, 16, 44100, true⟩] ⟨0, []⟩ none),
          Event.queueWork]) ∧
    (Data.complete true
        (Data.mk F32.one true false [⟨2, 16, 44100, true⟩] ⟨9, [3, 4]⟩ (some 9))).2 =
      [Event.call (Data.mk F32.one false false [⟨2, 16, 44100, true⟩] ⟨9, [3, 4]⟩ none)] := by
  decide

/-! ## The 24-bit signed scaler -/

theorem wr3_append (pre rest : List Byte) (b0 b1 b2 x y z : Byte) :
    wr (wr (wr (pre ++ [b0, b1, b2] ++ rest) pre.length x) (pre.length + 1) y)
      (pre.length + 2) z = pre ++ [x, y, z] ++ rest := by
  have h0 := wr_append_right pre ([b0, b1, b2] ++ rest) 0 x
  simp only [Nat.add_zero, List.append_assoc] at h0 ⊢
  rw [h0]
  have h1 := wr_append_right pre (wr ([b0, b1, b2] ++ rest) 0 x) 1 y
  rw [h1]
  have h2 := wr_append_right pre (wr (wr ([b0, b1, b2] ++ rest) 0 x) 1 y) 2 z
  rw [h2]
  simp [wr]

theorem rd3_append (pre rest : List Byte) (b0 b1 b2 : Byte) :
    rd (pre ++ [b0, b1, b2] ++ rest) pre.length = b0 ∧
    rd (pre ++ [b0, b1, b2] ++ rest) (pre.length + 1) = b1 ∧
    rd (pre ++ [b0, b1, b2] ++ rest) (pre.length + 2) = b2 := by
  have h0 := rd_append_right pre ([b0, b1, b2] ++ rest) 0
  have h1 := rd_append_right pre ([b0, b1, b2] ++ rest) 1
  have h2 := rd_append_right pre ([b0, b1, b2] ++ rest) 2
  simp only [Nat.add_zero, List.append_assoc] at h0 h1 h2 ⊢
  rw [h0, h1, h2]
  simp [rd]

theorem byteOfNat_val_of_lt (n : Nat) (h : n < 256) : (byteOfNat n).val = n := by
  simp [byteOfNat, Nat.mod_eq_of_lt h]

theorem Performer24Signed.signed_body_append (P : Platform) (g : F32) (pre rest : List Byte)
    (b0 b1 b2 : Byte) :
    Performer24Signed.body P g pre.length (pre ++ [b0, b1, b2] ++ rest) =
      pre ++ Signed24.output P g b0 b1 b2 ++ rest := by
  obtain ⟨r0, r1, r2⟩ := rd3_append pre rest b0 b1 b2
  have hlo : b2.val &&& 0x7f < 256 := lt_of_le_of_lt Nat.and_le_right (by decide)
  have hfl : b2.val &&& 0x80 < 256 := lt_of_le_of_lt Nat.and_le_right (by decide)
  have hst : wrap 32 true (leNat [b0, b1, byteOfNat (b2.val &&& 0x7f), byteOfNat (b2.val &&& 0x80)])
      = Signed24.staged b0 b1 b2 := by
    simp only [Signed24.staged, Signed24.flag, leNat, byteOfNat_val_of_lt _ hlo,
      byteOfNat_val_of_lt _ hfl]
    congr 2
    ring
  simp only [Performer24Signed.body, r0, r1, r2, hst]
  rw [wr3_append]
  simp only [Signed24.output, Signed24.masked, Signed24.product, Signed24.flag,
    Nat.shiftRight_eq_div_pow]

theorem Signed24.output_length (P : Platform) (g : F32) (b0 b1 b2 : Byte) :
    (Signed24.output P g b0 b1 b2).length = 3 := rfl

theorem Signed24.mapSamples_eq_scale (P : Platform) (g : F32) :
    ∀ (n : Nat) (buf : List Byte), n = buf.length / 3 →
      mapSamples 3 (Signed24.onSample P g) n buf = Signed24.scale P g buf := by
  intro n
  induction n with
  | zero =>
    intro buf h
    have hl : buf.length < 3 := by omega
    match buf, hl with
    | [], _ => rfl
    | [_], _ => rfl
    | [_, _], _ => rfl
    | _ :: _ :: _ :: _, hl => simp at hl; omega
  | succ n ih =>
    intro buf h
    match buf, h with
    | [], h => simp at h
    | [_], h => simp only [List.length_cons, List.length_nil] at h; omega
    | [_, _], h => simp only [List.length_cons, List.length_nil] at h; omega
    | b0 :: b1 :: b2 :: rest, h =>
      have hn : n = rest.length / 3 := by
        simp only [List.length_cons] at h; omega
      simp only [mapSamples, Signed24.scale, List.take, List.drop, Signed24.onSample, ih rest hn]

theorem Performer24Signed.perform_eq_scale (P : Platform) (g : F32) (buf : List Byte) :
    Performer24Signed.perform P g ((buf.length / 3 : Nat) : Int) buf = Signed24.scale P g buf := by
  have hloop := forLoop_eq_mapSamples (Performer24Signed.body P g) 3 (Signed24.onSample P g)
    (by
      intro c hc
      match c, hc with
      | [b0, b1, b2], _ => rfl)
    (by
      intro pre chunk rest hc
      match chunk, hc with
      | [b0, b1, b2], _ => exact Performer24Signed.signed_body_append P g pre rest b0 b1 b2)
    (buf.length / 3) [] buf (by omega)
  simp only [List.length_nil, List.nil_append] at hloop
  simp only [Performer24Signed.perform, Int.toNat_natCast, hloop]
  exact Signed24.mapSamples_eq_scale P g _ buf rfl

/-- C4: the 24-bit signed scaler applies the four-step packing rule (flag, stage,
multiply, mask, re-pack with the flag) to every 3-byte sample of the buffer
independently; for the sample `00 00 40` and gain 2.0 the flag is 0, the staged
value 4194304, the product `0x800000`, the masked value 0 and the output
`00 00 00`. -/
theorem signed24_follows_packing_rule (P : Platform) (g : F32) (buf : List Byte) :
    Performer24Signed.perform P g ((buf.length / 3 : Nat) : Int) buf = Signed24.scale P g buf ∧
    Signed24.flag 0x40 = 0 ∧
    Signed24.staged 0 0 0x40 = 4194304 ∧
    Signed24.product P F32.two 0 0 0x40 = 0x800000 ∧
    Signed24.masked P F32.two 0 0 0x40 = 0 ∧
    Signed24.output P F32.two 0 0 0x40 = [0, 0, 0] ∧
    Performer24Signed.perform P F32.two 1 [0, 0, 0x40] = [0, 0, 0] := by
  have hp : Signed24.product P F32.two 0 0 0x40 = 0x800000 := by
    have hs : Signed24.staged 0 0 0x40 = 4194304 := by decide
    have hm : F32.mul (F32.ofInt 4194304) F32.two = F32.finite 4194304 1 := by decide
    simp only [Signed24.product, hs, hm]
    exact toInt_of_trunc P 32 true _ _ (by decide) (by decide)
  have hmask : Signed24.masked P F32.two 0 0 0x40 = 0 := by
    simp only [Signed24.masked, hp]; decide
  have hout : Signed24.output P F32.two 0 0 0x40 = [0, 0, 0] := by
    simp only [Signed24.output, hmask]; decide
  refine ⟨Performer24Signed.perform_eq_scale P g buf, by decide, by decide, hp, hmask, hout, ?_⟩
  have := Performer24Signed.perform_eq_scale P F32.two [0, 0, 0x40]
  simp only [List.length_cons, List.length_nil] at this
  rw [show ((1 : Int) = ((0 + 1 + 1 + 1) / 3 : Nat)) by decide, this]
  simp only [Signed24.scale, hout, List.append_nil]

/-! ## The 24-bit unsigned scaler -/

theorem wrap_unsigned_of_lt (bits n : Nat) (h : n < 2 ^ bits) : wrap bits false (n : Int) = n := by
  simp only [wrap, Bool.false_eq_true, false_and, if_false]
  apply Int.emod_eq_of_lt (by positivity)
  exact_mod_cast h

theorem Performer24Unsigned.unsigned_body_append (P : Platform) (g : F32) (pre rest : List Byte)
    (b0 b1 b2 : Byte) :
    Performer24Unsigned.body P g pre.length (pre ++ [b0, b1, b2] ++ rest) =
      pre ++ Unsigned24.onSample P g [b0, b1, b2] ++ rest := by
  obtain ⟨r0, r1, r2⟩ := rd3_append pre rest b0 b1 b2
  have hlt := leNat_lt [b0, b1, b2]
  have hst : wrap 32 false (leNat [b0, b1, b2, 0]) = leNat [b0, b1, b2] := by
    have e : leNat [b0, b1, b2, 0] = leNat [b0, b1, b2] := by simp [leNat]
    rw [e]
    apply wrap_unsigned_of_lt
    simp only [List.length_cons, List.length_nil] at hlt
    omega
  simp only [Performer24Unsigned.body, r0, r1, r2, hst]
  rw [wr3_append]
  simp only [Unsigned24.onSample, leBytes, Nat.shiftRight_eq_div_pow, Nat.div_div_eq_div_mul]

theorem Performer24Unsigned.unsigned_perform_eq_mapSamples (P : Platform) (g : F32) (n : Nat)
    (buf : List Byte) (h : n * 3 ≤ buf.length) :
    Performer24Unsigned.perform P g (n : Int) buf = mapSamples 3 (Unsigned24.onSample P g) n buf := by
  have hloop := forLoop_eq_mapSamples (Performer24Unsigned.body P g) 3 (Unsigned24.onSample P g)
    (by intro c _; exact leBytes_length _ _)
    (by
      intro pre chunk rest hc
      match chunk, hc with
      | [b0, b1, b2], _ => exact Performer24Unsigned.unsigned_body_append P g pre rest b0 b1 b2)
    n [] buf h
  simp only [List.length_nil, List.nil_append] at hloop
  simp only [Performer24Unsigned.perform, Int.toNat_natCast, hloop]

theorem Unsigned24.onSample_exact (P : Platform) (a b p : Int) (c : List Byte)
    (hc : c.length = 3) (hprod : ((leNat c : Nat) : ℚ) * ((a : ℚ) * 2 ^ b) = (p : ℚ))
    (hrep : F32.IsValue (p : ℚ)) (h0 : 0 ≤ p) (h32 : p < 2 ^ 32) :
    Unsigned24.onSample P (F32.finite a b) c = leBytes 3 (p.toNat % 2 ^ 24) := by
  have hlt := leNat_lt c
  rw [hc] at hlt
  have hv : F32.IsValue (((leNat c : Nat) : Int) : ℚ) :=
    F32.isValue_of_natAbs_lt _ (by simp only [Int.natAbs_ofNat]; omega)
  have hto : toInt P 32 false (F32.mul (F32.ofInt (leNat c : Int)) (F32.finite a b)) = p :=
    toInt_mul_exact P 32 false _ a b p hv (by rw [← hprod]; push_cast; ring) hrep
      (by simp only [inRange, Bool.false_eq_true, if_false, decide_eq_true_eq]; exact ⟨h0, h32⟩)
  have hbits : toBits 32 p = p.toNat := by
    simp only [toBits]
    rw [Int.emod_eq_of_lt h0 h32]
  simp only [Unsigned24.onSample, hto, hbits]
  congr 1
  exact Nat.and_pow_two_sub_one_eq_mod _ 24

/-- C5: the 24-bit unsigned scaler wraps. For every sample `v` of a buffer and gain
`a * 2^b` whose exact product `p = v * gain` is a non-negative integer below `2^32`
that binary32 represents exactly, the sample's output bytes encode `p mod 2^24`;
the maximum sample `FF FF FF` scaled by 2.0 becomes `FE FF FF`, not `FF FF FF`. -/
theorem unsigned24_wraps_modulo (P : Platform) (a b p : Int) (buf : List Byte) (i : Nat)
    (hi : i < buf.length / 3)
    (hprod : ((leNat (load buf (i * 3) 3) : Nat) : ℚ) * ((a : ℚ) * 2 ^ b) = (p : ℚ))
    (hrep : F32.IsValue (p : ℚ)) (h0 : 0 ≤ p) (h32 : p < 2 ^ 32) :
    load (Performer24Unsigned.perform P (F32.finite a b) ((buf.length / 3 : Nat) : Int) buf)
        (i * 3) 3 = leBytes 3 (p.toNat % 2 ^ 24) ∧
    Performer24Unsigned.perform P F32.two 1 [0xff, 0xff, 0xff] = [0xfe, 0xff, 0xff] := by
  constructor
  · rw [Performer24Unsigned.unsigned_perform_eq_mapSamples P _ _ buf (by omega),
      load_mapSamples 3 _ (by intro c _; exact leBytes_length _ _) _ buf i (by omega) hi]
    exact Unsigned24.onSample_exact P a b p _ (load_length _ _ _) hprod hrep h0 h32
  · have h1 := Performer24Unsigned.unsigned_perform_eq_mapSamples P F32.two 1 [0xff, 0xff, 0xff]
      (by decide)
    have h2 := Unsigned24.onSample_exact P 1 1 33554430 [0xff, 0xff, 0xff] rfl
      (by rw [show leNat [0xff, 0xff, 0xff] = 16777215 by decide]; norm_num) ⟨16777215, 1, by decide, by decide, by decide, by norm_num⟩
      (by decide) (by decide)
    rw [show ((1 : Int) = ((1 : Nat) : Int)) by rfl, h1]
    simp only [mapSamples, List.take, List.drop, F32.two, h2]
    decide

theorem unsigned24_wraps_modulo_witness :
    (0 < [0xff, 0xff, 0xff].length / 3) ∧
    load (Performer24Unsigned.perform x86_64 (F32.finite 1 1)
        (([0xff, 0xff, 0xff].length / 3 : Nat) : Int) [0xff, 0xff, 0xff]) (0 * 3) 3
      = leBytes 3 ((33554430 : Int).toNat % 2 ^ 24) :=
  ⟨by decide,
   (unsigned24_wraps_modulo x86_64 1 1 33554430 [0xff, 0xff, 0xff] 0 (by decide)
      (by rw [show leNat (load [0xff, 0xff, 0xff] (0 * 3) 3) = 16777215 by decide]; norm_num) ⟨16777215, 1, by decide, by decide, by decide, by norm_num⟩
      (by decide) (by decide)).1⟩

/-! ## The generic scaler as a map over samples -/

theorem Performer.onSample_length (P : Platform) (w : Nat) (signed : Bool) (g : F32)
    (c : List Byte) : (Performer.onSample P (8 * w) signed g c).length = w := by
  simp only [Performer.onSample, sampleBytes, leBytes_length]
  omega

theorem Performer.generic_perform_eq_mapSamples (P : Platform) (w : Nat) (signed : Bool) (g : F32)
    (n : Nat) (buf : List Byte) (h : n * w ≤ buf.length) :
    Performer.perform P (8 * w) signed g (n : Int) buf =
      mapSamples w (Performer.onSample P (8 * w) signed g) n buf := by
  have hloop := forLoop_eq_mapSamples (Performer.body P (8 * w) signed g) w
    (Performer.onSample P (8 * w) signed g)
    (fun c _ => Performer.onSample_length P w signed g c)
    (fun pre chunk rest hc => Performer.generic_body_append P w signed g pre chunk rest hc)
    n [] buf h
  simp only [List.length_nil, List.nil_append] at hloop
  have e : 8 * w / 8 = w := by omega
  simp only [Performer.perform, Int.toNat_natCast, e, hloop]

theorem Performer24Signed.signed_perform_eq_mapSamples (P : Platform) (g : F32) (n : Nat)
    (buf : List Byte) (h : n * 3 ≤ buf.length) :
    Performer24Signed.perform P g (n : Int) buf = mapSamples 3 (Signed24.onSample P g) n buf := by
  have hloop := forLoop_eq_mapSamples (Performer24Signed.body P g) 3 (Signed24.onSample P g)
    (by
      intro c hc
      match c, hc with
      | [b0, b1, b2], _ => rfl)
    (by
      intro pre chunk rest hc
      match chunk, hc with
      | [b0, b1, b2], _ => exact Performer24Signed.signed_body_append P g pre rest b0 b1 b2)
    n [] buf h
  simp only [List.length_nil, List.nil_append] at hloop
  simp only [Performer24Signed.perform, Int.toNat_natCast, hloop]

theorem mapSamples_id (w : Nat) (f : List Byte → List Byte) :
    ∀ (n : Nat) (buf : List Byte), n * w ≤ buf.length →
      (∀ i, i < n → f (load buf (i * w) w) = load buf (i * w) w) →
      mapSamples w f n buf = buf := by
  intro n
  induction n with
  | zero => intro buf _ _; rfl
  | succ n ih =>
    intro buf hlen hid
    have e : (n + 1) * w = n * w + w := by ring
    have hw : w ≤ buf.length := by omega
    have htake : (buf.take w).length = w := by simp [hw]
    have h0 := hid 0 (by omega)
    simp only [Nat.zero_mul, load_zero_eq_take buf w hw] at h0
    simp only [mapSamples, h0]
    rw [ih (buf.drop w) (by simp only [List.length_drop]; omega)]
    · exact List.take_append_drop w buf
    · intro i hi
      have key := load_append_right (buf.take w) (buf.drop w) (i * w) w
      rw [List.take_append_drop, htake] at key
      have := hid (i + 1) (by omega)
      have e2 : (i + 1) * w = w + i * w := by ring
      rw [e2, key] at this
      exact this

theorem wrap_toNat_le (N : Nat) : (wrap 32 true (N : Int)).toNat ≤ N := by
  simp only [wrap, true_and]
  have h1 : (0 : Int) ≤ (N : Int) % 2 ^ 32 := Int.emod_nonneg _ (by norm_num)
  have h2 : (N : Int) % 2 ^ 32 ≤ N := by
    have e : ((N : Int) % 2 ^ 32) = ((N % 2 ^ 32 : Nat) : Int) := by push_cast; rfl
    rw [e]
    exact_mod_cast Nat.mod_le N (2 ^ 32)
  split <;> omega

theorem wrap_toNat_of_lt (N : Nat) (h : N < 2 ^ 31) : wrap 32 true (N : Int) = N := by
  apply wrap_of_inRange 32 true _ (by decide)
  simp only [inRange, if_true, decide_eq_true_eq]
  constructor <;> omega

theorem F32.eqOne_iff (g : F32) (h : F32.eqOne g = true) :
    ∃ a b : Int, g = F32.finite a b ∧ (a : ℚ) * 2 ^ b = 1 := by
  match g, h with
  | F32.finite a b, h =>
    simp only [F32.eqOne, decide_eq_true_eq] at h
    refine ⟨a, b, rfl, ?_⟩
    obtain ⟨hb, ha⟩ := h
    have e1 : ((2 : ℚ) ^ b) = (2 ^ (-b).toNat)⁻¹ := by
      rw [← zpow_natCast, ← zpow_neg]; congr 1; omega
    rw [e1, ha]
    push_cast
    field_simp

/-! ## Gain 1.0 -/

theorem Performer.generic_onSample_one (P : Platform) (w : Nat) (signed : Bool) (a b : Int)
    (c : List Byte) (hw : 0 < w) (hc : c.length = w) (hg : (a : ℚ) * 2 ^ b = 1)
    (hv : F32.IsValue (sampleValue (8 * w) signed c : ℚ)) :
    Performer.onSample P (8 * w) signed (F32.finite a b) c = c := by
  have hto := toInt_mul_exact P (8 * w) signed (sampleValue (8 * w) signed c) a b
    (sampleValue (8 * w) signed c) hv (by rw [hg, mul_one]) hv
    (inRange_wrap _ _ _ (by omega))
  simp only [Performer.onSample, hto]
  exact sampleBytes_sampleValue w signed c hc

theorem Unsigned24.unsigned_onSample_one (P : Platform) (a b : Int) (c : List Byte)
    (hc : c.length = 3) (hg : (a : ℚ) * 2 ^ b = 1) :
    Unsigned24.onSample P (F32.finite a b) c = c := by
  have hlt := leNat_lt c
  rw [hc] at hlt
  have h := Unsigned24.onSample_exact P a b (leNat c : Int) c hc
    (by rw [hg, mul_one]; push_cast; rfl)
    (F32.isValue_of_natAbs_lt _ (by simp only [Int.natAbs_ofNat]; omega))
    (by positivity) (by norm_num; omega)
  rw [h, Int.toNat_natCast, Nat.mod_eq_of_lt (by omega)]
  have := leBytes_leNat c
  rw [hc] at this
  exact this

set_option maxRecDepth 100000 in
theorem byte_flag_split (b2 : Byte) :
    b2.val &&& 0x7f = b2.val % 128 ∧ b2.val &&& 0x80 = b2.val / 128 * 128 ∧
    byteOfNat ((byteOfNat (b2.val &&& 0x7f)).val ||| (b2.val &&& 0x80)) = b2 := by
  revert b2; decide

theorem Signed24.staged_bits (b0 b1 b2 : Byte) :
    toBits 32 (Signed24.staged b0 b1 b2) &&& 0x7fffff =
      b0.val + 2 ^ 8 * b1.val + 2 ^ 16 * (b2.val &&& 0x7f) := by
  obtain ⟨hlo, hfl, -⟩ := byte_flag_split b2
  have h0 := b0.isLt
  have h1 := b1.isLt
  have h2 := b2.isLt
  simp only [Signed24.staged, Signed24.flag, toBits_wrap, toBits_natCast, hlo, hfl]
  rw [show (0x7fffff : Nat) = 2 ^ 23 - 1 by norm_num, Nat.and_pow_two_sub_one_eq_mod]
  norm_num
  omega

theorem Signed24.output_one (P : Platform) (a b : Int) (b0 b1 b2 : Byte)
    (hg : (a : ℚ) * 2 ^ b = 1) (hv : F32.IsValue (Signed24.staged b0 b1 b2 : ℚ)) :
    Signed24.output P (F32.finite a b) b0 b1 b2 = [b0, b1, b2] := by
  have hto : Signed24.product P (F32.finite a b) b0 b1 b2 = Signed24.staged b0 b1 b2 :=
    toInt_mul_exact P 32 true _ a b _ hv (by rw [hg, mul_one]) hv
      (inRange_wrap _ _ _ (by decide))
  have hm : Signed24.masked P (F32.finite a b) b0 b1 b2 =
      b0.val + 2 ^ 8 * b1.val + 2 ^ 16 * (b2.val &&& 0x7f) := by
    simp only [Signed24.masked, hto, Signed24.staged_bits]
  obtain ⟨hlo, hfl, hor⟩ := byte_flag_split b2
  have h0 := b0.isLt
  have h1 := b1.isLt
  have h2 := b2.isLt
  have e2 : (b0.val + 2 ^ 8 * b1.val + 2 ^ 16 * (b2.val &&& 0x7f)) / 2 ^ 16 = b2.val &&& 0x7f := by
    rw [hlo]; norm_num; omega
  simp only [Signed24.output, hm, e2, Signed24.flag, hor]
  congr 1
  · apply Fin.ext
    simp only [byteOfNat, hlo]; norm_num; omega
  · congr 1
    apply Fin.ext
    simp only [byteOfNat, hlo]; norm_num; omega

theorem iterationsOf_mul_le (len w : Nat) : iterationsOf len w * w ≤ len := by
  have h1 := wrap_toNat_le (len / w)
  have h2 := Nat.div_mul_le_self len w
  have h3 : iterationsOf len w * w ≤ len / w * w := Nat.mul_le_mul_right w h1
  omega

theorem iterationsOf_of_lt (len w : Nat) (h : len / w < 2 ^ 31) :
    iterationsOf len w = len / w := by
  simp only [iterationsOf, wrap_toNat_of_lt _ h, Int.toNat_natCast]

theorem Performer.generic_perform_toNat (P : Platform) (bits : Nat) (signed : Bool) (g : F32)
    (it : Int) (buf : List Byte) :
    Performer.perform P bits signed g it buf =
      Performer.perform P bits signed g ((it.toNat : Nat) : Int) buf := by
  simp only [Performer.perform, Int.toNat_natCast]

theorem Performer24Signed.signed_perform_toNat (P : Platform) (g : F32) (it : Int) (buf : List Byte) :
    Performer24Signed.perform P g it buf =
      Performer24Signed.perform P g ((it.toNat : Nat) : Int) buf := by
  simp only [Performer24Signed.perform, Int.toNat_natCast]

theorem Performer24Unsigned.unsigned_perform_toNat (P : Platform) (g : F32) (it : Int) (buf : List Byte) :
    Performer24Unsigned.perform P g it buf =
      Performer24Unsigned.perform P g ((it.toNat : Nat) : Int) buf := by
  simp only [Performer24Unsigned.perform, Int.toNat_natCast]

/-- `Data::perform` on a supported format maps the selected per-sample function
over the first `iterations` samples. -/
theorem Data.scale_supported (P : Platform) (c r bits : Int) (s : Bool) (g : F32)
    (buf : List Byte) (hb : bits = 8 ∨ bits = 16 ∨ bits = 24 ∨ bits = 32) :
    Data.scale P ⟨c, bits, r, s⟩ g buf =
      some (mapSamples (bits.toNat / 8) (scalerOnSample P bits s g)
        (iterationsOf buf.length (bits.toNat / 8)) buf) := by
  rcases hb with rfl | rfl | rfl | rfl
  · have e1 : ((8 : Int) >>> 3) = 1 := by decide
    have e2 : toBits 64 1 = 1 := by decide
    have e3 : (8 : Int).toNat / 8 = 1 := by decide
    have e4 : (8 : Int).toNat = 8 * 1 := by decide
    simp only [Data.scale, e1, e2, e3, scalerOnSample]
    simp only [show ((1 : Int) = 0) = False by decide, if_false, if_true,
      show ((8 : Int) = 24) = False by decide, e4]
    rw [Performer.generic_perform_toNat]
    exact congrArg some (Performer.generic_perform_eq_mapSamples P 1 s g _ buf (iterationsOf_mul_le _ 1))
  · have e1 : ((16 : Int) >>> 3) = 2 := by decide
    have e2 : toBits 64 2 = 2 := by decide
    have e3 : (16 : Int).toNat / 8 = 2 := by decide
    have e4 : (16 : Int).toNat = 8 * 2 := by decide
    simp only [Data.scale, e1, e2, e3, scalerOnSample]
    simp only [show ((2 : Int) = 0) = False by decide, if_false, if_true,
      show ((16 : Int) = 24) = False by decide, show ((16 : Int) = 8) = False by decide, e4]
    rw [Performer.generic_perform_toNat]
    exact congrArg some (Performer.generic_perform_eq_mapSamples P 2 s g _ buf (iterationsOf_mul_le _ 2))
  · have e1 : ((24 : Int) >>> 3) = 3 := by decide
    have e2 : toBits 64 3 = 3 := by decide
    have e3 : (24 : Int).toNat / 8 = 3 := by decide
    simp only [Data.scale, e1, e2, e3, scalerOnSample]
    simp only [show ((3 : Int) = 0) = False by decide, if_false, if_true,
      show ((24 : Int) = 16) = False by decide, show ((24 : Int) = 8) = False by decide]
    cases s with
    | true =>
      simp only [if_true]
      rw [Performer24Signed.signed_perform_toNat]
      exact congrArg some
        (Performer24Signed.signed_perform_eq_mapSamples P g _ buf (iterationsOf_mul_le _ 3))
    | false =>
      simp only [Bool.false_eq_true, if_false]
      rw [Performer24Unsigned.unsigned_perform_toNat]
      exact congrArg some
        (Performer24Unsigned.unsigned_perform_eq_mapSamples P g _ buf (iterationsOf_mul_le _ 3))
  · have e1 : ((32 : Int) >>> 3) = 4 := by decide
    have e2 : toBits 64 4 = 4 := by decide
    have e3 : (32 : Int).toNat / 8 = 4 := by decide
    have e4 : (32 : Int).toNat = 8 * 4 := by decide
    simp only [Data.scale, e1, e2, e3, scalerOnSample]
    simp only [show ((4 : Int) = 0) = False by decide, if_false, if_true,
      show ((32 : Int) = 24) = False by decide, show ((32 : Int) = 8) = False by decide,
      show ((32 : Int) = 16) = False by decide, e4]
    rw [Performer.generic_perform_toNat]
    exact congrArg some (Performer.generic_perform_eq_mapSamples P 4 s g _ buf (iterationsOf_mul_le _ 4))

theorem load_three (buf : List Byte) (off : Nat) :
    load buf off 3 = [rd buf off, rd buf (off + 1), rd buf (off + 2)] := rfl

theorem iterationsOf_le_div (len w : Nat) (hw : 0 < w) : iterationsOf len w ≤ len / w :=
  (Nat.le_div_iff_mul_le hw).mpr (iterationsOf_mul_le len w)

theorem isValue_of_inRange (bits : Nat) (signed : Bool) (v : Int) (hb : bits ≤ 16)
    (h : inRange bits signed v = true) : F32.IsValue (v : ℚ) := by
  apply F32.isValue_of_natAbs_lt
  have hp1 : (2 : Int) ^ (bits - 1) ≤ 2 ^ 16 := pow_le_pow_right₀ (by norm_num) (by omega)
  have hp2 : (2 : Int) ^ bits ≤ 2 ^ 16 := pow_le_pow_right₀ (by norm_num) hb
  cases signed with
  | true =>
    simp only [inRange, if_true, decide_eq_true_eq] at h
    omega
  | false =>
    simp only [inRange, Bool.false_eq_true, if_false, decide_eq_true_eq] at h
    omega

/-- The samples a scaler of gain 1.0 leaves alone: those whose staged integer
converts to `float` exactly. -/
theorem scalerOnSample_one (P : Platform) (bits : Int) (s : Bool) (a b : Int)
    (buf : List Byte) (i : Nat) (hb : bits = 8 ∨ bits = 16 ∨ bits = 24 ∨ bits = 32)
    (hg : (a : ℚ) * 2 ^ b = 1) (hv : F32.IsValue (stagedAt bits s buf i : ℚ)) :
    scalerOnSample P bits s (F32.finite a b) (load buf (i * (bits.toNat / 8)) (bits.toNat / 8)) =
      load buf (i * (bits.toNat / 8)) (bits.toNat / 8) := by
  rcases hb with rfl | rfl | rfl | rfl
  · have e3 : (8 : Int).toNat / 8 = 1 := by decide
    have e4 : (8 : Int).toNat = 8 * 1 := by decide
    simp only [scalerOnSample, stagedAt, show ((8 : Int) = 24) = False by decide, if_false,
      sampleAt] at hv ⊢
    rw [e3] at hv ⊢
    rw [e4] at hv ⊢
    exact Performer.generic_onSample_one P 1 s a b _ (by decide) (load_length _ _ _) hg hv
  · have e3 : (16 : Int).toNat / 8 = 2 := by decide
    have e4 : (16 : Int).toNat = 8 * 2 := by decide
    simp only [scalerOnSample, stagedAt, show ((16 : Int) = 24) = False by decide, if_false,
      sampleAt] at hv ⊢
    rw [e3] at hv ⊢
    rw [e4] at hv ⊢
    exact Performer.generic_onSample_one P 2 s a b _ (by decide) (load_length _ _ _) hg hv
  · have e3 : (24 : Int).toNat / 8 = 3 := by decide
    simp only [scalerOnSample, stagedAt, if_true] at hv ⊢
    rw [e3]
    cases s with
    | true =>
      simp only [if_true] at hv ⊢
      rw [load_three]
      exact Signed24.output_one P a b _ _ _ hg hv
    | false =>
      simp only [Bool.false_eq_true, if_false] at hv ⊢
      exact Unsigned24.unsigned_onSample_one P a b _ (load_length _ _ _) hg
  · have e3 : (32 : Int).toNat / 8 = 4 := by decide
    have e4 : (32 : Int).toNat = 8 * 4 := by decide
    simp only [scalerOnSample, stagedAt, show ((32 : Int) = 24) = False by decide, if_false,
      sampleAt] at hv ⊢
    rw [e3] at hv ⊢
    rw [e4] at hv ⊢
    exact Performer.generic_onSample_one P 4 s a b _ (by decide) (load_length _ _ _) hg hv

theorem stagedAt_isValue (bits : Int) (s : Bool) (buf : List Byte) (i : Nat)
    (hb : bits = 8 ∨ bits = 16 ∨ (bits = 24 ∧ s = false)) :
    F32.IsValue (stagedAt bits s buf i : ℚ) := by
  rcases hb with rfl | rfl | ⟨rfl, rfl⟩
  · simp only [stagedAt, show ((8 : Int) = 24) = False by decide, if_false, sampleAt,
      sampleValue]
    exact isValue_of_inRange 8 s _ (by decide) (inRange_wrap _ _ _ (by decide))
  · simp only [stagedAt, show ((16 : Int) = 24) = False by decide, if_false, sampleAt,
      sampleValue]
    exact isValue_of_inRange 16 s _ (by decide) (inRange_wrap _ _ _ (by decide))
  · simp only [stagedAt, if_true, Bool.false_eq_true, if_false]
    have hlt := leNat_lt (load buf (i * 3) 3)
    rw [load_length] at hlt
    exact F32.isValue_of_natAbs_lt _ (by simp only [Int.natAbs_ofNat]; omega)

/-- C1, as the code has it: for every supported format and every buffer whose
samples, as the integers the scaler converts to `float`, are binary32 values,
scaling with a gain equal to 1.0 returns the buffer unchanged; every sample of an
8-bit, a 16-bit or an unsigned 24-bit buffer is such a value, so those buffers
are always unchanged. -/
theorem gain_one_keeps_representable_samples (P : Platform) (c r bits : Int) (s : Bool)
    (g : F32) (buf : List Byte) (hg : F32.eqOne g = true)
    (hb : bits = 8 ∨ bits = 16 ∨ bits = 24 ∨ bits = 32) :
    ((∀ i, i < buf.length / (bits.toNat / 8) → F32.IsValue (stagedAt bits s buf i : ℚ)) →
      Data.scale P ⟨c, bits, r, s⟩ g buf = some buf) ∧
    ((bits = 8 ∨ bits = 16 ∨ (bits = 24 ∧ s = false)) →
      Data.scale P ⟨c, bits, r, s⟩ g buf = some buf) := by
  obtain ⟨a, b, rfl, hab⟩ := F32.eqOne_iff g hg
  have hw : 0 < bits.toNat / 8 := by
    rcases hb with rfl | rfl | rfl | rfl <;> decide
  have main : (∀ i, i < buf.length / (bits.toNat / 8) →
      F32.IsValue (stagedAt bits s buf i : ℚ)) →
      Data.scale P ⟨c, bits, r, s⟩ (F32.finite a b) buf = some buf := by
    intro hx
    rw [Data.scale_supported P c r bits s _ buf hb]
    congr 1
    apply mapSamples_id _ _ _ buf (iterationsOf_mul_le _ _)
    intro i hi
    exact scalerOnSample_one P bits s a b buf i hb hab
      (hx i (lt_of_lt_of_le hi (iterationsOf_le_div _ _ hw)))
  exact ⟨main, fun h => main (fun i _ => stagedAt_isValue bits s buf i h)⟩

theorem gain_one_keeps_representable_samples_witness :
    F32.eqOne F32.one = true ∧
    Data.scale x86_64 ⟨2, 32, 44100, true⟩ F32.one [0, 0, 0, 1] = some [0, 0, 0, 1] ∧
    Data.scale x86_64 ⟨2, 16, 44100, true⟩ F32.one [0xff, 0xff] = some [0xff, 0xff] :=
  ⟨by decide,
   (gain_one_keeps_representable_samples x86_64 2 44100 32 true F32.one [0, 0, 0, 1]
      (by decide) (by decide)).1
      (fun i hi => by
        have h0 : i = 0 := by
          have : [(0 : Byte), 0, 0, 1].length / ((32 : Int).toNat / 8) = 1 := by decide
          omega
        subst h0
        rw [show stagedAt 32 true [0, 0, 0, 1] 0 = 16777216 by decide]
        exact ⟨1, 24, by decide, by decide, by decide, by norm_num⟩),
   (gain_one_keeps_representable_samples x86_64 2 44100 16 true F32.one [0xff, 0xff]
      (by decide) (by decide)).2 (by decide)⟩

/-- C1 as stated fails: with gain 1.0 the unsigned 32-bit sample `01 00 00 02`
(33554433) becomes `00 00 00 02`, and the signed 24-bit sample `01 00 80` becomes
`00 00 80`. -/
theorem gain_one_changes_unrepresentable_samples :
    Data.scale x86_64 ⟨2, 32, 44100, false⟩ F32.one [1, 0, 0, 2] = some [0, 0, 0, 2] ∧
    Data.scale x86_64 ⟨2, 24, 44100, true⟩ F32.one [1, 0, 0x80] = some [0, 0, 0x80] := by
  decide

/-! ## The 24-bit signed scaler on non-negative samples -/

theorem sampleValue24_nonneg (b0 b1 b2 : Byte)
    (h : 0 ≤ sampleValue 24 true [b0, b1, b2]) :
    b2.val < 128 ∧ sampleValue 24 true [b0, b1, b2] = (leNat [b0, b1, b2] : Int) := by
  have h0 := b0.isLt
  have h1 := b1.isLt
  have h2 := b2.isLt
  simp only [sampleValue, wrap, leNat, true_and] at h ⊢
  norm_num at h ⊢
  split at h <;> rename_i hc <;> simp only [hc, if_true, if_false] <;> omega

theorem Signed24.output_nonneg (P : Platform) (a b p : Int) (b0 b1 b2 : Byte)
    (hv : 0 ≤ sampleValue 24 true [b0, b1, b2])
    (hprod : (sampleValue 24 true [b0, b1, b2] : ℚ) * ((a : ℚ) * 2 ^ b) = (p : ℚ))
    (h0 : 0 ≤ p) (h23 : p < 2 ^ 23) :
    Signed24.output P (F32.finite a b) b0 b1 b2 = sampleBytes 24 p := by
  obtain ⟨hb2, hval⟩ := sampleValue24_nonneg b0 b1 b2 hv
  obtain ⟨hlo, hfl, -⟩ := byte_flag_split b2
  have q0 := b0.isLt
  have q1 := b1.isLt
  have hlo' : b2.val &&& 0x7f = b2.val := by rw [hlo]; omega
  have hfl' : b2.val &&& 0x80 = 0 := by rw [hfl]; omega
  have hst : Signed24.staged b0 b1 b2 = sampleValue 24 true [b0, b1, b2] := by
    rw [hval]
    simp only [Signed24.staged, Signed24.flag, hlo', hfl', leNat]
    have : b0.val + 2 ^ 8 * b1.val + 2 ^ 16 * b2.val + 2 ^ 24 * 0
        = b0.val + 256 * (b1.val + 256 * (b2.val + 256 * 0)) := by ring
    rw [this]
    apply wrap_of_inRange 32 true _ (by decide)
    simp only [inRange, if_true, decide_eq_true_eq]
    constructor <;> omega
  have hvv : F32.IsValue (sampleValue 24 true [b0, b1, b2] : ℚ) := by
    apply F32.isValue_of_natAbs_lt
    rw [hval]; simp only [leNat] at hval ⊢; omega
  have hto : Signed24.product P (F32.finite a b) b0 b1 b2 = p := by
    simp only [Signed24.product, hst]
    exact toInt_mul_exact P 32 true _ a b p hvv hprod
      (F32.isValue_of_natAbs_lt _ (by omega))
      (by simp only [inRange, if_true, decide_eq_true_eq]; constructor <;> omega)
  have hbits : toBits 32 p = p.toNat := by
    simp only [toBits]; rw [Int.emod_eq_of_lt h0 (by omega)]
  have hbits24 : toBits 24 p = p.toNat := by
    simp only [toBits]; rw [Int.emod_eq_of_lt h0 (by omega)]
  have hpn : p.toNat < 2 ^ 23 := by omega
  have hm : Signed24.masked P (F32.finite a b) b0 b1 b2 = p.toNat := by
    simp only [Signed24.masked, hto, hbits]
    rw [show (0x7fffff : Nat) = 2 ^ 23 - 1 by norm_num, Nat.and_pow_two_sub_one_eq_mod,
      Nat.mod_eq_of_lt hpn]
  simp only [Signed24.output, hm, Signed24.flag, hfl', Nat.or_zero, sampleBytes, hbits24,
    show 24 / 8 = 3 by decide, leBytes]
  congr 3
  apply Fin.ext
  simp only [byteOfNat]
  norm_num [Nat.div_div_eq_div_mul]

/-- Samples without the sign bit: for every sample of a 24-bit signed buffer whose sign
bit is clear, of value `v`, and every gain `a * 2^b` for which `v * gain` is an
integer `p` with `0 ≤ p < 2^23`, the three output bytes are the 24-bit two's
complement encoding of `p`. -/
theorem signed24_scales_nonnegative_samples (P : Platform) (a b p : Int) (buf : List Byte)
    (i : Nat) (hi : i < buf.length / 3)
    (hv : 0 ≤ sampleValue 24 true (load buf (i * 3) 3))
    (hprod : (sampleValue 24 true (load buf (i * 3) 3) : ℚ) * ((a : ℚ) * 2 ^ b) = (p : ℚ))
    (h0 : 0 ≤ p) (h23 : p < 2 ^ 23) :
    load (Performer24Signed.perform P (F32.finite a b) ((buf.length / 3 : Nat) : Int) buf)
      (i * 3) 3 = sampleBytes 24 p := by
  rw [Performer24Signed.signed_perform_eq_mapSamples P _ _ buf (by omega),
    load_mapSamples 3 _ (by
      intro c hc
      match c, hc with
      | [b0, b1, b2], _ => rfl) _ buf i (by omega) hi]
  rw [load_three] at hv hprod ⊢
  exact Signed24.output_nonneg P a b p _ _ _ hv hprod h0 h23

theorem signed24_scales_nonnegative_samples_witness :
    (0 < [(0 : Byte), 0, 0x20].length / 3) ∧
    (0 : Int) ≤ sampleValue 24 true (load [0, 0, 0x20] (0 * 3) 3) ∧
    load (Performer24Signed.perform x86_64 (F32.finite 1 1)
      (([(0 : Byte), 0, 0x20].length / 3 : Nat) : Int) [0, 0, 0x20]) (0 * 3) 3
      = sampleBytes 24 4194304 :=
  ⟨by decide, by decide,
   signed24_scales_nonnegative_samples x86_64 1 1 4194304 [0, 0, 0x20] 0 (by decide)
     (by decide)
     (by rw [show sampleValue 24 true (load [0, 0, 0x20] (0 * 3) 3) = 2097152 by decide]
         norm_num)
     (by decide) (by decide)⟩

/-- C3 fails on the code: the 24-bit signed scaler stages the sign bit alone in
the top byte instead of extending it, so the sample `FF FF FF` (two's complement
-1) scaled by 1.0 becomes `00 00 80`, not the encoding `FF FF FF` of -1, and
scaled by 2.0 it becomes `00 00 80` on x86-64, not the encoding `FE FF FF` of -2. -/
theorem signed24_is_not_twos_complement :
    sampleValue 24 true [0xff, 0xff, 0xff] = -1 ∧
    sampleBytes 24 (-1 * 1) = [0xff, 0xff, 0xff] ∧
    Performer24Signed.perform x86_64 F32.one 1 [0xff, 0xff, 0xff] = [0, 0, 0x80] ∧
    sampleBytes 24 (-1 * 2) = [0xfe, 0xff, 0xff] ∧
    Performer24Signed.perform x86_64 F32.two 1 [0xff, 0xff, 0xff] = [0, 0, 0x80] := by
  decide

/-! ## The 8-, 16- and 32-bit scalers -/

/-- C6 as stated fails: the signed 32-bit sample `2^30` scaled by 4.0 has the float
product `2^32`, which wraps to 0 modulo `2^32`; the scaler compiled for x86-64
stores `-2^31` (`00 00 00 80`) instead. Likewise the unsigned 16-bit sample 1
scaled by 2147483904.0 has the product `2^31 + 2^8`, which wraps to 256
(`00 01`) modulo `2^16`; the scaler compiled for x86-64 stores 0. -/
theorem wide_product_is_not_wrapped :
    sampleAt 32 true [0, 0, 0, 0x40] 0 = 1073741824 ∧
    F32.trunc (F32.mul (F32.ofInt 1073741824) (F32.finite 1 2)) = some 4294967296 ∧
    sampleBytes 32 (wrap 32 true 4294967296) = [0, 0, 0, 0] ∧
    Data.scale x86_64 ⟨2, 32, 44100, true⟩ (F32.finite 1 2) [0, 0, 0, 0x40] =
      some [0, 0, 0, 0x80] ∧
    sampleAt 16 false [1, 0] 0 = 1 ∧
    F32.trunc (F32.mul (F32.ofInt 1) (F32.finite 8388609 8)) = some 2147483904 ∧
    sampleBytes 16 (wrap 16 false 2147483904) = [0, 1] ∧
    Data.scale x86_64 ⟨2, 16, 44100, false⟩ (F32.finite 8388609 8) [1, 0] = some [0, 0] := by
  decide

/-! ## Rounding and truncation errors -/

/-- The integer core of rounding to 24 bits: the rounded significand `k'` lies
within half a unit in the last place of the exact one. -/
theorem round_core (n L : Nat) (hn0 : n ≠ 0) (hL1 : 2 ^ (L - 1) ≤ n) (hL2 : n < 2 ^ L) :
    ∃ k' : Nat,
      (if 2 ^ (L - 24) < 2 * (n % 2 ^ (L - 24)) ∨
          (2 * (n % 2 ^ (L - 24)) = 2 ^ (L - 24) ∧ n / 2 ^ (L - 24) % 2 = 1)
        then n / 2 ^ (L - 24) + 1 else n / 2 ^ (L - 24)) = k' ∧
      k' ≠ 0 ∧ bitLen k' + (L - 24) ≤ L + 1 ∧
      2 ^ 24 * (k' * 2 ^ (L - 24) - n) ≤ n ∧ 2 ^ 24 * (n - k' * 2 ^ (L - 24)) ≤ n := by
  have hLpos : 0 < L := by
    by_contra hc
    have : L = 0 := by omega
    subst this; simp at hL2; exact hn0 hL2
  by_cases hs : L ≤ 24
  · have e0 : L - 24 = 0 := by omega
    refine ⟨n, ?_, hn0, ?_, ?_, ?_⟩
    · simp [e0, Nat.mod_one]
    · rw [e0]; have := bitLen_le_of_lt hL2; omega
    · simp [e0]
    · simp [e0]
  · obtain ⟨s, hs'⟩ : ∃ s, L - 24 = s + 1 := ⟨L - 25, by omega⟩
    rw [hs']
    have hp : (2 : Nat) ^ (s + 1) = 2 * 2 ^ s := by rw [pow_succ]; ring
    have hL' : L - 1 = s + 24 := by omega
    have hbig : 2 ^ 24 * 2 ^ s ≤ n := by
      rw [hL'] at hL1
      rw [← pow_add]; rw [Nat.add_comm] at hL1; exact hL1
    have hLe : L = s + 25 := by omega
    have hlt : n < 2 ^ 25 * 2 ^ s := by
      rw [hLe] at hL2
      rw [← pow_add]; rw [Nat.add_comm] at hL2; exact hL2
    generalize hq : (2 : Nat) ^ s = q at *
    have hq0 : 0 < q := by rw [← hq]; positivity
    rw [hp]
    have hdm : 2 * q * (n / (2 * q)) + n % (2 * q) = n := Nat.div_add_mod n (2 * q)
    have hrlt : n % (2 * q) < 2 * q := Nat.mod_lt _ (by omega)
    generalize n / (2 * q) = k at *
    generalize n % (2 * q) = r at *
    have hk24 : k < 2 ^ 24 := by
      by_contra hc
      have : 2 * q * 2 ^ 24 ≤ 2 * q * k := Nat.mul_le_mul_left _ (by omega)
      omega
    by_cases hup : 2 * q < 2 * r ∨ (2 * r = 2 * q ∧ k % 2 = 1)
    · refine ⟨k + 1, by rw [if_pos hup], by omega, ?_, ?_, ?_⟩
      · have := bitLen_le_of_lt (show k + 1 < 2 ^ 25 by omega)
        omega
      · have e : (k + 1) * (2 * q) = 2 * q * k + 2 * q := by ring
        rw [e]; omega
      · have e : (k + 1) * (2 * q) = 2 * q * k + 2 * q := by ring
        rw [e]; omega
    · have hk0 : k ≠ 0 := by
        intro h0; subst h0
        simp at hdm
        omega
      refine ⟨k, by rw [if_neg hup], hk0, ?_, ?_, ?_⟩
      · have := bitLen_le_of_lt (show k < 2 ^ 25 by omega)
        omega
      · have e : k * (2 * q) = 2 * q * k := by ring
        rw [e]; omega
      · have e : k * (2 * q) = 2 * q * k := by ring
        rw [e]; omega

theorem F32.round_error (m e : Int) (hm : m ≠ 0)
    (hlo : -125 ≤ e + bitLen m.natAbs) (hhi : e + bitLen m.natAbs ≤ 127) :
    ∃ m2 e2, F32.round m e = F32.finite m2 e2 ∧
      |(m2 : ℚ) * 2 ^ e2 - m * 2 ^ e| ≤ |(m : ℚ) * 2 ^ e| / 2 ^ 24 ∧
      (0 < m → 0 < m2) ∧ (m < 0 → m2 < 0) := by
  have hn0 : m.natAbs ≠ 0 := by simpa using hm
  obtain ⟨k', hif, hk0, hbl, herr1, herr2⟩ := round_core m.natAbs (bitLen m.natAbs) hn0
    (two_pow_bitLen_le _ hn0) (lt_two_pow_bitLen _)
  have hs : (max (e + (bitLen m.natAbs : Int) - 24) (-149) - e).toNat = bitLen m.natAbs - 24 := by
    omega
  have hov : ¬ (128 < e + ((bitLen m.natAbs - 24 : Nat) : Int) + bitLen k') := by omega
  have h2 : (0 : ℚ) < 2 := by norm_num
  have hround : F32.round m e =
      F32.finite (if m < 0 then -(k' : Int) else k') (e + ((bitLen m.natAbs - 24 : Nat) : Int)) := by
    unfold F32.round
    simp only [hs, hif, hk0, if_false, hov]
  refine ⟨_, _, hround, ?_, ?_, ?_⟩
  · generalize bitLen m.natAbs - 24 = s at *
    have hq : |((k' : ℚ) * 2 ^ s - (m.natAbs : ℚ))| ≤ (m.natAbs : ℚ) / 2 ^ 24 := by
      rw [le_div_iff₀ (by positivity)]
      have c1 : ((2 ^ 24 * (k' * 2 ^ s - m.natAbs) : Nat) : ℚ) ≤ (m.natAbs : ℚ) := by
        exact_mod_cast herr1
      have c2 : ((2 ^ 24 * (m.natAbs - k' * 2 ^ s) : Nat) : ℚ) ≤ (m.natAbs : ℚ) := by
        exact_mod_cast herr2
      rcases le_total (k' * 2 ^ s) m.natAbs with hle | hle
      · rw [Nat.cast_mul, Nat.cast_sub hle] at c2
        have hle' : ((k' * 2 ^ s : Nat) : ℚ) ≤ (m.natAbs : ℚ) := by exact_mod_cast hle
        push_cast at c2 hle'
        rw [abs_of_nonpos (by linarith)]
        linarith
      · rw [Nat.cast_mul, Nat.cast_sub hle] at c1
        have hle' : (m.natAbs : ℚ) ≤ ((k' * 2 ^ s : Nat) : ℚ) := by exact_mod_cast hle
        push_cast at c1 hle'
        rw [abs_of_nonneg (by linarith)]
        linarith
    have hpe : (0 : ℚ) < 2 ^ e := zpow_pos h2 _
    have habs : |(m : ℚ) * 2 ^ e| = (m.natAbs : ℚ) * 2 ^ e := by
      rw [abs_mul, abs_of_pos hpe, Nat.cast_natAbs, Int.cast_abs]
    rw [habs, zpow_add₀ h2.ne', zpow_natCast]
    by_cases hneg : m < 0
    · simp only [hneg, if_true]
      have hm' : (m : ℚ) = -(m.natAbs : ℚ) := by
        rw [Nat.cast_natAbs, abs_of_neg hneg]; push_cast; ring
      have e1 : ((-(k' : Int) : Int) : ℚ) * (2 ^ e * 2 ^ s) - m * 2 ^ e
          = -(((k' : ℚ) * 2 ^ s - (m.natAbs : ℚ)) * 2 ^ e) := by
        rw [hm']; push_cast; ring
      rw [e1, abs_neg, abs_mul, abs_of_pos hpe, mul_div_right_comm]
      exact mul_le_mul_of_nonneg_right hq hpe.le
    · simp only [hneg, if_false]
      have hm' : (m : ℚ) = (m.natAbs : ℚ) := by
        rw [Nat.cast_natAbs, abs_of_nonneg (by omega : (0 : Int) ≤ m)]
      have e1 : ((k' : Int) : ℚ) * (2 ^ e * 2 ^ s) - m * 2 ^ e
          = (((k' : ℚ) * 2 ^ s - (m.natAbs : ℚ)) * 2 ^ e) := by
        rw [hm']; push_cast; ring
      rw [e1, abs_mul, abs_of_pos hpe, mul_div_right_comm]
      exact mul_le_mul_of_nonneg_right hq hpe.le
  · intro hpos
    rw [if_neg (by omega)]
    omega
  · intro hneg
    rw [if_pos hneg]
    omega

theorem F32.round_zero (e : Int) : F32.round 0 e = F32.finite 0 0 := by
  simp [F32.round, bitLen_zero]

theorem bitLen_bounds_of_value (m e : Int) (hm : m ≠ 0)
    (hlo : (2 : ℚ) ^ (-100 : Int) ≤ |(m : ℚ) * 2 ^ e|) (hhi : |(m : ℚ) * 2 ^ e| ≤ 2 ^ (100 : Int)) :
    -125 ≤ e + bitLen m.natAbs ∧ e + bitLen m.natAbs ≤ 127 := by
  have hn0 : m.natAbs ≠ 0 := by simpa using hm
  have hL1 := two_pow_bitLen_le m.natAbs hn0
  have hL2 := lt_two_pow_bitLen m.natAbs
  have h2 : (0 : ℚ) < 2 := by norm_num
  have h1 : (1 : ℚ) < 2 := by norm_num
  have hpe : (0 : ℚ) < 2 ^ e := zpow_pos h2 _
  have habs : |(m : ℚ) * 2 ^ e| = (m.natAbs : ℚ) * 2 ^ e := by
    rw [abs_mul, abs_of_pos hpe, Nat.cast_natAbs, Int.cast_abs]
  rw [habs] at hlo hhi
  have hLpos : 0 < bitLen m.natAbs := by
    by_contra hc
    have : bitLen m.natAbs = 0 := by omega
    rw [this] at hL2; simp at hL2; exact hm hL2
  constructor
  · have a1 : (m.natAbs : ℚ) * 2 ^ e < 2 ^ (bitLen m.natAbs : Int) * 2 ^ e := by
      apply mul_lt_mul_of_pos_right _ hpe
      rw [zpow_natCast]; exact_mod_cast hL2
    have a2 := lt_of_le_of_lt hlo a1
    rw [← zpow_add₀ h2.ne', zpow_lt_zpow_iff_right₀ h1] at a2
    omega
  · have a1 : (2 : ℚ) ^ ((bitLen m.natAbs - 1 : Nat) : Int) * 2 ^ e ≤ (m.natAbs : ℚ) * 2 ^ e := by
      apply mul_le_mul_of_nonneg_right _ hpe.le
      rw [zpow_natCast]; exact_mod_cast hL1
    have a2 := le_trans a1 hhi
    rw [← zpow_add₀ h2.ne', zpow_le_zpow_iff_right₀ h1] at a2
    omega

/-- The float product of an exactly converted integer and a gain lies within a
relative `2^-24` of the exact product and has its sign. -/
theorem F32.mul_error (v a b : Int) (hv : F32.IsValue (v : ℚ))
    (hx : (v : ℚ) * (a * 2 ^ b) ≠ 0 →
      (2 : ℚ) ^ (-100 : Int) ≤ |(v : ℚ) * (a * 2 ^ b)| ∧
      |(v : ℚ) * (a * 2 ^ b)| ≤ 2 ^ (100 : Int)) :
    ∃ m2 e2, F32.mul (F32.ofInt v) (F32.finite a b) = F32.finite m2 e2 ∧
      |(m2 : ℚ) * 2 ^ e2 - v * (a * 2 ^ b)| ≤ |(v : ℚ) * (a * 2 ^ b)| / 2 ^ 24 ∧
      0 ≤ ((m2 : ℚ) * 2 ^ e2) * (v * (a * 2 ^ b)) := by
  obtain ⟨m0, e0, h0, hlo0, hhi0, hv0⟩ := hv
  obtain ⟨m1, e1, h1, hv1⟩ := F32.round_exact v 0 m0 e0 h0 hlo0 hhi0 (by rw [← hv0]; simp)
  rw [F32.ofInt, h1]
  simp only [F32.mul]
  have h2 : (2 : ℚ) ≠ 0 := by norm_num
  have hval : ((m1 * a : Int) : ℚ) * 2 ^ (e1 + b) = (v : ℚ) * (a * 2 ^ b) := by
    rw [zpow_add₀ h2]
    push_cast
    have : (v : ℚ) = m1 * 2 ^ e1 := by rw [hv1]; simp
    rw [this]; ring
  by_cases hz : m1 * a = 0
  · refine ⟨0, 0, by rw [hz, F32.round_zero], ?_, ?_⟩
    · rw [← hval, hz]; simp
    · simp
  · have hxne : (v : ℚ) * (a * 2 ^ b) ≠ 0 := by
      rw [← hval]
      apply mul_ne_zero
      · exact_mod_cast hz
      · exact zpow_ne_zero _ h2
    obtain ⟨hl, hh⟩ := hx hxne
    rw [← hval] at hl hh
    obtain ⟨c1, c2⟩ := bitLen_bounds_of_value (m1 * a) (e1 + b) hz hl hh
    obtain ⟨m2, e2, hr, herr, hpos, hneg⟩ := F32.round_error (m1 * a) (e1 + b) hz c1 c2
    refine ⟨m2, e2, hr, by rw [← hval]; exact herr, ?_⟩
    rw [← hval]
    have hp1 : (0 : ℚ) < 2 ^ e2 := zpow_pos (by norm_num) _
    have hp2 : (0 : ℚ) < 2 ^ (e1 + b) := zpow_pos (by norm_num) _
    rcases lt_or_gt_of_ne hz with hlt | hgt
    · have := hneg hlt
      have q1 : ((m2 : ℚ)) < 0 := by exact_mod_cast this
      have q2 : (((m1 * a : Int)) : ℚ) < 0 := by exact_mod_cast hlt
      have r1 : (m2 : ℚ) * 2 ^ e2 < 0 := mul_neg_of_neg_of_pos q1 hp1
      have r2 : ((m1 * a : Int) : ℚ) * 2 ^ (e1 + b) < 0 := mul_neg_of_neg_of_pos q2 hp2
      exact (mul_pos_of_neg_of_neg r1 r2).le
    · have := hpos hgt
      have q1 : (0 : ℚ) < (m2 : ℚ) := by exact_mod_cast this
      have q2 : (0 : ℚ) < (((m1 * a : Int)) : ℚ) := by exact_mod_cast hgt
      exact (mul_pos (mul_pos q1 hp1) (mul_pos q2 hp2)).le

/-- Truncation toward zero keeps the sign and drops less than one unit. -/
theorem F32.trunc_error (m e : Int) :
    ∃ t : Int, F32.trunc (F32.finite m e) = some t ∧
      |(t : ℚ)| ≤ |(m : ℚ) * 2 ^ e| ∧ |(m : ℚ) * 2 ^ e| < |(t : ℚ)| + 1 ∧
      0 ≤ (t : ℚ) * ((m : ℚ) * 2 ^ e) := by
  have h2 : (2 : ℚ) ≠ 0 := by norm_num
  by_cases he : 0 ≤ e
  · have e1 : ((2 : ℚ) ^ e) = 2 ^ e.toNat := by
      rw [← zpow_natCast]; congr 1; omega
    refine ⟨m * 2 ^ e.toNat, by simp [F32.trunc, he], ?_, ?_, ?_⟩
    · rw [e1]; push_cast; exact le_rfl
    · rw [e1]; push_cast; linarith
    · rw [e1]; push_cast; exact mul_self_nonneg _
  · have e1 : ((2 : ℚ) ^ e) = (2 ^ (-e).toNat)⁻¹ := by
      rw [← zpow_natCast, ← zpow_neg]; congr 1; omega
    refine ⟨Int.tdiv m (2 ^ (-e).toNat), by simp [F32.trunc, he], ?_⟩
    rw [e1]
    generalize (-e).toNat = k
    have hD : (0 : Int) < 2 ^ k := by positivity
    have hDq : (0 : ℚ) < 2 ^ k := by positivity
    rcases le_total 0 m with hm | hm
    · have ht : Int.tdiv m (2 ^ k) = m / 2 ^ k := Int.tdiv_eq_ediv hm hD.le
      rw [ht]
      have d1 := Int.ediv_add_emod m (2 ^ k)
      have d2 := Int.emod_nonneg m hD.ne'
      have d3 := Int.emod_lt_of_pos m hD
      have d4 : (0 : Int) ≤ m / 2 ^ k := Int.ediv_nonneg hm hD.le
      have q : (m : ℚ) = 2 ^ k * ((m / 2 ^ k : Int) : ℚ) + ((m % 2 ^ k : Int) : ℚ) := by
        exact_mod_cast d1.symm
      have q2 : (0 : ℚ) ≤ ((m % 2 ^ k : Int) : ℚ) := by exact_mod_cast d2
      have q3 : ((m % 2 ^ k : Int) : ℚ) < 2 ^ k := by exact_mod_cast d3
      have q4 : (0 : ℚ) ≤ ((m / 2 ^ k : Int) : ℚ) := by exact_mod_cast d4
      have hmq : (0 : ℚ) ≤ (m : ℚ) := by exact_mod_cast hm
      have hy : (0 : ℚ) ≤ (m : ℚ) * (2 ^ k)⁻¹ := mul_nonneg hmq (inv_nonneg.mpr hDq.le)
      rw [abs_of_nonneg q4, abs_of_nonneg hy]
      refine ⟨?_, ?_, mul_nonneg q4 hy⟩
      · rw [← div_eq_mul_inv, le_div_iff₀ hDq]; linarith
      · rw [← div_eq_mul_inv, div_lt_iff₀ hDq]; linarith
    · have hm' : 0 ≤ -m := by omega
      have ht : Int.tdiv m (2 ^ k) = -((-m) / 2 ^ k) := by
        have := Int.tdiv_eq_ediv hm' hD.le
        rw [Int.neg_tdiv] at this
        omega
      rw [ht]
      have d1 := Int.ediv_add_emod (-m) (2 ^ k)
      have d2 := Int.emod_nonneg (-m) hD.ne'
      have d3 := Int.emod_lt_of_pos (-m) hD
      have d4 : (0 : Int) ≤ (-m) / 2 ^ k := Int.ediv_nonneg hm' hD.le
      have q : (-(m : ℚ)) = 2 ^ k * (((-m) / 2 ^ k : Int) : ℚ) + (((-m) % 2 ^ k : Int) : ℚ) := by
        have : ((-m : Int) : ℚ) = -(m : ℚ) := by push_cast; rfl
        rw [← this]
        exact_mod_cast d1.symm
      have q2 : (0 : ℚ) ≤ (((-m) % 2 ^ k : Int) : ℚ) := by exact_mod_cast d2
      have q3 : (((-m) % 2 ^ k : Int) : ℚ) < 2 ^ k := by exact_mod_cast d3
      have q4 : (0 : ℚ) ≤ (((-m) / 2 ^ k : Int) : ℚ) := by exact_mod_cast d4
      have hmq : (m : ℚ) ≤ 0 := by exact_mod_cast hm
      have hy : (m : ℚ) * (2 ^ k)⁻¹ ≤ 0 := mul_nonpos_of_nonpos_of_nonneg hmq (inv_nonneg.mpr hDq.le)
      have hcast : ((-((-m) / 2 ^ k) : Int) : ℚ) = -(((-m) / 2 ^ k : Int) : ℚ) := by push_cast; rfl
      rw [hcast, abs_neg, abs_of_nonneg q4, abs_of_nonpos hy]
      refine ⟨?_, ?_, ?_⟩
      · rw [← neg_mul, ← div_eq_mul_inv, le_div_iff₀ hDq]; linarith
      · rw [← neg_mul, ← div_eq_mul_inv, div_lt_iff₀ hDq]; linarith
      · have : -(((-m) / 2 ^ k : Int) : ℚ) ≤ 0 := by linarith
        exact mul_nonneg_of_nonpos_of_nonpos this hy

/-! ## Scaling by a gain and then by its reciprocal -/

theorem inRange_toInt (P : Platform) (bits : Nat) (signed : Bool) (x : F32) (hb : 0 < bits) :
    inRange bits signed (toInt P bits signed x) = true := by
  simp only [toInt]
  split
  · split
    · assumption
    · exact inRange_wrap _ _ _ hb
  · exact inRange_wrap _ _ _ hb

/-- On an 8-, 16- or 32-bit format every sample the loop reaches is replaced by
the converted float product. -/
theorem Data.scale_sampleAt (P : Platform) (c r bits : Int) (s : Bool) (g : F32)
    (buf : List Byte) (hb : bits = 8 ∨ bits = 16 ∨ bits = 32) :
    ∃ out, Data.scale P ⟨c, bits, r, s⟩ g buf = some out ∧ out.length = buf.length ∧
      ∀ i, i < iterationsOf buf.length (bits.toNat / 8) →
        sampleAt bits.toNat s out i =
          toInt P bits.toNat s (F32.mul (F32.ofInt (sampleAt bits.toNat s buf i)) g) := by
  have hb' : bits = 8 ∨ bits = 16 ∨ bits = 24 ∨ bits = 32 := by
    rcases hb with h | h | h
    · exact Or.inl h
    · exact Or.inr (Or.inl h)
    · exact Or.inr (Or.inr (Or.inr h))
  obtain ⟨w, hw0, hw8, hw⟩ : ∃ w : Nat, 0 < w ∧ bits.toNat = 8 * w ∧ bits.toNat / 8 = w := by
    rcases hb with rfl | rfl | rfl
    · exact ⟨1, by decide, by decide, by decide⟩
    · exact ⟨2, by decide, by decide, by decide⟩
    · exact ⟨4, by decide, by decide, by decide⟩
  have h24 : ¬ bits = 24 := by rcases hb with rfl | rfl | rfl <;> decide
  have hf : ∀ c : List Byte, c.length = w →
      (scalerOnSample P bits s g c).length = w := by
    intro c _
    simp only [scalerOnSample, if_neg h24, hw8]
    exact Performer.onSample_length P w s g c
  refine ⟨_, Data.scale_supported P c r bits s g buf hb', ?_, ?_⟩
  · rw [hw]
    exact mapSamples_length w _ hf _ buf (iterationsOf_mul_le _ _)
  · intro i hi
    rw [hw] at hi
    simp only [sampleAt]
    rw [hw]
    rw [load_mapSamples w _ hf _ buf i (iterationsOf_mul_le _ _) hi]
    simp only [scalerOnSample, if_neg h24, Performer.onSample, sampleValue]
    rw [hw8]
    exact sampleValue_sampleBytes w s _ hw0 (inRange_toInt P _ s _ (by omega))

theorem round_trip_core (V G H Y1 T Y2 U : ℚ) (hV0 : 0 ≤ V) (hV : V ≤ 65536) (hG : 1 ≤ G)
    (hH0 : 0 ≤ H) (hGH : |G * H - 1| ≤ 1 / 2 ^ 23) (hY1 : |Y1 - V * G| ≤ V * G / 2 ^ 24)
    (hT1 : T ≤ Y1) (hT2 : Y1 < T + 1) (hY2 : |Y2 - T * H| ≤ T * H / 2 ^ 24)
    (hU1 : U ≤ Y2) (hU2 : Y2 < U + 1) : U < V + 1 ∧ V - 3 < U := by
  obtain ⟨g1, g2⟩ := abs_le.mp hGH
  obtain ⟨y1, y2⟩ := abs_le.mp hY1
  obtain ⟨z1, z2⟩ := abs_le.mp hY2
  have hW1 : V * (G * H) ≤ V * (1 + 1 / 2 ^ 23) :=
    mul_le_mul_of_nonneg_left (by linarith) hV0
  have hW2 : V * (1 - 1 / 2 ^ 23) ≤ V * (G * H) :=
    mul_le_mul_of_nonneg_left (by linarith) hV0
  have hHle : H ≤ 1 + 1 / 2 ^ 23 := by
    have : H * 1 ≤ H * G := mul_le_mul_of_nonneg_left hG hH0
    nlinarith
  have a1 : Y1 * H ≤ (V * G + V * G / 2 ^ 24) * H :=
    mul_le_mul_of_nonneg_right (by linarith) hH0
  have a2 : (V * G - V * G / 2 ^ 24) * H ≤ Y1 * H :=
    mul_le_mul_of_nonneg_right (by linarith) hH0
  have a3 : T * H ≤ Y1 * H := mul_le_mul_of_nonneg_right hT1 hH0
  have a4 : (Y1 - 1) * H ≤ T * H := mul_le_mul_of_nonneg_right (by linarith) hH0
  have e1 : (V * G + V * G / 2 ^ 24) * H = V * (G * H) * (1 + 1 / 2 ^ 24) := by ring
  have e2 : (V * G - V * G / 2 ^ 24) * H = V * (G * H) * (1 - 1 / 2 ^ 24) := by ring
  rw [e1] at a1
  rw [e2] at a2
  generalize V * (G * H) = W at *
  generalize T * H = A at *
  have e3 : (Y1 - 1) * H = Y1 * H - H := by ring
  rw [e3] at a4
  generalize Y1 * H = B at *
  norm_num at *
  constructor <;> linarith

theorem nonneg_of_mul_nonneg (p q : ℚ) (h : 0 ≤ p * q) (hq : 0 ≤ q) (hz : q = 0 → p = 0) :
    0 ≤ p := by
  by_contra hp
  push_neg at hp
  rcases eq_or_lt_of_le hq with h0 | h0
  · have := hz h0.symm; linarith
  · have := mul_neg_of_neg_of_pos hp h0; linarith

theorem nonpos_of_mul_nonneg (p q : ℚ) (h : 0 ≤ p * q) (hq : q ≤ 0) (hz : q = 0 → p = 0) :
    p ≤ 0 := by
  by_contra hp
  push_neg at hp
  rcases eq_or_lt_of_le hq with h0 | h0
  · have := hz h0; linarith
  · have := mul_neg_of_pos_of_neg hp h0; linarith

theorem type_bounds (bits : Nat) (s : Bool) (hb0 : 0 < bits) (hb16 : bits ≤ 16) :
    ∃ lo hi : Int, lo ≤ 0 ∧ 0 ≤ hi ∧ -65536 ≤ lo ∧ hi ≤ 65535 ∧
      (∀ z : Int, inRange bits s z = true ↔ lo ≤ z ∧ z ≤ hi) ∧
      (∀ x : ℚ, fitsType bits s x ↔ (lo : ℚ) ≤ x ∧ x ≤ hi) := by
  have hp1 : (2 : Int) ^ (bits - 1) ≤ 2 ^ 16 := pow_le_pow_right₀ (by norm_num) (by omega)
  have hp2 : (2 : Int) ^ bits ≤ 2 ^ 16 := pow_le_pow_right₀ (by norm_num) hb16
  have hq1 : (0 : Int) < 2 ^ (bits - 1) := by positivity
  have hq2 : (0 : Int) < 2 ^ bits := by positivity
  cases s with
  | true =>
    refine ⟨-(2 ^ (bits - 1)), 2 ^ (bits - 1) - 1, by omega, by omega, by omega, by omega, ?_, ?_⟩
    · intro z
      simp only [inRange, if_true, decide_eq_true_eq]
      constructor <;> intro h <;> constructor <;> omega
    · intro x
      simp only [fitsType, if_true]
      push_cast
      exact Iff.rfl
  | false =>
    refine ⟨0, 2 ^ bits - 1, by omega, by omega, by omega, by omega, ?_, ?_⟩
    · intro z
      simp only [inRange, Bool.false_eq_true, if_false, decide_eq_true_eq]
      constructor <;> intro h <;> constructor <;> omega
    · intro x
      simp only [fitsType, Bool.false_eq_true, if_false]
      push_cast
      exact Iff.rfl

theorem trunc_in_bounds (t : Int) (x y : ℚ) (lo hi : Int) (hlo0 : lo ≤ 0) (hhi0 : 0 ≤ hi)
    (hlo : -65536 ≤ lo) (hhi : hi ≤ 65535) (hx1 : (lo : ℚ) ≤ x) (hx2 : x ≤ hi)
    (herr : |y - x| ≤ |x| / 2 ^ 24) (hs1 : 0 ≤ y * x) (ht : |(t : ℚ)| ≤ |y|)
    (hs2 : 0 ≤ (t : ℚ) * y) : lo ≤ t ∧ t ≤ hi := by
  have qlo0 : (lo : ℚ) ≤ 0 := by exact_mod_cast hlo0
  have qhi0 : (0 : ℚ) ≤ hi := by exact_mod_cast hhi0
  have qlo : (-65536 : ℚ) ≤ lo := by exact_mod_cast hlo
  have qhi : (hi : ℚ) ≤ 65535 := by exact_mod_cast hhi
  have hyz : x = 0 → y = 0 := by
    intro h0
    rw [h0] at herr
    simp at herr
    exact herr
  have htz : y = 0 → (t : ℚ) = 0 := by
    intro h0
    rw [h0] at ht
    simpa using ht
  rcases le_total 0 x with hx | hx
  · have hy := nonneg_of_mul_nonneg y x hs1 hx hyz
    have htq := nonneg_of_mul_nonneg t y hs2 hy htz
    rw [abs_of_nonneg htq, abs_of_nonneg hy] at ht
    rw [abs_of_nonneg hx] at herr
    obtain ⟨-, e2⟩ := abs_le.mp herr
    have h1 : (t : ℚ) < hi + 1 := by
      have : x / 2 ^ 24 < 1 := by
        rw [div_lt_iff₀ (by positivity)]; norm_num; linarith
      linarith
    have h2 : t < hi + 1 := by exact_mod_cast h1
    have h3 : (0 : Int) ≤ t := by exact_mod_cast htq
    constructor <;> omega
  · have hy := nonpos_of_mul_nonneg y x hs1 hx hyz
    have htq := nonpos_of_mul_nonneg t y hs2 hy htz
    rw [abs_of_nonpos htq, abs_of_nonpos hy] at ht
    rw [abs_of_nonpos hx] at herr
    obtain ⟨e1, -⟩ := abs_le.mp herr
    have h1 : (lo : ℚ) - 1 < t := by
      have : -x / 2 ^ 24 < 1 := by
        rw [div_lt_iff₀ (by positivity)]; norm_num; linarith
      linarith
    have h2 : lo - 1 < t := by exact_mod_cast h1
    have h3 : t ≤ (0 : Int) := by exact_mod_cast htq
    constructor <;> omega

theorem same_sign_chain (u y2 t h y1 v g : ℚ) (h1 : 0 ≤ u * y2) (h2 : 0 ≤ y2 * (t * h))
    (h3 : 0 ≤ t * y1) (h4 : 0 ≤ y1 * (v * g)) (h5 : 0 < g * h)
    (n1 : |u| ≤ |y2|) (n2 : |y2 - t * h| ≤ |t * h| / 2 ^ 24) (n3 : |t| ≤ |y1|)
    (n4 : |y1 - v * g| ≤ |v * g| / 2 ^ 24) : 0 ≤ u * v := by
  by_cases hu : u = 0
  · rw [hu]; simp
  · have hy2 : y2 ≠ 0 := by
      intro h0; rw [h0] at n1; simp at n1; exact hu n1
    have hth : t * h ≠ 0 := by
      intro h0; rw [h0] at n2; simp at n2; exact hy2 n2
    have ht : t ≠ 0 := left_ne_zero_of_mul hth
    have hy1 : y1 ≠ 0 := by
      intro h0; rw [h0] at n3; simp at n3; exact ht n3
    have hvg : v * g ≠ 0 := by
      intro h0; rw [h0] at n4; simp at n4; exact hy1 n4
    have p1 : 0 < u * y2 := lt_of_le_of_ne h1 (Ne.symm (mul_ne_zero hu hy2))
    have p2 : 0 < y2 * (t * h) := lt_of_le_of_ne h2 (Ne.symm (mul_ne_zero hy2 hth))
    have p3 : 0 < t * y1 := lt_of_le_of_ne h3 (Ne.symm (mul_ne_zero ht hy1))
    have p4 : 0 < y1 * (v * g) := lt_of_le_of_ne h4 (Ne.symm (mul_ne_zero hy1 hvg))
    have hprod := mul_pos (mul_pos (mul_pos (mul_pos p1 p2) p3) p4) h5
    have hS : 0 < y2 ^ 2 * t ^ 2 * y1 ^ 2 * g ^ 2 * h ^ 2 := by
      have := left_ne_zero_of_mul (ne_of_gt h5)
      have := right_ne_zero_of_mul (ne_of_gt h5)
      positivity
    have e : u * y2 * (y2 * (t * h)) * (t * y1) * (y1 * (v * g)) * (g * h)
        = (u * v) * (y2 ^ 2 * t ^ 2 * y1 ^ 2 * g ^ 2 * h ^ 2) := by ring
    rw [e] at hprod
    exact (pos_of_mul_pos_left hprod hS.le).le

set_option maxHeartbeats 1600000 in
theorem round_trip_sample (P : Platform) (bits : Nat) (s : Bool) (hb0 : 0 < bits)
    (hb16 : bits ≤ 16) (v a b a' b' : Int) (hv : inRange bits s v = true)
    (hg : 1 ≤ |(a : ℚ) * 2 ^ b|)
    (hh : |((a : ℚ) * 2 ^ b) * ((a' : ℚ) * 2 ^ b') - 1| ≤ 1 / 2 ^ 23)
    (hfit : fitsType bits s ((v : ℚ) * ((a : ℚ) * 2 ^ b))) :
    ∃ t u : Int, toInt P bits s (F32.mul (F32.ofInt v) (F32.finite a b)) = t ∧
      toInt P bits s (F32.mul (F32.ofInt t) (F32.finite a' b')) = u ∧ |u - v| ≤ 2 := by
  obtain ⟨lo, hi, hlo0, hhi0, hlo, hhi, hin, hfits⟩ := type_bounds bits s hb0 hb16
  obtain ⟨hv1, hv2⟩ := (hin v).mp hv
  obtain ⟨hx1, hx2⟩ := (hfits _).mp hfit
  have qlo : (-65536 : ℚ) ≤ lo := by exact_mod_cast hlo
  have qhi : (hi : ℚ) ≤ 65535 := by exact_mod_cast hhi
  set g : ℚ := (a : ℚ) * 2 ^ b with hgdef
  set h : ℚ := (a' : ℚ) * 2 ^ b' with hhdef
  obtain ⟨gh1, gh2⟩ := abs_le.mp hh
  have hghpos : 0 < g * h := by norm_num at gh1; linarith
  have hvabs : |(v : ℚ)| ≤ 65536 := by
    rw [abs_le]
    constructor
    · have : (-65536 : ℚ) ≤ (v : ℚ) := by exact_mod_cast (by omega : (-65536 : Int) ≤ v)
      exact this
    · exact_mod_cast (by omega : v ≤ (65536 : Int))
  have hxabs : |(v : ℚ) * g| ≤ 65536 := by
    rw [abs_le]; constructor <;> linarith
  have hvIs : F32.IsValue (v : ℚ) := F32.isValue_of_natAbs_lt v (by omega)
  -- first scaling
  have hx : (v : ℚ) * g ≠ 0 → (2 : ℚ) ^ (-100 : Int) ≤ |(v : ℚ) * g| ∧
      |(v : ℚ) * g| ≤ 2 ^ (100 : Int) := by
    intro hne
    have hvne : (v : ℚ) ≠ 0 := left_ne_zero_of_mul hne
    have hv1' : (1 : ℚ) ≤ |(v : ℚ)| := by
      have : v ≠ 0 := by exact_mod_cast hvne
      have : (1 : Int) ≤ |v| := Int.one_le_abs this
      exact_mod_cast this
    constructor
    · rw [abs_mul]
      have : (1 : ℚ) ≤ |(v : ℚ)| * |g| := by nlinarith [abs_nonneg g, abs_nonneg (v : ℚ)]
      refine le_trans ?_ this
      rw [zpow_neg]; norm_num
    · refine le_trans hxabs ?_
      norm_num
  obtain ⟨m1, e1, hmul1, herr1, hsg1⟩ := F32.mul_error v a b hvIs hx
  obtain ⟨t, htr, ht1, ht2, hts⟩ := F32.trunc_error m1 e1
  set y1 : ℚ := (m1 : ℚ) * 2 ^ e1 with hy1def
  obtain ⟨htlo, hthi⟩ := trunc_in_bounds t ((v : ℚ) * g) y1 lo hi hlo0 hhi0 hlo hhi hx1 hx2
    herr1 hsg1 ht1 hts
  have hto1 : toInt P bits s (F32.mul (F32.ofInt v) (F32.finite a b)) = t := by
    rw [hmul1]
    exact toInt_of_trunc P bits s _ t htr ((hin t).mpr ⟨htlo, hthi⟩)
  -- second scaling
  have htIs : F32.IsValue (t : ℚ) := F32.isValue_of_natAbs_lt t (by omega)
  have htabs : |(t : ℚ)| ≤ 65536 := by
    rw [abs_le]
    constructor
    · exact_mod_cast (by omega : (-65536 : Int) ≤ t)
    · exact_mod_cast (by omega : t ≤ (65536 : Int))
  have hgabs : |g| * |h| = |g * h| := (abs_mul g h).symm
  have hghabs : |g * h| = g * h := abs_of_pos hghpos
  have hhle : |h| ≤ 2 := by
    have : |h| * 1 ≤ |h| * |g| := mul_le_mul_of_nonneg_left hg (abs_nonneg h)
    norm_num at gh2
    nlinarith
  have hx' : (t : ℚ) * h ≠ 0 → (2 : ℚ) ^ (-100 : Int) ≤ |(t : ℚ) * h| ∧
      |(t : ℚ) * h| ≤ 2 ^ (100 : Int) := by
    intro hne
    have htne : (t : ℚ) ≠ 0 := left_ne_zero_of_mul hne
    have ht1' : (1 : ℚ) ≤ |(t : ℚ)| := by
      have : t ≠ 0 := by exact_mod_cast htne
      have : (1 : Int) ≤ |t| := Int.one_le_abs this
      exact_mod_cast this
    have hy1ne : y1 ≠ 0 := by
      intro h0; rw [h0] at ht1; simp at ht1; exact htne (by exact_mod_cast ht1)
    have hvgne : (v : ℚ) * g ≠ 0 := by
      intro h0; rw [h0] at herr1; simp at herr1; exact hy1ne herr1
    have hvne : (v : ℚ) ≠ 0 := left_ne_zero_of_mul hvgne
    have hv1' : (1 : ℚ) ≤ |(v : ℚ)| := by
      have : v ≠ 0 := by exact_mod_cast hvne
      have : (1 : Int) ≤ |v| := Int.one_le_abs this
      exact_mod_cast this
    have hgle : |g| ≤ 65536 := by
      have : |g| * 1 ≤ |g| * |(v : ℚ)| := mul_le_mul_of_nonneg_left hv1' (abs_nonneg g)
      rw [abs_mul] at hxabs
      nlinarith
    have hhge : (1 : ℚ) / 2 ^ 20 ≤ |h| := by
      by_contra hc
      push_neg at hc
      have : |g| * |h| ≤ 65536 * |h| := mul_le_mul_of_nonneg_right hgle (abs_nonneg h)
      have e := hgabs
      rw [hghabs] at e
      norm_num at gh1 hc
      linarith
    constructor
    · rw [abs_mul]
      have : (1 : ℚ) / 2 ^ 20 ≤ |(t : ℚ)| * |h| := by nlinarith [abs_nonneg h]
      refine le_trans ?_ this
      rw [zpow_neg]; norm_num
    · rw [abs_mul]
      have : |(t : ℚ)| * |h| ≤ 65536 * 2 :=
        mul_le_mul htabs hhle (abs_nonneg h) (by norm_num)
      refine le_trans this ?_
      norm_num
  obtain ⟨m2, e2, hmul2, herr2, hsg2⟩ := F32.mul_error t a' b' htIs hx'
  obtain ⟨u, hur, hu1, hu2, hus⟩ := F32.trunc_error m2 e2
  set y2 : ℚ := (m2 : ℚ) * 2 ^ e2 with hy2def
  -- the distance between the absolute values
  have c1 : |(|y1| - |(v : ℚ)| * |g|)| ≤ |(v : ℚ)| * |g| / 2 ^ 24 := by
    rw [← abs_mul]
    exact le_trans (abs_abs_sub_abs_le _ _) herr1
  have c2 : |(|y2| - |(t : ℚ)| * |h|)| ≤ |(t : ℚ)| * |h| / 2 ^ 24 := by
    rw [← abs_mul]
    exact le_trans (abs_abs_sub_abs_le _ _) herr2
  have c3 : |(|g| * |h| - 1)| ≤ 1 / 2 ^ 23 := by
    rw [hgabs]
    have := abs_abs_sub_abs_le (g * h) 1
    rw [abs_one] at this
    exact le_trans this hh
  obtain ⟨r1, r2⟩ := round_trip_core |(v : ℚ)| |g| |h| |y1| |(t : ℚ)| |y2| |(u : ℚ)|
    (abs_nonneg _) hvabs hg (abs_nonneg _) c3 c1 ht1 ht2 c2 hu1 hu2
  have hsign : 0 ≤ (u : ℚ) * (v : ℚ) :=
    same_sign_chain u y2 t h y1 v g hus hsg2 hts hsg1 hghpos hu1 herr2 ht1 herr1
  have hsignZ : 0 ≤ u * v := by exact_mod_cast hsign
  have i1 : |u| < |v| + 1 := by exact_mod_cast r1
  have i2 : |v| - 3 < |u| := by exact_mod_cast r2
  have huin : lo ≤ u ∧ u ≤ hi := by
    rcases mul_nonneg_iff.mp hsignZ with ⟨p, q⟩ | ⟨p, q⟩
    · rw [abs_of_nonneg p, abs_of_nonneg q] at i1
      constructor <;> omega
    · rw [abs_of_nonpos p, abs_of_nonpos q] at i1
      constructor <;> omega
  refine ⟨t, u, hto1, ?_, ?_⟩
  · rw [hmul2]
    exact toInt_of_trunc P bits s _ u hur ((hin u).mpr huin)
  · rcases mul_nonneg_iff.mp hsignZ with ⟨p, q⟩ | ⟨p, q⟩
    · rw [abs_of_nonneg p, abs_of_nonneg q] at i1 i2
      rw [abs_le]; constructor <;> omega
    · rw [abs_of_nonpos p, abs_of_nonpos q] at i1 i2
      rw [abs_le]; constructor <;> omega

/-- C7, as the code has it: on an 8- or 16-bit format of either signedness, for
every gain `g` with `|g| ≥ 1` and every gain `h` with `|g * h - 1| ≤ 2^-23` (the
float next to `1/g`), scaling a buffer by `g` and then by `h` returns every
sample the loop reaches, whose exact product with `g` lies within the sample
type, to within 2 units of its original value. -/
theorem round_trip_within_two_units (P : Platform) (c r bits : Int) (s : Bool)
    (a b a' b' : Int) (buf : List Byte) (i : Nat)
    (hb : bits = 8 ∨ bits = 16)
    (hi : i < iterationsOf buf.length (bits.toNat / 8))
    (hg : 1 ≤ |(a : ℚ) * 2 ^ b|)
    (hh : |((a : ℚ) * 2 ^ b) * ((a' : ℚ) * 2 ^ b') - 1| ≤ 1 / 2 ^ 23)
    (hfit : fitsType bits.toNat s ((sampleAt bits.toNat s buf i : ℚ) * ((a : ℚ) * 2 ^ b))) :
    ∃ out1 out2, Data.scale P ⟨c, bits, r, s⟩ (F32.finite a b) buf = some out1 ∧
      Data.scale P ⟨c, bits, r, s⟩ (F32.finite a' b') out1 = some out2 ∧
      |sampleAt bits.toNat s out2 i - sampleAt bits.toNat s buf i| ≤ 2 := by
  have hb' : bits = 8 ∨ bits = 16 ∨ bits = 32 := by
    rcases hb with h | h
    · exact Or.inl h
    · exact Or.inr (Or.inl h)
  have hbits : 0 < bits.toNat ∧ bits.toNat ≤ 16 := by
    rcases hb with rfl | rfl <;> decide
  obtain ⟨out1, h1, hlen1, hs1⟩ := Data.scale_sampleAt P c r bits s (F32.finite a b) buf hb'
  obtain ⟨out2, h2, -, hs2⟩ := Data.scale_sampleAt P c r bits s (F32.finite a' b') out1 hb'
  refine ⟨out1, out2, h1, h2, ?_⟩
  have hin : inRange bits.toNat s (sampleAt bits.toNat s buf i) = true :=
    inRange_wrap _ _ _ hbits.1
  obtain ⟨t, u, ht, hu, hdist⟩ := round_trip_sample P bits.toNat s hbits.1 hbits.2
    (sampleAt bits.toNat s buf i) a b a' b' hin hg hh hfit
  rw [hs2 i (by rw [hlen1]; exact hi), hs1 i hi, ht, hu]
  exact hdist

theorem round_trip_within_two_units_witness :
    (0 < iterationsOf [(7 : Byte)].length ((8 : Int).toNat / 8)) ∧
    ∃ out1 out2, Data.scale x86_64 ⟨2, 8, 44100, false⟩ (F32.finite 3 0) [7] = some out1 ∧
      Data.scale x86_64 ⟨2, 8, 44100, false⟩ (F32.finite 11184811 (-25)) out1 = some out2 ∧
      |sampleAt (8 : Int).toNat false out2 0 - sampleAt (8 : Int).toNat false [7] 0| ≤ 2 :=
  ⟨by decide,
   round_trip_within_two_units x86_64 2 44100 8 false 3 0 11184811 (-25) [7] 0
     (by decide) (by decide) (by norm_num)
     (by rw [abs_le]; constructor <;> norm_num)
     (by
       rw [show sampleAt (8 : Int).toNat false [7] 0 = 7 by decide]
       simp only [fitsType, Bool.false_eq_true, if_false, show (8 : Int).toNat = 8 by decide]
       norm_num)⟩

/-- C7 as stated fails: the unsigned 8-bit sample 255 scaled by `1/256` and then by
256 comes back as 0; the signed 24-bit sample `FF FF FF` scaled by 1.0 twice comes
back as `00 00 80`; on x86-64 the signed 32-bit sample `2^31 - 1` scaled by 1.0
twice comes back as `-2^31`. -/
theorem round_trip_can_lose_the_sample :
    (F32.finite 1 (-8)).toRat * (F32.finite 1 8).toRat = 1 ∧
    (Data.scale x86_64 ⟨2, 8, 44100, false⟩ (F32.finite 1 (-8)) [255]).bind
        (Data.scale x86_64 ⟨2, 8, 44100, false⟩ (F32.finite 1 8)) = some [0] ∧
    (Data.scale x86_64 ⟨2, 24, 44100, true⟩ F32.one [0xff, 0xff, 0xff]).bind
        (Data.scale x86_64 ⟨2, 24, 44100, true⟩ F32.one) = some [0, 0, 0x80] ∧
    (Data.scale x86_64 ⟨2, 32, 44100, true⟩ F32.one [0xff, 0xff, 0xff, 0x7f]).bind
        (Data.scale x86_64 ⟨2, 32, 44100, true⟩ F32.one) = some [0, 0, 0, 0x80] := by
  refine ⟨by simp only [F32.toRat]; norm_num, by decide, by decide, by decide⟩

/-- On every idle, uncollected processor with a queued format and gain 1.0, a feed
of a non-empty buffer invokes the callback and then marks the processor working
and submits a job all the same. -/
theorem Feed_identity_gain_submits (callOk : Bool) (info1 : Buffer) (d : Data)
    (hw : d.working = false) (hc : d.collected = false) (hf : d.formats ≠ [])
    (hs : info1.size ≠ 0) (hg : F32.eqOne d.multiply = true) :
    ∃ d', (Feed callOk Arg.handle info1 d).1 = some d' ∧ d'.working = true ∧
      d'.buffer = info1 ∧
      Event.queueWork ∈ (Feed callOk Arg.handle info1 d).2 ∧
      ∃ seen, Event.call seen ∈ (Feed callOk Arg.handle info1 d).2 := by
  have hf' : d.formats.isEmpty = false := by
    cases hd : d.formats with
    | nil => exact absurd hd hf
    | cons _ _ => rfl
  simp only [Feed, hw, hf', hs, hg, Data.complete, hc, Bool.false_eq_true, if_false, if_true]
  generalize (if d.formats.length > 1 then _ else _ : Data) = d1
  exact ⟨_, rfl, rfl, rfl, by simp, d1, by simp⟩

/-! ## The conversion as compiled for x86-64 -/

theorem round_sig_le (n s : Nat) (hs : bitLen n ≤ s + 24) :
    (if 2 ^ s < 2 * (n % 2 ^ s) ∨ (2 * (n % 2 ^ s) = 2 ^ s ∧ n / 2 ^ s % 2 = 1)
      then n / 2 ^ s + 1 else n / 2 ^ s) ≤ 2 ^ 24 := by
  have h1 := lt_two_pow_bitLen n
  have h2 : 2 ^ bitLen n ≤ 2 ^ (s + 24) := Nat.pow_le_pow_right (by decide) hs
  have h3 : n / 2 ^ s < 2 ^ 24 := by
    rw [Nat.div_lt_iff_lt_mul (by positivity)]
    rw [pow_add] at h2
    rw [Nat.mul_comm]
    omega
  split <;> omega

/-- The significand of a rounded value has at most 24 bits, or is `2^24`. -/
theorem F32.round_sig (m e m2 e2 : Int) (h : F32.round m e = F32.finite m2 e2) :
    m2.natAbs ≤ 2 ^ 24 := by
  have hs : bitLen m.natAbs ≤
      (max (e + bitLen m.natAbs - 24) (-149) - e).toNat + 24 := by omega
  have hk := round_sig_le m.natAbs _ hs
  simp only [F32.round] at h
  split at h
  · rename_i hc
    rw [if_pos hc] at hk
    split at h
    · cases h; decide
    · split at h
      · cases h
      · simp only [F32.finite.injEq] at h
        obtain ⟨h1, -⟩ := h
        rw [← h1]
        split
        · rw [Int.natAbs_neg, Int.natAbs_ofNat]; exact hk
        · rw [Int.natAbs_ofNat]; exact hk
  · rename_i hc
    rw [if_neg hc] at hk
    split at h
    · cases h; decide
    · split at h
      · cases h
      · simp only [F32.finite.injEq] at h
        obtain ⟨h1, -⟩ := h
        rw [← h1]
        split
        · rw [Int.natAbs_neg, Int.natAbs_ofNat]; exact hk
        · rw [Int.natAbs_ofNat]; exact hk

/-- A float whose significand has at most 24 bits and whose truncation lies
outside the 32-bit signed integers is a multiple of 256. -/
theorem trunc_dvd_of_wide (m e t : Int) (hm : m.natAbs ≤ 2 ^ 24)
    (ht : F32.trunc (F32.finite m e) = some t) (hw : t < -(2 ^ 31) ∨ 2 ^ 31 ≤ t) :
    (256 : Int) ∣ t := by
  simp only [F32.trunc, Option.some.injEq] at ht
  have hm' : -(2 ^ 24) ≤ m ∧ m ≤ 2 ^ 24 := by omega
  by_cases he : 0 ≤ e
  · rw [if_pos he] at ht
    obtain ⟨E, hE⟩ : ∃ E : Nat, e.toNat = E := ⟨_, rfl⟩
    rw [hE] at ht
    by_cases h8 : 8 ≤ E
    · obtain ⟨d, rfl⟩ : ∃ d, E = 8 + d := ⟨E - 8, by omega⟩
      rw [← ht, pow_add]
      exact Dvd.intro_left (m * 2 ^ d) (by ring)
    · have hp : (2 : Int) ^ E ≤ 2 ^ 7 := pow_le_pow_right₀ (by norm_num) (by omega)
      have hp0 : (0 : Int) < 2 ^ E := by positivity
      by_cases h7 : E = 7
      · subst h7
        rw [← ht] at hw ⊢
        rcases hw with hw | hw
        · exfalso; norm_num at hw hm'; omega
        · have : m = 2 ^ 24 := by norm_num at hw hm' ⊢; omega
          subst this; norm_num
      · exfalso
        have hp6 : (2 : Int) ^ E ≤ 2 ^ 6 := pow_le_pow_right₀ (by norm_num) (by omega)
        rw [← ht] at hw
        rcases hw with hw | hw
        · nlinarith
        · nlinarith
  · rw [if_neg he] at ht
    exfalso
    have hp0 : (0 : Int) < 2 ^ (-e).toNat := by positivity
    have h1 : (Int.tdiv m (2 ^ (-e).toNat)).natAbs ≤ m.natAbs := by
      rw [Int.natAbs_tdiv]
      exact Nat.div_le_self _ _
    rw [ht] at h1
    omega

theorem F32.mul_trunc_dvd (x y : F32) (t : Int) (ht : F32.trunc (F32.mul x y) = some t)
    (hw : t < -(2 ^ 31) ∨ 2 ^ 31 ≤ t) : (256 : Int) ∣ t := by
  cases x with
  | finite a e =>
    cases y with
    | finite b f =>
      simp only [F32.mul] at ht
      cases hr : F32.round (a * b) (e + f) with
      | finite m2 e2 =>
        rw [hr] at ht
        exact trunc_dvd_of_wide m2 e2 t (F32.round_sig _ _ _ _ hr) ht hw
      | inf n => rw [hr] at ht; cases ht
      | nan => rw [hr] at ht; cases ht
    | inf n =>
      simp only [F32.mul] at ht
      split at ht <;> cases ht
    | nan => cases ht
  | inf n =>
    cases y with
    | finite b f =>
      simp only [F32.mul] at ht
      split at ht <;> cases ht
    | inf n2 => cases ht
    | nan => cases ht
  | nan => cases y <;> cases ht

theorem wrap_of_dvd (bits : Nat) (signed : Bool) (t : Int) (h : (2 : Int) ^ bits ∣ t) :
    wrap bits signed t = 0 := by
  have hp : (0 : Int) < 2 ^ (bits - 1) := by positivity
  simp only [wrap, Int.emod_eq_zero_of_dvd h]
  rw [if_neg (by omega)]

/-- An 8- or 16-bit conversion on x86-64 goes through the 32-bit `cvttss2si` and
keeps the low bits: a truncated value within the 32-bit signed integers is
reduced modulo `2^bits`. -/
theorem toInt_x86_64_of_int32 (bits : Nat) (s : Bool) (x : F32) (t : Int)
    (hb : bits = 8 ∨ bits = 16) (ht : F32.trunc x = some t)
    (hr : -(2 ^ 31) ≤ t ∧ t < 2 ^ 31) : toInt x86_64 bits s x = wrap bits s t := by
  have hpos : 0 < bits := by omega
  have h32 : ¬ (bits = 32 ∧ s = false) := by omega
  simp only [toInt, ht]
  split
  · rename_i hin
    exact (wrap_of_inRange bits s t hpos hin).symm
  · simp only [x86_64, if_neg h32, cvttss2si, ht]
    rw [if_pos (by simpa using hr)]

/-- An 8-bit conversion of a float product on x86-64 reduces every truncated
product modulo `2^8`: beyond the 32-bit signed integers the product is a multiple
of 256 and the instruction yields `-2^31`, a multiple of 256 as well. -/
theorem toInt_x86_64_byte (s : Bool) (x y : F32) (t : Int)
    (ht : F32.trunc (F32.mul x y) = some t) :
    toInt x86_64 8 s (F32.mul x y) = wrap 8 s t := by
  by_cases hr : -(2 ^ 31) ≤ t ∧ t < 2 ^ 31
  · exact toInt_x86_64_of_int32 8 s _ t (Or.inl rfl) ht hr
  · have hw : t < -(2 ^ 31) ∨ 2 ^ 31 ≤ t := by omega
    have hd := F32.mul_trunc_dvd x y t ht hw
    have hnot : inRange 8 s t = false := by
      cases s <;> simp only [inRange, Bool.false_eq_true, if_false, if_true,
        decide_eq_false_iff_not] <;> omega
    simp only [toInt, ht, hnot, Bool.false_eq_true, if_false, x86_64,
      show ¬ ((8 : Nat) = 32 ∧ s = false) by omega, cvttss2si]
    rw [if_neg (by simpa using hr)]
    rw [wrap_of_dvd 8 s t (by norm_num; exact hd),
      wrap_of_dvd 8 s (-(2 ^ 31)) (by norm_num)]

/-- C6, as the code has it: for the 8-, 16- and 32-bit scalers of either
signedness and every sample `v` the loop reaches whose float product `v * gain` is
finite, with truncation `t` toward zero: when `t` is a value of the sample type the
sample is replaced by `t`, whatever the platform (unsigned 8-bit 100 scaled by 2.0
becomes 200); as compiled for x86-64 an 8-bit sample is replaced by `t` reduced
modulo `2^8` into the sample type for every `t`, and a 16-bit sample by `t` reduced
modulo `2^16` into the sample type for every `t` within the 32-bit signed integers
(unsigned 8-bit 200 scaled by 2.0 becomes 144, not 255). -/
theorem generic_scaler_truncates_and_wraps (P : Platform) (c r bits : Int) (s : Bool)
    (g : F32) (buf : List Byte) (i : Nat) (t : Int)
    (hb : bits = 8 ∨ bits = 16 ∨ bits = 32)
    (hi : i < iterationsOf buf.length (bits.toNat / 8))
    (ht : F32.trunc (F32.mul (F32.ofInt (sampleAt bits.toNat s buf i)) g) = some t) :
    (inRange bits.toNat s t = true →
      ∃ out, Data.scale P ⟨c, bits, r, s⟩ g buf = some out ∧ out.length = buf.length ∧
        sampleAt bits.toNat s out i = t) ∧
    (bits = 8 ∨ (bits = 16 ∧ -(2 ^ 31) ≤ t ∧ t < 2 ^ 31) →
      ∃ out, Data.scale x86_64 ⟨c, bits, r, s⟩ g buf = some out ∧
        out.length = buf.length ∧ sampleAt bits.toNat s out i = wrap bits.toNat s t) ∧
    Data.scale P ⟨2, 8, 44100, false⟩ F32.two [100] = some [200] ∧
    Data.scale x86_64 ⟨2, 8, 44100, false⟩ F32.two [200] = some [144] := by
  refine ⟨fun hr => ?_, fun hx => ?_, ?_, by decide⟩
  · obtain ⟨out, h1, h2, h3⟩ := Data.scale_sampleAt P c r bits s g buf hb
    refine ⟨out, h1, h2, ?_⟩
    rw [h3 i hi]
    exact toInt_of_trunc P bits.toNat s _ t ht hr
  · obtain ⟨out, h1, h2, h3⟩ := Data.scale_sampleAt x86_64 c r bits s g buf hb
    refine ⟨out, h1, h2, ?_⟩
    rw [h3 i hi]
    rcases hx with rfl | ⟨rfl, hr⟩
    · exact toInt_x86_64_byte s _ _ t ht
    · exact toInt_x86_64_of_int32 _ s _ t (Or.inr rfl) ht hr
  · obtain ⟨out, h1, -, h3⟩ := Data.scale_sampleAt P 2 44100 8 false F32.two [100]
      (Or.inl rfl)
    have h4 := h3 0 (by decide)
    rw [toInt_of_trunc P (8 : Int).toNat false _ 200 (by decide) (by decide)] at h4
    have hlen : out.length = 1 := by
      obtain ⟨out2, g1, g2, -⟩ := Data.scale_sampleAt P 2 44100 8 false F32.two [100]
        (Or.inl rfl)
      rw [h1] at g1; cases g1; exact g2
    rw [h1]
    match out, hlen with
    | [b], _ =>
      have hb200 : b = 200 := by
        have : sampleAt 8 false [b] 0 = (b.val : Int) := by
          simp [sampleAt, sampleValue, load, rd, leNat, wrap]
          omega
        rw [show (8 : Int).toNat = 8 from rfl, this] at h4
        exact Fin.ext (by exact_mod_cast h4)
      rw [hb200]

theorem generic_scaler_truncates_and_wraps_witness :
    (F32.trunc (F32.mul (F32.ofInt (sampleAt (8 : Int).toNat false [100] 0)) F32.two) =
        some 200 ∧
      inRange (8 : Int).toNat false 200 = true ∧
      ∃ out, Data.scale x86_64 ⟨2, 8, 44100, false⟩ F32.two [100] = some out ∧
        out.length = [(100 : Byte)].length ∧ sampleAt (8 : Int).toNat false out 0 = 200) ∧
    (F32.trunc (F32.mul (F32.ofInt (sampleAt (8 : Int).toNat false [200] 0)) F32.two) =
        some 400 ∧
      inRange (8 : Int).toNat false 400 = false ∧
      ∃ out, Data.scale x86_64 ⟨2, 8, 44100, false⟩ F32.two [200] = some out ∧
        out.length = [(200 : Byte)].length ∧
        sampleAt (8 : Int).toNat false out 0 = wrap (8 : Int).toNat false 400) ∧
    (F32.trunc (F32.mul (F32.ofInt (sampleAt (16 : Int).toNat false [0x40, 0x9c] 0))
        F32.two) = some 80000 ∧
      inRange (16 : Int).toNat false 80000 = false ∧
      ∃ out, Data.scale x86_64 ⟨2, 16, 44100, false⟩ F32.two [0x40, 0x9c] = some out ∧
        out.length = [(0x40 : Byte), 0x9c].length ∧
        sampleAt (16 : Int).toNat false out 0 = wrap (16 : Int).toNat false 80000) :=
  ⟨⟨by decide, by decide,
    (generic_scaler_truncates_and_wraps x86_64 2 44100 8 false F32.two [100] 0 200
      (by decide) (by decide) (by decide)).1 (by decide)⟩,
   ⟨by decide, by decide,
    (generic_scaler_truncates_and_wraps x86_64 2 44100 8 false F32.two [200] 0 400
      (by decide) (by decide) (by decide)).2.1 (Or.inl rfl)⟩,
   ⟨by decide, by decide,
    (generic_scaler_truncates_and_wraps x86_64 2 44100 16 false F32.two [0x40, 0x9c] 0 80000
      (by decide) (by decide) (by decide)).2.1 (Or.inr ⟨rfl, by decide, by decide⟩)⟩⟩

/-! ## Callbacks that do not call back -/

theorem Data.completeWith_done (ok : Bool) (d : Data) :
    Data.completeWith (Script.run (Script.done ok)) d = Data.complete ok d := by
  simp only [Data.completeWith, Data.complete, Script.run]
  split
  · rfl
  · rfl

theorem FeedWith_done (ok : Bool) (info1 : Buffer) (d : Data) :
    FeedWith (Script.run (Script.done ok)) info1 d = Feed ok Arg.handle info1 d := by
  simp only [FeedWith, Feed, Data.completeWith_done]

/-! ## What the operations do to the processor -/

theorem submissions_nil : submissions [] = 0 := rfl

theorem destructions_nil : destructions [] = 0 := rfl

theorem submissions_append (a b : List Event) :
    submissions (a ++ b) = submissions a + submissions b := by
  simp [submissions, List.filter_append]

theorem destructions_append (a b : List Event) :
    destructions (a ++ b) = destructions a + destructions b := by
  simp [destructions, List.filter_append]

theorem submissions_throw (msg : String) : submissions [Event.throwError msg] = 0 := by
  simp [submissions]

theorem destructions_throw (msg : String) : destructions [Event.throwError msg] = 0 := by
  simp [destructions]

theorem Data.perform_fields (P : Platform) (d d' : Data) (h : Data.perform P d = some d') :
    d'.working = d.working ∧ d'.collected = d.collected ∧ d'.formats = d.formats ∧
    d'.multiply = d.multiply := by
  simp only [Data.perform] at h
  split at h
  · cases h
  · simp only [Option.map_eq_some'] at h
    obtain ⟨mem, -, rfl⟩ := h
    exact ⟨rfl, rfl, rfl, rfl⟩

theorem Data.complete_of_not_collected (callOk : Bool) (d : Data) (hc : d.collected = false) :
    ∃ d' evs, Data.complete callOk d = (some d', evs) ∧ d'.working = false ∧
      d'.collected = false ∧ (d.formats ≠ [] → d'.formats ≠ []) ∧
      submissions evs = 0 ∧ destructions evs = 0 ∧ d'.multiply = d.multiply := by
  simp only [Data.complete, hc, Bool.false_eq_true, if_false]
  refine ⟨_, _, rfl, ?_, ?_, ?_, ?_, ?_, ?_⟩
  · split
    · split <;> rfl
    · rfl
  · split
    · split <;> rfl
    · rfl
  · intro hne
    split
    · split
      · simp
      · exact hne
    · exact hne
  · cases callOk <;> simp [submissions]
  · cases callOk <;> simp [destructions]
  · split
    · split <;> rfl
    · rfl

theorem Data.completeWith_of_collected (call : Data → Option Data × List Event × Bool)
    (d : Data) (hc : d.collected = true) :
    Data.completeWith call d = (none, [Event.destroy]) := by
  simp [Data.completeWith, hc]

/-- The two outcomes of a feed on a processor that is not collected: nothing
changes and nothing is submitted, or the idle processor becomes working with one
job submitted. -/
theorem Feed_outcomes (callOk : Bool) (info1 : Buffer) (d : Data) (hc : d.collected = false) :
    (∃ evs, Feed callOk Arg.handle info1 d = (some d, evs) ∧ submissions evs = 0 ∧
      destructions evs = 0) ∨
    (d.working = false ∧ d.formats ≠ [] ∧ ∃ d' evs, Feed callOk Arg.handle info1 d = (some d', evs) ∧
      d'.working = true ∧ d'.collected = false ∧ d'.formats ≠ [] ∧ submissions evs = 1 ∧
      destructions evs = 0 ∧ d'.multiply = d.multiply) := by
  by_cases hw : d.working = true
  · left
    exact ⟨[Event.throwError "Already doing work"], by simp [Feed, hw], submissions_throw _,
      destructions_throw _⟩
  · have hw' : d.working = false := by simpa using hw
    by_cases hf : d.formats = []
    · left
      exact ⟨[Event.throwError "No format set"], by simp [Feed, hw', hf], submissions_throw _,
        destructions_throw _⟩
    · have hf' : d.formats.isEmpty = false := by
        cases hd : d.formats with
        | nil => exact absurd hd hf
        | cons _ _ => rfl
      by_cases hs : info1.size = 0
      · left
        exact ⟨[], by simp [Feed, hw', hf', hs], rfl, rfl⟩
      · right
        refine ⟨hw', hf, ?_⟩
        by_cases hg : F32.eqOne d.multiply = true
        · obtain ⟨d1, evs, he, h1, h2, h3, h4, h5, h6⟩ :=
            Data.complete_of_not_collected callOk d hc
          refine ⟨{ d1 with buffer := info1, persistentData := some info1.data,
                            working := true }, evs ++ [Event.queueWork], ?_, rfl, h2, h3 hf,
            ?_, ?_, h6⟩
          · simp only [Feed, hw', hf', hs, hg, he, Bool.false_eq_true, if_false, if_true,
              Option.map_some']
          · rw [submissions_append, h4]; rfl
          · rw [destructions_append, h5]; rfl
        · have hg' : F32.eqOne d.multiply = false := by simpa using hg
          refine ⟨{ d with buffer := info1, persistentData := some info1.data,
                           working := true }, [Event.queueWork], ?_, rfl, hc, hf, by decide,
            by decide, rfl⟩
          simp only [Feed, hw', hf', hs, hg', Bool.false_eq_true, if_false,
            Option.map_some', List.nil_append]

theorem FeedWith_of_ne_one (call : Data → Option Data × List Event × Bool) (ok : Bool)
    (info1 : Buffer) (d : Data) (h : F32.eqOne d.multiply = false) :
    FeedWith call info1 d = Feed ok Arg.handle info1 d := by
  simp only [FeedWith, Feed, h, Bool.false_eq_true, if_false]

/-- A feed whose callback is not invoked (gain other than 1.0) or does not call
back has the outcomes of `Feed_outcomes`. -/
theorem FeedWith_outcomes (cb : Script) (info1 : Buffer) (d : Data) (hc : d.collected = false)
    (hsafe : F32.eqOne d.multiply = false ∨ cb.plain = true) :
    (∃ evs, FeedWith cb.run info1 d = (some d, evs) ∧ submissions evs = 0 ∧
      destructions evs = 0) ∨
    (d.working = false ∧ d.formats ≠ [] ∧ ∃ d' evs, FeedWith cb.run info1 d = (some d', evs) ∧
      d'.working = true ∧ d'.collected = false ∧ d'.formats ≠ [] ∧ submissions evs = 1 ∧
      destructions evs = 0 ∧ d'.multiply = d.multiply) := by
  rcases hsafe with h | h
  · rw [FeedWith_of_ne_one cb.run true info1 d h]
    exact Feed_outcomes true info1 d hc
  · cases cb with
    | done ok =>
      rw [FeedWith_done]
      exact Feed_outcomes ok info1 d hc
    | setFormat _ _ _ _ _ => simp [Script.plain] at h
    | feed _ _ _ => simp [Script.plain] at h

/-- What a callback leaves behind when the gain is not 1.0 or the callback does not
call back: the processor is still there, and it has submitted one job exactly if
it found the processor idle and leaves it working. -/
theorem Script.run_outcome (cb : Script) : ∀ d : Data, d.collected = false →
    (F32.eqOne d.multiply = false ∨ cb.plain = true) →
    ∃ d2 evs ok, cb.run d = (some d2, evs, ok) ∧ d2.collected = false ∧
      d2.multiply = d.multiply ∧ destructions evs = 0 ∧
      (d.formats ≠ [] → d2.formats ≠ []) ∧
      (d.working = true → d2.working = true ∧ submissions evs = 0) ∧
      (d.working = false → (d2.working = false ∧ submissions evs = 0) ∨
        (d2.working = true ∧ submissions evs = 1 ∧ d2.formats ≠ [])) := by
  induction cb with
  | done ok =>
    intro d hc _
    exact ⟨d, [], ok, rfl, hc, rfl, rfl, fun h => h, fun h => ⟨h, rfl⟩,
      fun h => Or.inl ⟨h, rfl⟩⟩
  | setFormat c b r s rest ih =>
    intro d hc hsafe
    have hg : F32.eqOne d.multiply = false := by
      rcases hsafe with h | h
      · exact h
      · simp [Script.plain] at h
    obtain ⟨d2, evs, ok, hrun, h1, h2, h3, h4, h5, h6⟩ :=
      ih { d with formats := d.formats ++ [⟨c, b, r, s⟩] } hc (Or.inl hg)
    refine ⟨d2, evs, ok, ?_, h1, h2, h3, fun _ => h4 (by simp), h5, h6⟩
    simp only [Script.run, SetFormat, show ¬ (5 < 5) by decide, if_false, List.nil_append, hrun]
  | feed info1 inner rest _ ih =>
    intro d hc hsafe
    have hg : F32.eqOne d.multiply = false := by
      rcases hsafe with h | h
      · exact h
      · simp [Script.plain] at h
    rcases FeedWith_outcomes inner info1 d hc (Or.inl hg) with ⟨evs1, he, s1, t1⟩ |
      ⟨hw, hf, d1, evs1, he, w1, c1, f1, s1, t1, m1⟩
    · obtain ⟨d2, evs, ok, hrun, h1, h2, h3, h4, h5, h6⟩ := ih d hc (Or.inl hg)
      refine ⟨d2, evs1 ++ evs, ok, ?_, h1, h2, ?_, h4, ?_, ?_⟩
      · simp only [Script.run, he, hrun]
      · rw [destructions_append, t1, h3]
      · intro h; rw [submissions_append, s1, (h5 h).2]; exact ⟨(h5 h).1, rfl⟩
      · intro h
        rw [submissions_append, s1, Nat.zero_add]
        exact h6 h
    · obtain ⟨d2, evs, ok, hrun, h1, h2, h3, h4, h5, h6⟩ :=
        ih d1 c1 (Or.inl (by rw [m1]; exact hg))
      refine ⟨d2, evs1 ++ evs, ok, ?_, h1, by rw [h2, m1], ?_, fun _ => h4 f1, ?_, ?_⟩
      · simp only [Script.run, he, hrun]
      · rw [destructions_append, t1, h3]
      · intro h; rw [hw] at h; cases h
      · intro _
        right
        rw [submissions_append, s1, (h5 w1).2]
        exact ⟨(h5 w1).1, rfl, h4 f1⟩

theorem Data.completeWith_of_not_collected (call : Data → Option Data × List Event × Bool)
    (d : Data) (hc : d.collected = false) :
    ∃ d1 : Data, d1.working = false ∧ d1.collected = false ∧ d1.multiply = d.multiply ∧
      Data.completeWith call d = ((call d1).1, Event.call d1 :: (call d1).2.1 ++
        (if (call d1).2.2 then [] else [Event.throwError "Failed to call"])) := by
  simp only [Data.completeWith, hc, Bool.false_eq_true, if_false]
  refine ⟨_, ?_, ?_, ?_, rfl⟩
  · split
    · split <;> rfl
    · rfl
  · split
    · split <;> rfl
    · rfl
  · split
    · split <;> rfl
    · rfl

/-- Completion handling on a processor that is not collected, when the gain is not
1.0 or the callback does not call back. -/
theorem Data.completeWith_outcome (cb : Script) (d : Data) (hc : d.collected = false)
    (hsafe : F32.eqOne d.multiply = false ∨ cb.plain = true) :
    ∃ d2 evs, Data.completeWith cb.run d = (some d2, evs) ∧ d2.collected = false ∧
      d2.multiply = d.multiply ∧ destructions evs = 0 ∧
      ((d2.working = false ∧ submissions evs = 0) ∨
        (d2.working = true ∧ submissions evs = 1 ∧ d2.formats ≠ [])) := by
  obtain ⟨d1, h1, h2, h6, hshape⟩ := Data.completeWith_of_not_collected cb.run d hc
  obtain ⟨d2, evs, ok, hrun, g1, g2, g3, -, -, g6⟩ :=
    Script.run_outcome cb d1 h2 (by rw [h6]; exact hsafe)
  rw [hrun] at hshape
  have hd : destructions (Event.call d1 :: evs ++
      (if ok = true then [] else [Event.throwError "Failed to call"])) = destructions evs := by
    cases ok <;> simp [destructions, List.filter_append]
  have hs : submissions (Event.call d1 :: evs ++
      (if ok = true then [] else [Event.throwError "Failed to call"])) = submissions evs := by
    cases ok <;> simp [submissions, List.filter_append]
  refine ⟨d2, _, hshape, g1, by rw [g2, h6], hd.trans g3, ?_⟩
  rcases g6 h1 with ⟨a, b⟩ | ⟨a, b, c⟩
  · exact Or.inl ⟨a, hs.trans b⟩
  · exact Or.inr ⟨a, hs.trans b, c⟩

/-! ## The invariant of the life of a processor -/

theorem World.inv_created (gain : F32) : (World.created gain).Inv := by
  simp [World.Inv, World.created, New]

theorem World.gainIs_created (gain : F32) : (World.created gain).gainIs gain := by
  intro d hd
  simp only [World.created, New, Option.some.injEq] at hd
  subst hd; rfl

/-- A step keeps the invariant and the gain, when the gain is not 1.0 or the
callback of the step does not call back into the processor. -/
theorem World.inv_step (gain : F32) (w w' : World) (op : Op)
    (hsafe : F32.eqOne gain = false ∨ Op.plain op = true) (hinv : w.Inv)
    (hgain : w.gainIs gain) (hstep : w.step op = some w') : w'.Inv ∧ w'.gainIs gain := by
  obtain ⟨hst, hle, hproc⟩ := hinv
  cases hp : w.proc with
  | none =>
    rw [hp] at hproc
    obtain ⟨hdel, hsum, hh⟩ := hproc
    cases op with
    | setFormat c b r s => simp [World.step, hh] at hstep
    | feed info1 callback => simp [World.step, hh] at hstep
    | release => simp [World.step, hh] at hstep
    | work P =>
      have : ¬ (0 < w.queued) := by omega
      simp [World.step, this] at hstep
    | done callback =>
      have : ¬ (0 < w.finished) := by omega
      simp [World.step, this] at hstep
  | some d =>
    rw [hp] at hproc
    obtain ⟨hdel, hwork, hcol, hcw, hfmt⟩ := hproc
    have hm : d.multiply = gain := hgain d hp
    cases op with
    | setFormat c b r s =>
      by_cases hh : w.handle = true
      · simp only [World.step, hh, if_true, hp, Option.some.injEq] at hstep
        subst hstep
        refine ⟨⟨hst, ?_, ?_⟩, ?_⟩
        · simpa [World.after, SetFormat, submissions] using hle
        · simp only [World.after, SetFormat, show ¬ (5 < 5) by decide, if_false,
            submissions_nil, destructions_nil, Nat.add_zero]
          exact ⟨hdel, hwork, hcol, hcw, fun _ => by simp⟩
        · intro d2 hd2
          simp only [World.after, SetFormat, show ¬ (5 < 5) by decide, if_false,
            Option.some.injEq] at hd2
          subst hd2; exact hm
      · simp [World.step, hh] at hstep
    | feed info1 callback =>
      have hsafe' : F32.eqOne d.multiply = false ∨ callback.plain = true := by
        rw [hm]; exact hsafe
      by_cases hh : w.handle = true
      · simp only [World.step, hh, if_true, hp, Option.some.injEq] at hstep
        subst hstep
        have hc : d.collected = false := by
          cases hcc : d.collected with
          | false => rfl
          | true => rw [hcol.mp hcc] at hh; cases hh
        rcases FeedWith_outcomes callback info1 d hc hsafe' with ⟨evs, he, h1, h2⟩ |
          ⟨hw, hf, d', evs, he, h1, h2, h3, h4, h5, h6⟩
        · refine ⟨⟨hst, ?_, ?_⟩, ?_⟩
          · simp only [World.after, he, h1, Nat.add_zero]; exact hle
          · simp only [World.after, he, h1, h2, Nat.add_zero]
            exact ⟨hdel, hwork, hcol, hcw, hfmt⟩
          · intro d2 hd2
            simp only [World.after, he, Option.some.injEq] at hd2
            subst hd2; exact hm
        · have hzero : w.queued + w.finished = 0 := by
            have : ¬ (w.queued + w.finished = 1) := by
              intro h; rw [hwork.mpr h] at hw; cases hw
            omega
          refine ⟨⟨hst, ?_, ?_⟩, ?_⟩
          · simp only [World.after, he, h4]; omega
          · simp only [World.after, he, h4, h5, Nat.add_zero]
            refine ⟨hdel, ⟨fun _ => by omega, fun _ => h1⟩, ?_, ?_, fun _ => h3⟩
            · rw [h2]; simp [hh]
            · rw [h2]; intro h; cases h
          · intro d2 hd2
            simp only [World.after, he, Option.some.injEq] at hd2
            subst hd2; rw [h6]; exact hm
      · simp [World.step, hh] at hstep
    | release =>
      by_cases hh : w.handle = true
      · simp only [World.step, hh, if_true, hp, Option.some.injEq] at hstep
        subst hstep
        by_cases hw : d.working = true
        · refine ⟨?_, ?_⟩
          · simp only [World.after, Data.weakCallback, hw, if_true, submissions_nil,
              destructions_nil, Nat.add_zero]
            exact ⟨hst, hle, hdel, by simpa [hw] using hwork,
              by simp, fun _ => rfl, hfmt⟩
          · intro d2 hd2
            simp only [World.after, Data.weakCallback, hw, if_true, Option.some.injEq] at hd2
            subst hd2; exact hm
        · have hw' : d.working = false := by simpa using hw
          have hzero : w.queued + w.finished = 0 := by
            have : ¬ (w.queued + w.finished = 1) := by
              intro h; rw [hwork.mpr h] at hw'; cases hw'
            omega
          refine ⟨?_, ?_⟩
          · simp only [World.after, Data.weakCallback, hw', Bool.false_eq_true, if_false,
              submissions, destructions]
            refine ⟨hst, ?_, ?_⟩
            · simpa using hle
            · simp [hdel, hzero]
          · intro d2 hd2
            simp [World.after, Data.weakCallback, hw'] at hd2
      · simp [World.step, hh] at hstep
    | work P =>
      by_cases hq : 0 < w.queued
      · simp only [World.step, hq, if_true, hp] at hstep
        cases hperf : Data.perform P d with
        | none =>
          simp only [hperf, Option.some.injEq] at hstep
          subst hstep
          have e : w.queued - 1 + (w.finished + 1) = w.queued + w.finished := by omega
          refine ⟨⟨hst, by simp only [e]; exact hle, ?_⟩, ?_⟩
          · simp only [hp, e]
            exact ⟨hdel, hwork, hcol, hcw, hfmt⟩
          · intro d2 hd2
            simp only [Option.some.injEq] at hd2
            subst hd2; exact hm
        | some d' =>
          simp only [hperf, Option.some.injEq] at hstep
          subst hstep
          obtain ⟨f1, f2, f3, f4⟩ := Data.perform_fields P d d' hperf
          have e : w.queued - 1 + (w.finished + 1) = w.queued + w.finished := by omega
          refine ⟨⟨hst, by simp only [e]; exact hle, ?_⟩, ?_⟩
          · simp only [e, f1, f2, f3]
            exact ⟨hdel, hwork, hcol, hcw, hfmt⟩
          · intro d2 hd2
            simp only [Option.some.injEq] at hd2
            subst hd2; rw [f4]; exact hm
      · simp [World.step, hq] at hstep
    | done callback =>
      have hsafe' : F32.eqOne d.multiply = false ∨ callback.plain = true := by
        rw [hm]; exact hsafe
      by_cases hq : 0 < w.finished
      · simp only [World.step, hq, if_true, hp, Option.some.injEq] at hstep
        subst hstep
        have hone : w.queued + w.finished = 1 := by omega
        have hzero : w.queued + (w.finished - 1) = 0 := by omega
        have hq0 : w.queued = 0 := by omega
        by_cases hc : d.collected = true
        · rw [Data.completeWith_of_collected callback.run d hc]
          refine ⟨?_, ?_⟩
          · simp only [World.after, submissions, destructions]
            refine ⟨hst, ?_, ?_⟩
            · simp; omega
            · simp [hdel, hcol.mp hc]; omega
          · intro d2 hd2
            simp [World.after] at hd2
        · have hc' : d.collected = false := by simpa using hc
          have hhandle : w.handle = true := by
            cases hh : w.handle with
            | true => rfl
            | false => exact absurd (hcol.mpr hh) hc
          obtain ⟨d', evs, he, h2, h6, h5, hcase⟩ :=
            Data.completeWith_outcome callback d hc' hsafe'
          refine ⟨?_, ?_⟩
          · rcases hcase with ⟨h1, h4⟩ | ⟨h1, h4, h3⟩
            · simp only [World.after, he, h4, h5, Nat.add_zero]
              refine ⟨hst, by dsimp only; omega, hdel, ?_, ?_, ?_, ?_⟩
              · rw [h1]; constructor
                · intro h; cases h
                · intro h; dsimp only at h; omega
              · rw [h2]; simp [hhandle]
              · rw [h2]; intro h; cases h
              · intro h; dsimp only at h; omega
            · simp only [World.after, he, h4, h5, Nat.add_zero]
              refine ⟨hst, by dsimp only; omega, hdel, ?_, ?_, ?_, fun _ => h3⟩
              · rw [h1]; constructor
                · intro _; dsimp only; omega
                · intro _; rfl
              · rw [h2]; simp [hhandle]
              · rw [h2]; intro h; cases h
          · intro d2 hd2
            simp only [World.after, he, Option.some.injEq] at hd2
            subst hd2; rw [h6]; exact hm
      · simp [World.step, hq] at hstep

theorem World.inv_run (gain : F32) (ops : List Op) : ∀ (w w' : World),
    (F32.eqOne gain = false ∨ ∀ op ∈ ops, Op.plain op = true) →
    w.Inv → w.gainIs gain → w.run ops = some w' → w'.Inv := by
  induction ops with
  | nil =>
    intro w w' _ hinv _ hrun
    simp only [World.run, Option.some.injEq] at hrun
    subst hrun; exact hinv
  | cons op ops ih =>
    intro w w' hsafe hinv hgain hrun
    simp only [World.run] at hrun
    cases hs : w.step op with
    | none => simp [hs] at hrun
    | some w1 =>
      simp only [hs, Option.bind_eq_bind, Option.some_bind] at hrun
      have h1 := World.inv_step gain w w1 op
        (hsafe.imp id (fun h => h op (List.mem_cons_self _ _))) hinv hgain hs
      exact ih w1 w' (hsafe.imp id (fun h o ho => h o (List.mem_cons_of_mem _ ho)))
        h1.1 h1.2 hrun

/-- While no callback calls back into the processor, the invariant holds in every
reachable world. -/
theorem ReachablePlain.inv (gain : F32) (w : World) (h : ReachablePlain gain w) : w.Inv := by
  obtain ⟨ops, hpl, hrun⟩ := h
  exact World.inv_run gain ops _ w (Or.inr hpl) (World.inv_created gain)
    (World.gainIs_created gain) hrun

/-- For every gain other than 1.0 the invariant holds in every reachable world,
whatever the callbacks do. -/
theorem Reachable.inv_of_ne_one (gain : F32) (w : World) (hg : F32.eqOne gain = false)
    (h : Reachable gain w) : w.Inv := by
  obtain ⟨ops, hrun⟩ := h
  exact World.inv_run gain ops _ w (Or.inl hg) (World.inv_created gain)
    (World.gainIs_created gain) hrun

/-! ## Completion handling and handle release -/

/-- C12: on a processor that is not collected, completion handling clears
`working`, keeps a format queue of at most one entry and otherwise replaces it by
its last entry, and invokes the callback exactly once, on the processor as
already changed; this is so whether or not the invocation succeeds (a failed one
adds the `Failed to call` exception). -/
theorem complete_commits_then_calls_back (callOk : Bool) (d : Data)
    (hc : d.collected = false) :
    ∃ d', Data.complete callOk d =
        (some d', Event.call d' :: (if callOk then [] else [Event.throwError "Failed to call"])) ∧
      d'.working = false ∧
      (d.formats.length ≤ 1 → d'.formats = d.formats) ∧
      (∀ f, 1 < d.formats.length → d.formats.getLast? = some f → d'.formats = [f]) ∧
      d'.collected = false ∧ d'.multiply = d.multiply ∧ d'.buffer = d.buffer ∧
      d'.persistentData = none := by
  simp only [Data.complete, hc, Bool.false_eq_true, if_false]
  by_cases hl : d.formats.length > 1
  · simp only [hl, if_true]
    cases hlast : d.formats.getLast? with
    | none =>
      rw [List.getLast?_eq_none_iff] at hlast
      rw [hlast] at hl
      simp at hl
    | some f =>
      refine ⟨_, rfl, rfl, fun h => absurd hl (by omega), ?_, rfl, rfl, rfl, rfl⟩
      intro f' _ hf'
      cases hf'; rfl
  · simp only [hl, if_false]
    exact ⟨_, rfl, rfl, fun _ => rfl, fun f h => h.elim, rfl, rfl, rfl, rfl⟩

theorem complete_commits_then_calls_back_witness :
    (Data.mk F32.two true false [⟨2, 16, 44100, true⟩, ⟨1, 8, 22050, false⟩] ⟨9, [3, 4]⟩
      (some 9)).collected = false ∧
    ∃ d', Data.complete false (Data.mk F32.two true false
        [⟨2, 16, 44100, true⟩, ⟨1, 8, 22050, false⟩] ⟨9, [3, 4]⟩ (some 9)) =
        (some d', Event.call d' ::
          (if false = true then [] else [Event.throwError "Failed to call"])) ∧
      d'.working = false ∧ d'.formats = [⟨1, 8, 22050, false⟩] :=
  ⟨rfl, by
    obtain ⟨d', h1, h2, -, h4, -⟩ := complete_commits_then_calls_back false
      (Data.mk F32.two true false [⟨2, 16, 44100, true⟩, ⟨1, 8, 22050, false⟩] ⟨9, [3, 4]⟩
        (some 9)) rfl
    exact ⟨d', h1, h2, h4 _ (by decide) rfl⟩⟩

/-- C13: releasing the handle of an idle processor deletes it at once; releasing
the handle of a working processor only sets `collected`, and the completion
handling that follows, with or without the scaling having run in between, deletes
the processor and does nothing else: no callback, no exception. -/
theorem release_deletes_now_or_at_completion (P : Platform) (callOk : Bool) (d : Data) :
    (d.working = false → Data.weakCallback d = (none, [Event.destroy])) ∧
    (d.working = true →
      Data.weakCallback d = (some { d with collected := true }, []) ∧
      Data.complete callOk { d with collected := true } = (none, [Event.destroy]) ∧
      ∀ d', Data.perform P { d with collected := true } = some d' →
        Data.complete callOk d' = (none, [Event.destroy])) := by
  refine ⟨fun h => by simp [Data.weakCallback, h], fun h => ⟨by simp [Data.weakCallback, h],
    by simp [Data.complete], ?_⟩⟩
  intro d' hd'
  simp only [Data.perform] at hd'
  split at hd'
  · cases hd'
  · simp only [Option.map_eq_some'] at hd'
    obtain ⟨mem, -, rfl⟩ := hd'
    simp [Data.complete]

theorem release_deletes_now_or_at_completion_witness :
    Data.weakCallback (Data.mk F32.two false false [⟨2, 16, 44100, true⟩] ⟨0, []⟩ none) =
      (none, [Event.destroy]) ∧
    Data.weakCallback
        (Data.mk F32.two true false [⟨2, 16, 44100, true⟩] ⟨9, [3, 4]⟩ (some 9)) =
      (some (Data.mk F32.two true true [⟨2, 16, 44100, true⟩] ⟨9, [3, 4]⟩ (some 9)), []) ∧
    Data.complete true
        (Data.mk F32.two true true [⟨2, 16, 44100, true⟩] ⟨9, [3, 4]⟩ (some 9)) =
      (none, [Event.destroy]) :=
  ⟨(release_deletes_now_or_at_completion x86_64 true
      (Data.mk F32.two false false [⟨2, 16, 44100, true⟩] ⟨0, []⟩ none)).1 rfl,
   ((release_deletes_now_or_at_completion x86_64 true
      (Data.mk F32.two true false [⟨2, 16, 44100, true⟩] ⟨9, [3, 4]⟩ (some 9))).2 rfl).1,
   ((release_deletes_now_or_at_completion x86_64 true
      (Data.mk F32.two true false [⟨2, 16, 44100, true⟩] ⟨9, [3, 4]⟩ (some 9))).2 rfl).2.1⟩

/-- C17: two format descriptors that agree on `bitsPerSample` and `isSigned` give
the same scaled bytes for the same buffer and gain, whatever their channels and
sample rates; so does `Data::perform` on two processors that differ only in these
descriptors' other fields and in the formats queued behind them. -/
theorem scaling_ignores_channels_and_rate (P : Platform) (f1 f2 : Format) (g : F32)
    (mem : List Byte) (hb : f1.bitsPerSample = f2.bitsPerSample)
    (hs : f1.isSigned = f2.isSigned) :
    Data.scale P f1 g mem = Data.scale P f2 g mem ∧
    ∀ (d : Data) (rest1 rest2 : List Format),
      (Data.perform P { d with formats := f1 :: rest1 }).map (fun d' => d'.buffer) =
      (Data.perform P { d with formats := f2 :: rest2 }).map (fun d' => d'.buffer) := by
  have h : ∀ m, Data.scale P f1 g m = Data.scale P f2 g m := by
    intro m; simp only [Data.scale, hb, hs]
  refine ⟨h mem, fun d rest1 rest2 => ?_⟩
  have h' : ∀ m, Data.scale P f1 d.multiply m = Data.scale P f2 d.multiply m := by
    intro m; simp only [Data.scale, hb, hs]
  simp only [Data.perform, List.head?_cons, h', Option.map_map]
  rfl

theorem scaling_ignores_channels_and_rate_witness :
    (Format.mk 2 16 44100 true).bitsPerSample = (Format.mk 6 16 8000 true).bitsPerSample ∧
    (Format.mk 2 16 44100 true).isSigned = (Format.mk 6 16 8000 true).isSigned ∧
    Data.scale x86_64 ⟨2, 16, 44100, true⟩ F32.two [1, 2, 3, 4] =
      Data.scale x86_64 ⟨6, 16, 8000, true⟩ F32.two [1, 2, 3, 4] :=
  ⟨rfl, rfl,
   (scaling_ignores_channels_and_rate x86_64 ⟨2, 16, 44100, true⟩ ⟨6, 16, 8000, true⟩ F32.two
      [1, 2, 3, 4] rfl rfl).1⟩

/-- C20: `Feed` checks, in this order, that the processor is not working, that a
format is queued, that the buffer is not empty, and only then the gain: a working
processor gets `Already doing work` whatever the queue and the buffer, an idle one
without a format gets `No format set` also for an empty buffer, and an idle one
with a format returns silently on an empty buffer, also with gain 1.0. -/
theorem feed_checks_in_order (callOk : Bool) (info1 : Buffer) (d : Data) :
    (d.working = true →
      Feed callOk Arg.handle info1 d = (some d, [Event.throwError "Already doing work"])) ∧
    (d.working = false → d.formats = [] →
      Feed callOk Arg.handle info1 d = (some d, [Event.throwError "No format set"])) ∧
    (d.working = false → d.formats ≠ [] → info1.size = 0 →
      Feed callOk Arg.handle info1 d = (some d, [])) := by
  refine ⟨fun h => by simp [Feed, h], fun h1 h2 => by simp [Feed, h1, h2], fun h1 h2 h3 => ?_⟩
  have hf' : d.formats.isEmpty = false := by
    cases hd : d.formats with
    | nil => exact absurd hd h2
    | cons _ _ => rfl
  simp [Feed, h1, hf', h3]

theorem feed_checks_in_order_witness :
    Feed true Arg.handle ⟨9, []⟩ (Data.mk F32.one true false [] ⟨7, [1]⟩ (some 7)) =
      (some (Data.mk F32.one true false [] ⟨7, [1]⟩ (some 7)),
        [Event.throwError "Already doing work"]) ∧
    Feed true Arg.handle ⟨9, []⟩ (Data.mk F32.one false false [] ⟨0, []⟩ none) =
      (some (Data.mk F32.one false false [] ⟨0, []⟩ none),
        [Event.throwError "No format set"]) ∧
    Feed true Arg.handle ⟨9, []⟩
        (Data.mk F32.one false false [⟨2, 16, 44100, true⟩] ⟨0, []⟩ none) =
      (some (Data.mk F32.one false false [⟨2, 16, 44100, true⟩] ⟨0, []⟩ none), []) :=
  ⟨(feed_checks_in_order true ⟨9, []⟩ (Data.mk F32.one true false [] ⟨7, [1]⟩ (some 7))).1 rfl,
   (feed_checks_in_order true ⟨9, []⟩ (Data.mk F32.one false false [] ⟨0, []⟩ none)).2.1
      rfl rfl,
   (feed_checks_in_order true ⟨9, []⟩
      (Data.mk F32.one false false [⟨2, 16, 44100, true⟩] ⟨0, []⟩ none)).2.2
      rfl (by decide) rfl⟩

/-! ## The sign flag of 24-bit signed samples -/

set_option maxRecDepth 100000 in
theorem flag_bit_of_or (x : Fin 128) :
    (byteOfNat ((byteOfNat x.val).val ||| 0)).val &&& 0x80 = 0 ∧
    (byteOfNat ((byteOfNat x.val).val ||| 128)).val &&& 0x80 = 128 := by
  revert x; decide

set_option maxRecDepth 100000 in
theorem flag_cases (b2 : Byte) :
    (b2.val &&& 0x80 = 0 ∨ b2.val &&& 0x80 = 128) := by
  revert b2; decide

theorem Signed24.output_flag (P : Platform) (g : F32) (b0 b1 b2 : Byte) :
    ∃ c0 c1 c2 : Byte, Signed24.output P g b0 b1 b2 = [c0, c1, c2] ∧
      c2.val &&& 0x80 = b2.val &&& 0x80 := by
  refine ⟨_, _, _, rfl, ?_⟩
  have hm : Signed24.masked P g b0 b1 b2 / 2 ^ 16 < 128 := by
    have : Signed24.masked P g b0 b1 b2 ≤ 0x7fffff := Nat.and_le_right
    omega
  obtain ⟨h0, h1⟩ := flag_bit_of_or ⟨_, hm⟩
  simp only [Signed24.flag]
  rcases flag_cases b2 with h | h
  · rw [h]; exact h0
  · rw [h]; exact h1

/-- C19: for every buffer, every gain and every platform, the 24-bit signed scaler
leaves bit 7 of the third byte of every sample it processes as it was. -/
theorem signed24_keeps_the_sign_flag (P : Platform) (g : F32) (buf : List Byte) (i : Nat)
    (hi : i < buf.length / 3) :
    (rd (Performer24Signed.perform P g ((buf.length / 3 : Nat) : Int) buf) (i * 3 + 2)).val
        &&& 0x80 = (rd buf (i * 3 + 2)).val &&& 0x80 := by
  have hl := load_mapSamples 3 (Signed24.onSample P g) (by
      intro c hc
      match c, hc with
      | [b0, b1, b2], _ => rfl) (buf.length / 3) buf i (by omega) hi
  rw [← Performer24Signed.signed_perform_eq_mapSamples P g _ buf (by omega)] at hl
  rw [load_three, load_three] at hl
  obtain ⟨c0, c1, c2, hout, hflag⟩ :=
    Signed24.output_flag P g (rd buf (i * 3)) (rd buf (i * 3 + 1)) (rd buf (i * 3 + 2))
  simp only [Signed24.onSample, hout, List.cons.injEq, and_true] at hl
  rw [hl.2.2]
  exact hflag

theorem signed24_keeps_the_sign_flag_witness :
    (0 < [(0xff : Byte), 0xff, 0xff].length / 3) ∧
    (rd (Performer24Signed.perform x86_64 (F32.finite (-3) 5)
        (([(0xff : Byte), 0xff, 0xff].length / 3 : Nat) : Int) [0xff, 0xff, 0xff])
        (0 * 3 + 2)).val &&& 0x80 = (rd [(0xff : Byte), 0xff, 0xff] (0 * 3 + 2)).val &&& 0x80 :=
  ⟨by decide, signed24_keeps_the_sign_flag x86_64 (F32.finite (-3) 5) [0xff, 0xff, 0xff] 0
    (by decide)⟩

/-! ## How many samples are processed -/

theorem mapSamples_drop (w : Nat) (f : List Byte → List Byte)
    (hf : ∀ c, c.length = w → (f c).length = w) :
    ∀ (n : Nat) (buf : List Byte), n * w ≤ buf.length →
      (mapSamples w f n buf).drop (n * w) = buf.drop (n * w) := by
  intro n
  induction n with
  | zero => intro buf _; simp [mapSamples]
  | succ n ih =>
    intro buf hlen
    have e : (n + 1) * w = w + n * w := by ring
    have hw : w ≤ buf.length := by omega
    have htake : (buf.take w).length = w := by simp [hw]
    have hlen' : n * w ≤ (buf.drop w).length := by
      simp only [List.length_drop]; omega
    simp only [mapSamples]
    rw [e, ← List.drop_drop, ← List.drop_drop]
    have h1 : (f (buf.take w) ++ mapSamples w f n (buf.drop w)).drop w
        = mapSamples w f n (buf.drop w) := by
      have := List.drop_left (f (buf.take w)) (mapSamples w f n (buf.drop w))
      rw [hf _ htake] at this
      exact this
    rw [h1, ih (buf.drop w) hlen']

theorem scalerOnSample_length (P : Platform) (bits : Int) (s : Bool) (g : F32)
    (hb : bits = 8 ∨ bits = 16 ∨ bits = 24 ∨ bits = 32) (c : List Byte)
    (hc : c.length = bits.toNat / 8) : (scalerOnSample P bits s g c).length = bits.toNat / 8 := by
  rcases hb with rfl | rfl | rfl | rfl
  · simp only [scalerOnSample, show ((8 : Int) = 24) = False by decide, if_false]
    exact Performer.onSample_length P 1 s g c
  · simp only [scalerOnSample, show ((16 : Int) = 24) = False by decide, if_false]
    exact Performer.onSample_length P 2 s g c
  · simp only [scalerOnSample, if_true]
    rw [show (24 : Int).toNat / 8 = 3 by decide] at hc ⊢
    cases s with
    | true =>
      simp only [if_true]
      match c, hc with
      | [b0, b1, b2], _ => rfl
    | false =>
      simp only [Bool.false_eq_true, if_false]
      exact leBytes_length _ _
  · simp only [scalerOnSample, show ((32 : Int) = 24) = False by decide, if_false]
    exact Performer.onSample_length P 4 s g c

/-- C18, as the code has it: for every supported format of sample width `w` bytes
and every buffer of `n` bytes with `n / w < 2^31` (the count is kept in an `int`),
the scaler applies its per-sample function to exactly the `n / w` samples laid out
from offset 0, keeps the length of the buffer and leaves the `n mod w` bytes after
the last sample as they are. -/
theorem scaler_processes_every_whole_sample (P : Platform) (c r bits : Int) (s : Bool)
    (g : F32) (buf : List Byte) (hb : bits = 8 ∨ bits = 16 ∨ bits = 24 ∨ bits = 32)
    (hlen : buf.length / (bits.toNat / 8) < 2 ^ 31) :
    ∃ out, Data.scale P ⟨c, bits, r, s⟩ g buf = some out ∧
      out = mapSamples (bits.toNat / 8) (scalerOnSample P bits s g)
        (buf.length / (bits.toNat / 8)) buf ∧
      out.length = buf.length ∧
      (∀ i, i < buf.length / (bits.toNat / 8) →
        load out (i * (bits.toNat / 8)) (bits.toNat / 8) =
          scalerOnSample P bits s g (load buf (i * (bits.toNat / 8)) (bits.toNat / 8))) ∧
      out.drop (buf.length / (bits.toNat / 8) * (bits.toNat / 8)) =
        buf.drop (buf.length / (bits.toNat / 8) * (bits.toNat / 8)) ∧
      (out.drop (buf.length / (bits.toNat / 8) * (bits.toNat / 8))).length =
        buf.length % (bits.toNat / 8) := by
  have hf := scalerOnSample_length P bits s g hb
  have hle : buf.length / (bits.toNat / 8) * (bits.toNat / 8) ≤ buf.length :=
    Nat.div_mul_le_self _ _
  refine ⟨_, Data.scale_supported P c r bits s g buf hb, ?_, ?_, ?_, ?_, ?_⟩
  · rw [iterationsOf_of_lt _ _ hlen]
  · rw [iterationsOf_of_lt _ _ hlen]
    exact mapSamples_length _ _ hf _ buf hle
  · intro i hi
    rw [iterationsOf_of_lt _ _ hlen]
    exact load_mapSamples _ _ hf _ buf i hle hi
  · rw [iterationsOf_of_lt _ _ hlen]
    exact mapSamples_drop _ _ hf _ buf hle
  · rw [iterationsOf_of_lt _ _ hlen, mapSamples_drop _ _ hf _ buf hle, List.length_drop]
    have := Nat.div_add_mod buf.length (bits.toNat / 8)
    rw [Nat.mul_comm] at this
    omega

theorem scaler_processes_every_whole_sample_witness :
    ([(1 : Byte), 2, 3, 4, 5].length / ((16 : Int).toNat / 8) < 2 ^ 31) ∧
    ∃ out, Data.scale x86_64 ⟨2, 16, 44100, false⟩ F32.two [1, 2, 3, 4, 5] = some out ∧
      out = mapSamples ((16 : Int).toNat / 8) (scalerOnSample x86_64 16 false F32.two)
        ([(1 : Byte), 2, 3, 4, 5].length / ((16 : Int).toNat / 8)) [1, 2, 3, 4, 5] ∧
      out.length = [(1 : Byte), 2, 3, 4, 5].length :=
  ⟨by decide, by
    obtain ⟨out, h1, h2, h3, -⟩ := scaler_processes_every_whole_sample x86_64 2 44100 16 false
      F32.two [1, 2, 3, 4, 5] (by decide) (by decide)
    exact ⟨out, h1, h2, h3⟩⟩

/-- A buffer of `2^31` one-byte samples: the `int` iteration count is `-2^31`, the
loop body never runs and the buffer is returned as it was. -/
theorem Data.scale_int_overflow (P : Platform) (g : F32) (buf : List Byte)
    (hlen : buf.length = 2 ^ 31) :
    Data.scale P ⟨2, 8, 44100, false⟩ g buf = some buf := by
  rw [Data.scale_supported P 2 44100 8 false g buf (by decide), hlen]
  rw [show iterationsOf (2 ^ 31) ((8 : Int).toNat / 8) = 0 by decide]
  rfl

theorem load_cons_zero_one (a : Byte) (rest : List Byte) : load (a :: rest) 0 1 = [a] := by
  rfl

/-- C18 as stated fails: of a buffer of `2^31` bytes of value 1 in the unsigned
8-bit format, scaled by 2.0, no sample is processed (the count `2^31` does not fit
an `int`), where processing the first sample would make it 2. -/
theorem huge_buffer_is_not_processed :
    Data.scale x86_64 ⟨2, 8, 44100, false⟩ F32.two (List.replicate (2 ^ 31) 1) =
      some (List.replicate (2 ^ 31) 1) ∧
    (List.replicate (2 ^ 31) (1 : Byte)).length / ((8 : Int).toNat / 8) = 2 ^ 31 ∧
    load (List.replicate (2 ^ 31) (1 : Byte)) 0 1 = [1] ∧
    scalerOnSample x86_64 8 false F32.two [1] = [2] := by
  refine ⟨Data.scale_int_overflow x86_64 F32.two _ (List.length_replicate _ _), ?_, ?_,
    by decide⟩
  · rw [List.length_replicate]; decide
  · rw [show (2 ^ 31 : Nat) = 2147483647 + 1 by norm_num, List.replicate_succ]
    exact load_cons_zero_one _ _

/-! ## Formats that reach the scaler -/

/-- C16, as the code has it: `SetFormat` appends every descriptor to the format
queue whatever its `bitsPerSample` and raises nothing; `Feed` on an idle processor
with a format queued, a non-empty buffer and a gain other than 1.0 submits the job
whatever the front format is, so that on a new processor queueing any descriptor
and feeding submits a job with that descriptor in front; and for a front format
whose `bitsPerSample` is 8, 16, 24 or 32 the divisor `bitsPerSample >> 3` is
`bitsPerSample / 8`, not zero, and `Data::perform` runs the scaler of that width
and signedness over the buffer. -/
theorem any_format_is_queued_and_supported_ones_scale :
    (∀ (c b r : Int) (s : Bool) (d : Data),
      SetFormat 5 Arg.handle c b r s d =
        ({ d with formats := d.formats ++ [⟨c, b, r, s⟩] }, [])) ∧
    (∀ (callOk : Bool) (info1 : Buffer) (d : Data),
      d.working = false → d.formats ≠ [] → info1.size ≠ 0 → F32.eqOne d.multiply = false →
      Feed callOk Arg.handle info1 d =
        (some { d with buffer := info1, persistentData := some info1.data, working := true },
          [Event.queueWork])) ∧
    (∀ (g : F32) (c b r : Int) (s : Bool) (info1 : Buffer) (callback : Script),
      F32.eqOne g = false → info1.size ≠ 0 →
      (World.created g).run [Op.setFormat c b r s, Op.feed info1 callback] =
        some { proc := some (Data.mk g true false [⟨c, b, r, s⟩] info1 (some info1.data)),
               handle := true, queued := 1, finished := 0, deletions := 0, stale := false,
               trapped := false, log := [Event.queueWork] }) ∧
    (∀ (P : Platform) (c r bits : Int) (s : Bool) (g : F32) (buf : List Byte),
      bits = 8 ∨ bits = 16 ∨ bits = 24 ∨ bits = 32 →
      bits >>> 3 ≠ 0 ∧ ((bits >>> 3 : Int) = ((bits.toNat / 8 : Nat) : Int)) ∧
      Data.scale P ⟨c, bits, r, s⟩ g buf =
        some (mapSamples (bits.toNat / 8) (scalerOnSample P bits s g)
          (iterationsOf buf.length (bits.toNat / 8)) buf)) := by
  refine ⟨fun _ _ _ _ _ => rfl, ?_, ?_, ?_⟩
  · intro callOk info1 d hw hf hs hg
    have hf' : d.formats.isEmpty = false := by
      cases hd : d.formats with
      | nil => exact absurd hd hf
      | cons _ _ => rfl
    simp only [Feed, hw, hf', hs, hg, Bool.false_eq_true, if_false, Option.map_some',
      List.nil_append]
  · intro g c b r s info1 callback hg hs
    have e1 : submissions [] = 0 := rfl
    have e2 : submissions [Event.queueWork] = 1 := by decide
    have e3 : destructions [] = 0 := rfl
    have e4 : destructions [Event.queueWork] = 0 := by decide
    simp only [World.created, New, World.run, World.step, if_true, Option.bind_eq_bind,
      Option.some_bind, World.after, SetFormat, show ¬ (5 < 5) by decide, if_false,
      List.nil_append, FeedWith, Bool.false_eq_true, List.isEmpty_cons, hs, hg,
      Option.map_some', e1, e2, e3, e4, Nat.add_zero, Nat.zero_add]
  · intro P c r bits s g buf hb
    refine ⟨?_, ?_, Data.scale_supported P c r bits s g buf hb⟩
    · rcases hb with rfl | rfl | rfl | rfl <;> decide
    · rcases hb with rfl | rfl | rfl | rfl <;> decide

theorem any_format_is_queued_and_supported_ones_scale_witness :
    (Feed true Arg.handle ⟨9, [100, 2]⟩ (Data.mk F32.two false false [⟨2, 12, 44100, true⟩]
        ⟨0, []⟩ none) =
      (some (Data.mk F32.two true false [⟨2, 12, 44100, true⟩] ⟨9, [100, 2]⟩ (some 9)),
        [Event.queueWork])) ∧
    ((World.created F32.two).run
        [Op.setFormat 2 (-8) 44100 true, Op.feed ⟨9, [100, 2]⟩ (Script.done true)] =
      some { proc := some (Data.mk F32.two true false [⟨2, -8, 44100, true⟩] ⟨9, [100, 2]⟩
               (some 9)),
             handle := true, queued := 1, finished := 0, deletions := 0, stale := false,
             trapped := false, log := [Event.queueWork] }) ∧
    ((24 : Int) >>> 3 ≠ 0) ∧
    Data.scale x86_64 ⟨2, 24, 44100, false⟩ F32.two [1, 2, 3] =
      some (mapSamples ((24 : Int).toNat / 8) (scalerOnSample x86_64 24 false F32.two)
        (iterationsOf [(1 : Byte), 2, 3].length ((24 : Int).toNat / 8)) [1, 2, 3]) :=
  ⟨any_format_is_queued_and_supported_ones_scale.2.1 true ⟨9, [100, 2]⟩
      (Data.mk F32.two false false [⟨2, 12, 44100, true⟩] ⟨0, []⟩ none)
      rfl (by decide) (by decide) (by decide),
   any_format_is_queued_and_supported_ones_scale.2.2.1 F32.two 2 (-8) 44100 true
      ⟨9, [100, 2]⟩ (Script.done true) (by decide) (by decide),
   (any_format_is_queued_and_supported_ones_scale.2.2.2 x86_64 2 44100 24 false F32.two
      [1, 2, 3] (by decide)).1,
   (any_format_is_queued_and_supported_ones_scale.2.2.2 x86_64 2 44100 24 false F32.two
      [1, 2, 3] (by decide)).2.2⟩

/-- C16 as stated fails: a descriptor with `bitsPerSample` 4 is queued and fed
without any error and its job divides by zero; one with `bitsPerSample` 12 is
queued and fed as well and its job selects no scaler, leaving the buffer as it
was. -/
theorem unsupported_format_reaches_the_scaler :
    (World.created F32.two).run
        [Op.setFormat 2 4 44100 true, Op.feed ⟨9, [100, 2]⟩ (Script.done true), Op.work x86_64] =
      some { proc := some (Data.mk F32.two true false [⟨2, 4, 44100, true⟩] ⟨9, [100, 2]⟩
               (some 9)),
             handle := true, queued := 0, finished := 1, deletions := 0, stale := false,
             trapped := true, log := [Event.queueWork] } ∧
    (World.created F32.two).run
        [Op.setFormat 2 12 44100 true, Op.feed ⟨9, [100, 2]⟩ (Script.done true), Op.work x86_64] =
      some { proc := some (Data.mk F32.two true false [⟨2, 12, 44100, true⟩] ⟨9, [100, 2]⟩
               (some 9)),
             handle := true, queued := 0, finished := 1, deletions := 0, stale := false,
             trapped := false, log := [Event.queueWork] } := by
  decide

/-! ## Which format a job uses -/

/-- Queue order away from the identity gain: for every gain other than 1.0 and any two format
descriptors `F1`, `F2`, on a freshly created processor, queueing `F1`, then `F2`,
and feeding a non-empty buffer submits one job whose scaling is that of `F1` on the
buffer, and after the completion handling of that job the format queue is `[F2]`
and the processor is idle. -/
theorem first_queued_format_scales_the_job (P : Platform) (g : F32) (F1 F2 : Format)
    (info1 : Buffer) (callback : Script) (callOk : Bool) (hg : F32.eqOne g = false)
    (hs : info1.size ≠ 0) :
    ∃ w3 d3, (World.created g).run
        [Op.setFormat F1.channels F1.bitsPerSample F1.sampleRate F1.isSigned,
         Op.setFormat F2.channels F2.bitsPerSample F2.sampleRate F2.isSigned,
         Op.feed info1 callback] = some w3 ∧
      w3.proc = some d3 ∧ w3.queued = 1 ∧ w3.finished = 0 ∧ d3.formats = [F1, F2] ∧
      d3.buffer = info1 ∧
      Data.perform P d3 = (Data.scale P F1 g info1.mem).map
        (fun mem => { d3 with buffer := ⟨info1.data, mem⟩ }) ∧
      ∃ w5 d5, w3.run [Op.work P, Op.done (Script.done callOk)] = some w5 ∧ w5.proc = some d5 ∧
        d5.formats = [F2] ∧ d5.working = false ∧ w5.queued = 0 ∧ w5.finished = 0 := by
  obtain ⟨c1, b1, r1, s1⟩ := F1
  obtain ⟨c2, b2, r2, s2⟩ := F2
  have e1 : submissions [] = 0 := rfl
  have e2 : submissions [Event.queueWork] = 1 := by decide
  have e3 : destructions [] = 0 := rfl
  have e4 : destructions [Event.queueWork] = 0 := by decide
  simp only [World.created, New, World.run, World.step, if_true, Option.bind_eq_bind,
    Option.some_bind, World.after, SetFormat, show ¬ (5 < 5) by decide, if_false,
    List.nil_append, FeedWith, Bool.false_eq_true, List.isEmpty_cons, List.cons_append, hs, hg,
    Option.map_some', List.append_nil, e1, e2, e3, e4, Nat.add_zero, Nat.zero_add]
  refine ⟨_, _, rfl, rfl, rfl, rfl, rfl, rfl, rfl, ?_⟩
  simp only [Data.perform, List.head?_cons]
  cases hsc : Data.scale P ⟨c1, b1, r1, s1⟩ g info1.mem with
  | none =>
    simp only [show (0 < 1) by decide, if_true, Option.map_none', Option.some_bind,
      World.run, World.step, Option.bind_eq_bind]
    simp [World.after, Data.completeWith, Script.run, submissions, destructions]
  | some mem =>
    simp only [show (0 < 1) by decide, if_true, Option.map_some', Option.some_bind,
      World.run, World.step, Option.bind_eq_bind]
    simp [World.after, Data.completeWith, Script.run, submissions, destructions]

/-- What the invariant says about deletion: no operation has run on a deleted
processor, the processor is deleted at most once, a deleted processor has no job
in flight, and while a job is in flight the processor is there. -/
theorem World.Inv.delete_once (w : World) (h : w.Inv) :
    w.stale = false ∧ w.deletions ≤ 1 ∧
    (w.proc = none → w.deletions = 1 ∧ w.queued + w.finished = 0 ∧ w.handle = false) ∧
    (0 < w.queued + w.finished → ∃ d, w.proc = some d ∧ w.deletions = 0) := by
  obtain ⟨hst, hle, hproc⟩ := h
  cases hp : w.proc with
  | none =>
    rw [hp] at hproc
    obtain ⟨h1, h2, h3⟩ := hproc
    exact ⟨hst, (by omega), fun _ => ⟨h1, h2, h3⟩, fun h => (by exfalso; omega)⟩
  | some d =>
    rw [hp] at hproc
    obtain ⟨h1, -⟩ := hproc
    exact ⟨hst, (by omega), fun h => (by cases h), fun _ => ⟨d, rfl, h1⟩⟩

/-- What the invariant says about jobs: at most one job is in flight, a live
processor is `working` exactly when a job is in flight, and whenever a queued job
can start the processor is there and its format queue has a front. -/
theorem World.Inv.one_job (w : World) (h : w.Inv) :
    w.queued + w.finished ≤ 1 ∧
    (∀ d, w.proc = some d → (d.working = true ↔ w.queued + w.finished = 1)) ∧
    (0 < w.queued → ∃ d f, w.proc = some d ∧ d.formats.head? = some f) := by
  obtain ⟨hst, hle, hproc⟩ := h
  cases hp : w.proc with
  | none =>
    rw [hp] at hproc
    obtain ⟨h1, h2, h3⟩ := hproc
    exact ⟨hle, fun d hd => (by cases hd), fun hq => (by exfalso; omega)⟩
  | some d =>
    rw [hp] at hproc
    obtain ⟨h1, h2, h3, h4, h5⟩ := hproc
    refine ⟨hle, fun d' hd => (by cases hd; exact h2), fun hq => ?_⟩
    have hne := h5 (by omega)
    cases hf : d.formats with
    | nil => exact absurd hf hne
    | cons f rest => exact ⟨d, f, rfl, by rw [hf]; rfl⟩

/-- For every gain other than 1.0, whatever the callbacks do, and for gain 1.0
while no callback calls back into the processor: the processor is deleted at most
once, never while a job is in flight, and nothing runs on a deleted processor. -/
theorem sound_runs_delete_once (gain : F32) (w : World)
    (h : (F32.eqOne gain = false ∧ Reachable gain w) ∨ ReachablePlain gain w) :
    w.stale = false ∧ w.deletions ≤ 1 ∧
    (w.proc = none → w.deletions = 1 ∧ w.queued + w.finished = 0 ∧ w.handle = false) ∧
    (0 < w.queued + w.finished → ∃ d, w.proc = some d ∧ w.deletions = 0) :=
  World.Inv.delete_once w (h.elim (fun h => Reachable.inv_of_ne_one gain w h.1 h.2)
    (ReachablePlain.inv gain w))

/-- For every gain other than 1.0, whatever the callbacks do, and for gain 1.0
while no callback calls back into the processor: at most one job is in flight,
`working` tells whether one is, and a job that starts finds a front format. -/
theorem sound_runs_one_job (gain : F32) (w : World)
    (h : (F32.eqOne gain = false ∧ Reachable gain w) ∨ ReachablePlain gain w) :
    w.queued + w.finished ≤ 1 ∧
    (∀ d, w.proc = some d → (d.working = true ↔ w.queued + w.finished = 1)) ∧
    (0 < w.queued → ∃ d f, w.proc = some d ∧ d.formats.head? = some f) :=
  World.Inv.one_job w (h.elim (fun h => Reachable.inv_of_ne_one gain w h.1 h.2)
    (ReachablePlain.inv gain w))

/-- C15 fails on the code: with gain 1.0, a feed whose callback feeds a second
buffer submits two jobs, the second while the first is in flight. The inner feed
runs inside the completion handling that the outer feed performs before it goes on
to submit its own job. -/
theorem reentrant_identity_feed_submits_two_jobs :
    (World.created F32.one).run
        [Op.setFormat 2 16 44100 true,
         Op.feed ⟨9, [3, 4]⟩ (Script.feed ⟨11, [5, 6]⟩ (Script.done true) (Script.done true))] =
      some { proc := some (Data.mk F32.one true false [⟨2, 16, 44100, true⟩] ⟨9, [3, 4]⟩
               (some 9)),
             handle := true, queued := 2, finished := 0, deletions := 0, stale := false,
             trapped := false,
             log := [Event.call (Data.mk F32.one false false [⟨2, 16, 44100, true⟩] ⟨0, []⟩
                       none),
                     Event.call (Data.mk F32.one false false [⟨2, 16, 44100, true⟩] ⟨0, []⟩
                       none),
                     Event.queueWork, Event.queueWork] } := by
  decide

/-- C14 fails on the code: after the two submissions of a feed with gain 1.0 whose
callback feeds again, the first job completes and clears `working`, the release of
the handle then deletes the processor while the second job is in flight, and that
job runs on the deleted processor. -/
theorem reentrant_identity_feed_deletes_under_a_job :
    (World.created F32.one).run
        [Op.setFormat 2 16 44100 true,
         Op.feed ⟨9, [3, 4]⟩ (Script.feed ⟨11, [5, 6]⟩ (Script.done true) (Script.done true)),
         Op.work x86_64, Op.done (Script.done true), Op.release] =
      some { proc := none, handle := false, queued := 1, finished := 0, deletions := 1,
             stale := false, trapped := false,
             log := [Event.call (Data.mk F32.one false false [⟨2, 16, 44100, true⟩] ⟨0, []⟩
                       none),
                     Event.call (Data.mk F32.one false false [⟨2, 16, 44100, true⟩] ⟨0, []⟩
                       none),
                     Event.queueWork, Event.queueWork,
                     Event.call (Data.mk F32.one false false [⟨2, 16, 44100, true⟩]
                       ⟨9, [3, 4]⟩ none),
                     Event.destroy] } ∧
    ((World.created F32.one).run
        [Op.setFormat 2 16 44100 true,
         Op.feed ⟨9, [3, 4]⟩ (Script.feed ⟨11, [5, 6]⟩ (Script.done true) (Script.done true)),
         Op.work x86_64, Op.done (Script.done true), Op.release, Op.work x86_64]).map
      (fun w => w.stale) = some true := by
  decide

theorem first_queued_format_scales_the_job_witness :
    F32.eqOne F32.two = false ∧ (Buffer.mk 9 [3, 4]).size ≠ 0 ∧
    ∃ w3 d3, (World.created F32.two).run
        [Op.setFormat 2 16 44100 true, Op.setFormat 1 8 22050 false,
         Op.feed ⟨9, [3, 4]⟩ (Script.done true)] = some w3 ∧
      w3.proc = some d3 ∧ w3.queued = 1 ∧ d3.formats = [⟨2, 16, 44100, true⟩, ⟨1, 8, 22050, false⟩] ∧
      ∃ w5 d5, w3.run [Op.work x86_64, Op.done (Script.done true)] = some w5 ∧ w5.proc = some d5 ∧
        d5.formats = [⟨1, 8, 22050, false⟩] :=
  ⟨by decide, by decide, by
    obtain ⟨w3, d3, h1, h2, h3, -, h5, -, -, w5, d5, h8, h9, h10, -⟩ :=
      first_queued_format_scales_the_job x86_64 F32.two ⟨2, 16, 44100, true⟩
        ⟨1, 8, 22050, false⟩ ⟨9, [3, 4]⟩ (Script.done true) true (by decide) (by decide)
    exact ⟨w3, d3, h1, h2, h3, h5, w5, d5, h8, h9, h10⟩⟩

end MultiplyPcm
